import Mathlib

/-!
# MiniGit: a shallow embedding of `main.cpp` and `sha1.h`

Strings of the C++ program (`std::string`, file contents, paths) are embedded as
`List Char`, one `Char` per byte.  Machine integers are `Nat` with explicit
reduction modulo `2^32` or `2^64` where the C++ type wraps.

The file system is embedded as one map from file names to contents per directory:
the working directory, `.minigit/` (the two files `HEAD.txt` and `index.txt`, and
a map for any other file there) and `objects/`, `commits/`, `branches/` in it.  The
working directory has no directory but `.minigit` and no regular file of that name,
and it is the root of the file system, so `..` in it is the directory itself.

A path that the user supplies, or that is read from a commit file, is resolved
component by component (`resolve`): it leads to a directory, to a place for a file
in a directory, or nowhere when a component on the way is not a directory.  A
stream that cannot be opened reads nothing and writes nothing, as in the program,
which never tests its output streams.  So are embedded the paths of `add`, `branch`
and `checkout` and the paths that `checkout` and `merge` write.  The paths that
`commit`, `log`, `diff` and the first steps of `merge` build from a commit id, from
the branch name in `HEAD.txt` or from the name given to `merge` are looked up under
that name in the map of their directory, which is where the path leads when the
name has no `/`.

Standard output is embedded as the list of the lines written.  A command that
can throw (`substr` past the end of a string) or loop (the walks over the
history) returns `Except Fault`; loops carry fuel.
-/

namespace MiniGit

/-- A C++ `std::string`: a sequence of bytes. -/
abbrev Str := List Char

/-! ## sha1.h -/

/-- The five 32-bit digest words of `class SHA1`. -/
structure Digest where
  h0 : Nat
  h1 : Nat
  h2 : Nat
  h3 : Nat
  h4 : Nat
deriving DecidableEq, Repr

/-- The mutable fields of `class SHA1`: `digest`, the filled prefix of
`dataBuffer` (so `bufferIndex` is its length) and `messageLength`. -/
structure SHA1 where
  digest : Digest
  dataBuffer : List Nat
  messageLength : Nat
deriving DecidableEq, Repr

/-- `SHA1::rol` on `uint32_t`. -/
def rol (value bits : Nat) : Nat :=
  ((value <<< bits) % 2 ^ 32) ||| (value >>> (32 - bits))

/-- `SHA1::reset`. -/
def SHA1.reset : SHA1 :=
  { digest := ⟨0x67452301, 0xEFCDAB89, 0x98BADCFE, 0x10325476, 0xC3D2E1F0⟩
    dataBuffer := []
    messageLength := 0 }

/-- The first loop of `processBlock`: the big-endian words `w[0..15]`. -/
def blockWords : List Nat → List Nat
  | b0 :: b1 :: b2 :: b3 :: rest =>
      ((b0 <<< 24) ||| (b1 <<< 16) ||| (b2 <<< 8) ||| b3) % 2 ^ 32 :: blockWords rest
  | _ => []

/-- The second loop of `processBlock`: `w[i] = rol(w[i-3]^w[i-8]^w[i-14]^w[i-16], 1)`
for the next `n` indices; `w` is the schedule built so far. -/
def extendWords : Nat → List Nat → List Nat
  | 0, w => w
  | n + 1, w =>
      let i := w.length
      extendWords n
        (w ++ [rol (w.getD (i - 3) 0 ^^^ w.getD (i - 8) 0 ^^^ w.getD (i - 14) 0 ^^^
                    w.getD (i - 16) 0) 1])

/-- One iteration of the 80-round loop of `processBlock` at index `i`. -/
def sha1Round (i wi : Nat) (v : Digest) : Digest :=
  let a := v.h0
  let b := v.h1
  let c := v.h2
  let d := v.h3
  let e := v.h4
  let f :=
    if i < 20 then (b &&& c) ||| ((b ^^^ 0xFFFFFFFF) &&& d)
    else if i < 40 then b ^^^ c ^^^ d
    else if i < 60 then (b &&& c) ||| (b &&& d) ||| (c &&& d)
    else b ^^^ c ^^^ d
  let k :=
    if i < 20 then 0x5A827999
    else if i < 40 then 0x6ED9EBA1
    else if i < 60 then 0x8F1BBCDC
    else 0xCA62C1D6
  let temp := (rol a 5 + f + e + k + wi) % 2 ^ 32
  ⟨temp, a, rol b 30, c, d⟩

/-- The 80-round loop, from index `i` over the remaining schedule words. -/
def sha1Rounds : Nat → List Nat → Digest → Digest
  | _, [], v => v
  | i, wi :: ws, v => sha1Rounds (i + 1) ws (sha1Round i wi v)

/-- `SHA1::processBlock`. -/
def processBlock (dg : Digest) (block : List Nat) : Digest :=
  let w := extendWords 64 (blockWords block)
  let v := sha1Rounds 0 w dg
  ⟨(dg.h0 + v.h0) % 2 ^ 32, (dg.h1 + v.h1) % 2 ^ 32, (dg.h2 + v.h2) % 2 ^ 32,
   (dg.h3 + v.h3) % 2 ^ 32, (dg.h4 + v.h4) % 2 ^ 32⟩

/-- One iteration of the loop of `SHA1::update`. -/
def SHA1.updateByte (st : SHA1) (byte : Nat) : SHA1 :=
  let buf := st.dataBuffer ++ [byte % 256]
  let len := (st.messageLength + 8) % 2 ^ 64
  if buf.length = 64 then
    { digest := processBlock st.digest buf, dataBuffer := [], messageLength := len }
  else
    { digest := st.digest, dataBuffer := buf, messageLength := len }

/-- `SHA1::update(const std::string&)`. -/
def SHA1.update (st : SHA1) (s : Str) : SHA1 :=
  s.foldl (fun acc c => acc.updateByte c.toNat) st

/-- The stream manipulators `std::hex << std::setw(8) << std::setfill('0')`
applied to one `uint32_t`. -/
def hex8 (n : Nat) : Str :=
  let ds := Nat.toDigits 16 n
  List.replicate (8 - ds.length) '0' ++ ds

/-- `SHA1::final`. -/
def SHA1.final (st : SHA1) : Str :=
  let buf1 := st.dataBuffer ++ [0x80]
  let (dg1, buf2) :=
    if buf1.length > 56 then
      (processBlock st.digest (buf1 ++ List.replicate (64 - buf1.length) 0), ([] : List Nat))
    else (st.digest, buf1)
  let buf3 := buf2 ++ List.replicate (56 - buf2.length) 0
  let lenBytes :=
    [7, 6, 5, 4, 3, 2, 1, 0].map (fun i => (st.messageLength >>> (i * 8)) &&& 0xFF)
  let dg := processBlock dg1 (buf3 ++ lenBytes)
  hex8 dg.h0 ++ hex8 dg.h1 ++ hex8 dg.h2 ++ hex8 dg.h3 ++ hex8 dg.h4

/-- The free function `sha1`. -/
def sha1 (s : Str) : Str :=
  (SHA1.reset.update s).final

/-! ## main.cpp -/

/-- `simpleHash`. -/
def simpleHash (content : Str) : Str :=
  sha1 content

/-! ### Stream and string primitives -/

/-- How a run of the program can fail to return: an uncaught
`std::out_of_range` (thrown by `substr`), or a loop that is still running when
the fuel of the embedding is used up. -/
inductive Fault where
  | outOfRange
  | outOfFuel
deriving DecidableEq, Repr

/-- The lines that `while (getline(file, line))` reads from a stream holding
`text`: the text is cut at each newline, and a final line without a newline
is read as well when it is not empty. -/
def getlines : Str → List Str
  | [] => []
  | c :: cs =>
      if c = '\n' then [] :: getlines cs
      else
        match getlines cs with
        | [] => [[c]]
        | l :: ls => (c :: l) :: ls

/-- The first `getline(file, str)` on a freshly opened stream: a stream that
is not open leaves `str` as it was, an open one erases it and reads the first
line. -/
def getline (file : Option Str) (str : Str) : Str :=
  match file with
  | none => str
  | some text => (getlines text).headD []

/-- The truth value of the first `getline(file, str)` on a freshly opened
stream. -/
def getlineOk (file : Option Str) : Bool :=
  match file with
  | none => false
  | some text => !(getlines text).isEmpty

/-- The test `s.rfind(pre, 0) == 0`. -/
def startsWith (pre s : Str) : Bool :=
  pre.isPrefixOf s

/-- The call `s.substr(pos)`, which throws when `pos > s.size()`. -/
def substr (s : Str) (pos : Nat) : Except Fault Str :=
  if pos ≤ s.length then .ok (s.drop pos) else .error .outOfRange

/-- The function `isspace` of the C locale. -/
def isSpace (c : Char) : Bool :=
  c = ' ' || c = '\t' || c = '\n' || c = '\x0b' || c = '\x0c' || c = '\r'

/-- One `ss >> word`: skips white space, then reads up to the next white
space; gives the word and the rest of the stream.  A failed extraction leaves
the freshly declared word empty. -/
def extractWord (s : Str) : Str × Str :=
  let t := s.dropWhile isSpace
  (t.takeWhile (fun c => !isSpace c), t.dropWhile (fun c => !isSpace c))

/-- The statements `istringstream ss(line); ss >> filename >> hash;`. -/
def parseEntry (line : Str) : Str × Str :=
  let first := extractWord line
  (first.1, (extractWord first.2).1)

/-- The loop that reads the entries of a commit file: every non-empty line
after a line `Files:` gives one `(filename, hash)` pair. -/
def parseFiles : Bool → List Str → List (Str × Str)
  | _, [] => []
  | inFiles, line :: rest =>
      if line = "Files:".toList then parseFiles true rest
      else if inFiles && !line.isEmpty then parseEntry line :: parseFiles inFiles rest
      else parseFiles inFiles rest

/-- An `ofstream`: the text written so far and whether the stream is still
good. -/
structure OStream where
  text : Str
  good : Bool
deriving DecidableEq, Repr

/-- A freshly opened (truncated) `ofstream`. -/
def OStream.opened : OStream :=
  { text := [], good := true }

/-- The insertion `out << s` of a string. -/
def OStream.write (o : OStream) (s : Str) : OStream :=
  if o.good then { o with text := o.text ++ s } else o

/-- The insertion `out << in.rdbuf()`: it copies the source, and sets
`failbit` on `out` when it inserts no character (source not open, or empty),
after which nothing more is written. -/
def OStream.writeBuf (o : OStream) (src : Option Str) : OStream :=
  if o.good then
    match src with
    | some (c :: cs) => { o with text := o.text ++ c :: cs }
    | _ => { o with good := false }
  else o

/-- A directory of files, by name. -/
abbrev Files := Str → Option Str

/-- The directory after `content` was written to the file `path`. -/
def writeFile (dir : Files) (path content : Str) : Files :=
  fun q => if q = path then some content else dir q

/-- A `std::map<string, string>`: the pairs in increasing key order. -/
abbrev FileMap := List (Str × Str)

/-- The assignment `files[k] = v`. -/
def mapSet (k v : Str) : FileMap → FileMap
  | [] => [(k, v)]
  | (k', v') :: rest =>
      if k = k' then (k, v) :: rest
      else if k < k' then (k, v) :: (k', v') :: rest
      else (k', v') :: mapSet k v rest

/-- The lookup `files.find(k)`. -/
def mapFind (m : FileMap) (k : Str) : Option Str :=
  (m.find? (fun e => e.1 = k)).map Prod.snd

/-- The read `files[k]`, which is the empty string for a missing key. -/
def mapGet (m : FileMap) (k : Str) : Str :=
  (mapFind m k).getD []

/-! ### The repository -/

/-- The persistent state: whether `.minigit` exists, its three directories (the
files of `commits/` and `branches/` by their name without the ending `.txt`),
`HEAD.txt`, `index.txt`, the regular files of the working directory by name, and the
other files under `.minigit/` (by name, with `commits/` or `branches/` in front
for a file of these directories whose name does not end in `.txt`). -/
structure Repo where
  initialized : Bool
  objects : Files
  commits : Files
  branches : Files
  head : Option Str
  index : Option Str
  files : Files
  other : Files := fun _ => none

/-- A working directory without a repository. -/
def Repo.bare (work : Files) : Repo :=
  { initialized := false
    objects := fun _ => none
    commits := fun _ => none
    branches := fun _ => none
    head := none
    index := none
    files := work }

/-! ### Paths -/

/-- The directories of the embedding: the working directory, `.minigit` and the
three directories in it. -/
inductive Dir where
  | top
  | repo
  | objects
  | commits
  | branches
deriving DecidableEq, Repr

/-- The directory that `..` names in a directory. -/
def Dir.parent : Dir → Dir
  | .top => .top
  | .repo => .top
  | .objects => .repo
  | .commits => .repo
  | .branches => .repo

/-- The directory called `name` in a directory, when there is one; `.minigit` is
there once the repository exists. -/
def Dir.child (initialized : Bool) : Dir → Str → Option Dir
  | .top, name => if initialized && name = ".minigit".toList then some .repo else none
  | .repo, name =>
      if name = "objects".toList then some .objects
      else if name = "commits".toList then some .commits
      else if name = "branches".toList then some .branches
      else none
  | _, _ => none

/-- What a path leads to: a directory, the place of a file in a directory (the file
need not exist), or nothing. -/
inductive Node where
  | dir (d : Dir)
  | file (d : Dir) (name : Str)
  | nothing
deriving DecidableEq, Repr

/-- The components of a path: the pieces between its `/` characters. -/
def components : Str → List Str
  | [] => [[]]
  | c :: cs =>
      if c = '/' then [] :: components cs
      else
        match components cs with
        | [] => [[c]]
        | x :: xs => (c :: x) :: xs

/-- Path resolution from a directory: an empty component and `.` stay, `..` goes
up, the name of a directory goes down; any other name must be the last component
and is the place of a file.  No file is called `.minigit` in the working
directory. -/
def walk (initialized : Bool) : Dir → List Str → Node
  | d, [] => .dir d
  | d, name :: rest =>
      if name = [] ∨ name = ".".toList then walk initialized d rest
      else if name = "..".toList then walk initialized d.parent rest
      else
        match d.child initialized name with
        | some d' => walk initialized d' rest
        | none =>
            if rest = [] ∧ ¬(d = .top ∧ name = ".minigit".toList) then .file d name
            else .nothing

/-- What the path string `path` leads to from the working directory; the empty
path leads nowhere. -/
def resolve (initialized : Bool) (path : Str) : Node :=
  if path = [] then .nothing else walk initialized .top (components path)

/-- The name without the ending `.txt`, for a name that ends so. -/
def stripTxt (name : Str) : Option Str :=
  match name.reverse with
  | 't' :: 'x' :: 't' :: '.' :: r => some r.reverse
  | _ => none

/-- The content of the file `name` of the directory `d`, when there is such a
file. -/
def Repo.file (s : Repo) : Dir → Str → Option Str
  | .top, name => s.files name
  | .repo, name =>
      if name = "HEAD.txt".toList then s.head
      else if name = "index.txt".toList then s.index
      else s.other name
  | .objects, name => s.objects name
  | .commits, name =>
      match stripTxt name with
      | some k => s.commits k
      | none => s.other ("commits/".toList ++ name)
  | .branches, name =>
      match stripTxt name with
      | some k => s.branches k
      | none => s.other ("branches/".toList ++ name)

/-- The state after `content` was written to the file `name` of the directory
`d`. -/
def Repo.setFile (s : Repo) (d : Dir) (name content : Str) : Repo :=
  match d with
  | .top => { s with files := writeFile s.files name content }
  | .repo =>
      if name = "HEAD.txt".toList then { s with head := some content }
      else if name = "index.txt".toList then { s with index := some content }
      else { s with other := writeFile s.other name content }
  | .objects => { s with objects := writeFile s.objects name content }
  | .commits =>
      match stripTxt name with
      | some k => { s with commits := writeFile s.commits k content }
      | none => { s with other := writeFile s.other ("commits/".toList ++ name) content }
  | .branches =>
      match stripTxt name with
      | some k => { s with branches := writeFile s.branches k content }
      | none => { s with other := writeFile s.other ("branches/".toList ++ name) content }

/-- The regular file that the path string `path` names: its content, when the path
leads to a file that exists. -/
def Repo.work (s : Repo) (path : Str) : Option Str :=
  match resolve s.initialized path with
  | .file d name => s.file d name
  | _ => none

/-- The test `fs::exists(path)`: true for a directory and for a file that
exists. -/
def pathExists (s : Repo) (path : Str) : Bool :=
  match resolve s.initialized path with
  | .dir _ => true
  | .file d name => (s.file d name).isSome
  | .nothing => false

/-- What an `ifstream` on `path` holds: nothing when it cannot be opened; a
directory can be opened and gives no byte. -/
def readPath (s : Repo) (path : Str) : Option Str :=
  match resolve s.initialized path with
  | .dir _ => some []
  | .file d name => s.file d name
  | .nothing => none

/-- The state after `ofstream out(path)`, the writing of `content` and the closing
of the stream: the file is created or replaced; when the path leads to a directory
or nowhere the stream is not open and nothing changes. -/
def writePath (s : Repo) (path content : Str) : Repo :=
  match resolve s.initialized path with
  | .file d name => s.setFile d name content
  | _ => s

/-- `initMiniGit`. -/
def initMiniGit (s : Repo) : Repo × List Str :=
  if s.initialized then (s, ["MiniGit repo already initialized.\n".toList])
  else
    ({ s with initialized := true, head := some "ref: main\n".toList },
     ["Initialized empty MiniGit repository in .minigit/\n".toList])

/-- The object-store step of `addFileToStaging` ("save blob if not already
saved"). -/
def saveBlob (objects : Files) (content : Str) : Files :=
  if objects (simpleHash content) = none then
    writeFile objects (simpleHash content) content
  else objects

/-- `addFileToStaging`. -/
def addFileToStaging (filename : Str) (s : Repo) : Repo × List Str :=
  if !s.initialized then
    (s, ["Repository not initialized. Run './minigit init' first.\n".toList])
  else if !pathExists s filename then
    (s, ["File not found: ".toList ++ filename ++ "\n".toList])
  else
    let content := (readPath s filename).getD []
    let hash := simpleHash content
    ({ s with
        objects := saveBlob s.objects content
        index := some (s.index.getD [] ++ (filename ++ " ".toList ++ hash ++ "\n".toList)) },
     ["Added '".toList ++ filename ++ "' to staging area.\n".toList])

/-- The block "get parent commit from HEAD" of `commitChanges`. -/
def resolveHead (s : Repo) : Except Fault Str :=
  if getlineOk s.head then
    let headContent := getline s.head []
    if startsWith "ref:".toList headContent then do
      let branchName ← substr headContent 5
      pure (getline (s.branches branchName) "null".toList)
    else pure headContent
  else pure "null".toList

/-- The text of a commit file as `commitChanges` writes it. -/
def commitText (commitHash parentHash timestamp message staged : Str) : Str :=
  "Commit: ".toList ++ commitHash ++ "\n".toList ++
  "Parent: ".toList ++ parentHash ++ "\n".toList ++
  "Date: ".toList ++ timestamp ++
  "Message: ".toList ++ message ++ "\n".toList ++
  "Files:\n".toList ++ staged

/-- `commitChanges`; the result of `getCurrentTimestamp()` is the argument
`timestamp`. -/
def commitChanges (message timestamp : Str) (s : Repo) : Except Fault (Repo × List Str) :=
  match s.initialized, s.index with
  | true, some staged =>
      if staged = [] then pure (s, ["No files staged for commit.\n".toList])
      else do
        let parentHash ← resolveHead s
        let commitHash := simpleHash (message ++ timestamp ++ staged)
        let commits := writeFile s.commits commitHash
          (commitText commitHash parentHash timestamp message staged)
        let headContent := getline s.head []
        if startsWith "ref:".toList headContent then do
          let branchName ← substr headContent 5
          pure ({ s with
                  commits := commits
                  branches := writeFile s.branches branchName (commitHash ++ "\n".toList)
                  index := some [] },
                ["Committed with hash: ".toList ++ commitHash ++ "\n".toList])
        else
          pure ({ s with
                  commits := commits
                  head := some (commitHash ++ "\n".toList)
                  index := some [] },
                ["Committed with hash: ".toList ++ commitHash ++ "\n".toList])
  | _, _ =>
      pure (s, ["Nothing to commit. Stage files first using './minigit add <file>'.\n".toList])

/-- The inner loop of `showCommitLog` over the lines of one commit file: the
last line that starts with `Parent:` gives the parent. -/
def logParent : List Str → Str → Except Fault Str
  | [], parentHash => pure parentHash
  | line :: rest, parentHash =>
      if startsWith "Parent:".toList line then do
        let p ← substr line 8
        logParent rest p
      else logParent rest parentHash

/-- The lines of a commit file that `showCommitLog` prints. -/
def isLogLine (line : Str) : Bool :=
  startsWith "Commit:".toList line || startsWith "Date:".toList line ||
    startsWith "Message:".toList line

/-- The loop "traverse commit history" of `showCommitLog`, run for at most
`fuel` iterations; the result is the output. -/
def logWalk (commits : Files) : Nat → Str → Except Fault (List Str)
  | 0, _ => .error .outOfFuel
  | fuel + 1, currentHash =>
      if currentHash = "null".toList then pure []
      else
        match commits currentHash with
        | none =>
            pure ["Error: Commit file missing for hash ".toList ++ currentHash ++ "\n".toList]
        | some text => do
            let parentHash ← logParent (getlines text) "null".toList
            let rest ← logWalk commits fuel parentHash
            pure ("------------------------------\n".toList ::
              ((getlines text).filter isLogLine).map (fun l => l ++ "\n".toList) ++ rest)

/-- `showCommitLog`; only the output changes. -/
def showCommitLog (fuel : Nat) (s : Repo) : Except Fault (List Str) :=
  match s.head with
  | none => pure ["Repository not initialized or no commits yet.\n".toList]
  | some headText =>
      let headContent := getline (some headText) []
      if startsWith "ref:".toList headContent then do
        let branchName ← substr headContent 5
        match s.branches branchName with
        | none => pure ["Error: Branch '".toList ++ branchName ++ "' not found.\n".toList]
        | some b => do
            let lines ← logWalk s.commits fuel (getline (some b) headContent)
            pure (lines ++ ["------------------------------\n".toList])
      else do
        let lines ← logWalk s.commits fuel headContent
        pure (lines ++ ["------------------------------\n".toList])

/-- `createBranch`. -/
def createBranch (branchName : Str) (s : Repo) : Except Fault (Repo × List Str) :=
  let branchPath := ".minigit/branches/".toList ++ branchName ++ ".txt".toList
  match s.head with
  | none => pure (s, ["Repository not initialized.\n".toList])
  | some headText =>
      if pathExists s branchPath then
        pure (s, ["Branch '".toList ++ branchName ++ "' already exists.\n".toList])
      else
        let headContent := getline (some headText) []
        if startsWith "ref:".toList headContent then do
          let currentBranch ← substr headContent 5
          let branchFilePath := ".minigit/branches/".toList ++ currentBranch ++ ".txt".toList
          if !pathExists s branchFilePath then
            pure (s, ["Error: Cannot create branch before first commit on current branch '".toList
              ++ currentBranch ++ "'.\n".toList])
          else
            let currentCommitHash := getline (readPath s branchFilePath) []
            pure (writePath s branchPath (currentCommitHash ++ "\n".toList),
                  ["Created new branch '".toList ++ branchName ++ "' at commit: ".toList ++
                    currentCommitHash ++ "\n".toList])
        else
          pure (writePath s branchPath (headContent ++ "\n".toList),
                ["Created new branch '".toList ++ branchName ++ "' at commit: ".toList ++
                  headContent ++ "\n".toList])

/-- The copy `outFile << blobFile.rdbuf()` of `checkoutTarget` and of `mergeBranch`,
with `ofstream outFile(filename)` opened before the first byte of the object is
read: the file is emptied, then the object is read and written to it.  Nothing
changes when the output cannot be opened. -/
def copyBlob (s : Repo) (blobPath filename : Str) : Repo :=
  writePath s filename ((readPath (writePath s filename []) blobPath).getD [])

/-- The loop "overwrite working directory files" of `checkoutTarget`: the state
and the output after the given entries. -/
def restoreFiles : List (Str × Str) → Repo → Repo × List Str
  | [], s => (s, [])
  | (filename, hash) :: rest, s =>
      let blobPath := ".minigit/objects/".toList ++ hash
      if pathExists s blobPath then restoreFiles rest (copyBlob s blobPath filename)
      else
        let r := restoreFiles rest s
        (r.1, ("Missing blob for ".toList ++ filename ++ "\n".toList) :: r.2)

/-- `checkoutTarget`. -/
def checkoutTarget (target : Str) (s : Repo) : Repo × List Str :=
  let branchPath := ".minigit/branches/".toList ++ target ++ ".txt".toList
  let isBranch := pathExists s branchPath
  let commitHash := if isBranch then getline (readPath s branchPath) target else target
  let commitFilePath := ".minigit/commits/".toList ++ commitHash ++ ".txt".toList
  if !pathExists s commitFilePath then
    (s, ["Commit not found for: ".toList ++ target ++ "\n".toList])
  else
    let files := parseFiles false (getlines ((readPath s commitFilePath).getD []))
    let r := restoreFiles files s
    ({ r.1 with
        head := some (if isBranch then "ref: ".toList ++ target ++ "\n".toList
                      else commitHash ++ "\n".toList) },
     r.2 ++ ["Checked out ".toList ++ (if isBranch then "branch".toList else "commit".toList)
              ++ ": ".toList ++ target ++ "\n".toList])

/-- The parent that both loops of step 3 of `mergeBranch` read from the commit
file of `walker`: the text after the first line that starts with `Parent:`,
and `null` when there is no such line or no such file. -/
def parentOf (commits : Files) (walker : Str) : Except Fault Str :=
  match commits walker with
  | none => pure "null".toList
  | some text =>
      match (getlines text).find? (startsWith "Parent:".toList) with
      | none => pure "null".toList
      | some line => substr line 8

/-- The first loop of step 3 of `mergeBranch`, run for at most `fuel`
iterations: the ids put into `visited`, in the order of the walk. -/
def ancestorWalk (commits : Files) : Nat → Str → Except Fault (List Str)
  | 0, _ => .error .outOfFuel
  | fuel + 1, walker =>
      if walker = "null".toList then pure []
      else do
        let parent ← parentOf commits walker
        let rest ← ancestorWalk commits fuel parent
        pure (walker :: rest)

/-- The second loop of step 3 of `mergeBranch`, run for at most `fuel`
iterations: the value of `lca` when the loop ends. -/
def findLca (commits : Files) (visited : List Str) : Nat → Str → Except Fault Str
  | 0, _ => .error .outOfFuel
  | fuel + 1, walker =>
      if walker = "null".toList then pure "null".toList
      else if walker ∈ visited then pure walker
      else do
        let parent ← parentOf commits walker
        findLca commits visited fuel parent

/-- Step 3 of `mergeBranch` ("find LCA"): the set of the ancestors of the current
tip, then the walk from the target tip; the result is `null` when they do not
meet. -/
def lowestCommonAncestor (commits : Files) (fuel : Nat) (currentHash targetHash : Str) :
    Except Fault Str := do
  let visited ← ancestorWalk commits fuel currentHash
  findLca commits visited fuel targetHash

/-- The lambda `loadFiles` of `mergeBranch`. -/
def loadFiles (commits : Files) (hash : Str) : FileMap :=
  (parseFiles false (getlines ((commits hash).getD []))).foldl
    (fun files e => mapSet e.1 e.2 files) []

/-- The file that the conflict branch of step 5 of `mergeBranch` writes, from what
the streams on the two objects hold. -/
def conflictFile (a b : Option Str) (targetBranch : Str) : Str :=
  ((((OStream.opened.write "<<<<<<< current\n".toList).writeBuf a).write
      "\n=======\n".toList).writeBuf b).write
      ("\n>>>>>>> ".toList ++ targetBranch ++ "\n".toList) |>.text

/-- The file that the branch "apply non-conflicting change" of step 5 of
`mergeBranch` writes, from what the stream on the object holds. -/
def appliedFile (blob : Option Str) : Str :=
  (OStream.opened.writeBuf blob).text

/-- The line that reports a conflict on `filename`. -/
def conflictLine (filename : Str) : Str :=
  "CONFLICT: both modified ".toList ++ filename ++ "\n".toList

/-- The line that reports an applied change on `filename`. -/
def mergedLine (targetBranch filename : Str) : Str :=
  "Merged change from ".toList ++ targetBranch ++ ": ".toList ++ filename ++ "\n".toList

/-- The conflict branch of step 5 of `mergeBranch` for one file: the output is
opened (and the file emptied) first, the two objects are read while it is written,
and the text reaches the file when the stream is closed. -/
def writeConflict (s : Repo) (filename blobA blobB targetBranch : Str) : Repo :=
  let opened := writePath s filename []
  writePath s filename
    (conflictFile (readPath opened (".minigit/objects/".toList ++ blobA))
      (readPath opened (".minigit/objects/".toList ++ blobB)) targetBranch)

/-- The branch "apply non-conflicting change" of step 5 of `mergeBranch` for one
file: the stream on the object is opened, then the output, then the object is
copied. -/
def writeApplied (s : Repo) (filename blob : Str) : Repo :=
  writePath s filename
    (appliedFile (readPath (writePath s filename []) (".minigit/objects/".toList ++ blob)))

/-- Step 5 of `mergeBranch`, the loop over the entries of the common
ancestor: the state and the output after the given entries. -/
def mergeFiles (currentFiles targetFiles : FileMap) (targetBranch : Str) :
    List (Str × Str) → Repo → Repo × List Str
  | [], s => (s, [])
  | (filename, lcaBlob) :: rest, s =>
      let blobA := mapGet currentFiles filename
      let blobB := mapGet targetFiles filename
      if blobA = blobB || blobB.isEmpty then
        mergeFiles currentFiles targetFiles targetBranch rest s
      else if blobA ≠ lcaBlob && blobB ≠ lcaBlob && blobA ≠ blobB then
        let r := mergeFiles currentFiles targetFiles targetBranch rest
          (writeConflict s filename blobA blobB targetBranch)
        (r.1, conflictLine filename :: r.2)
      else
        let r := mergeFiles currentFiles targetFiles targetBranch rest
          (writeApplied s filename blobB)
        (r.1, mergedLine targetBranch filename :: r.2)

/-- What steps 1 to 3 of `mergeBranch` hand to the rest of it. -/
inductive MergeBase where
  | detached
  | noBranch
  | noAncestor
  | found (currentBranch currentHash targetHash lca : Str)
deriving DecidableEq, Repr

/-- Steps 1 to 3 of `mergeBranch`: the current branch, the two tips and
their lowest common ancestor, or the reason for the early return. -/
def mergeBase (fuel : Nat) (targetBranch : Str) (s : Repo) : Except Fault MergeBase :=
  let headContent := getline s.head []
  if !startsWith "ref:".toList headContent then pure .detached
  else do
    let currentBranch ← substr headContent 5
    match s.branches currentBranch, s.branches targetBranch with
    | some cur, some tgt =>
        let currentHash := getline (some cur) []
        let targetHash := getline (some tgt) []
        let lca ← lowestCommonAncestor s.commits fuel currentHash targetHash
        if lca = "null".toList then pure .noAncestor
        else pure (.found currentBranch currentHash targetHash lca)
    | _, _ => pure .noBranch

/-- `mergeBranch`; its two loops over the history run for at most `fuel`
iterations each. -/
def mergeBranch (fuel : Nat) (targetBranch : Str) (s : Repo) : Except Fault (Repo × List Str) := do
  match ← mergeBase fuel targetBranch s with
  | .detached =>
      pure (s, ["You must be on a branch to perform a merge (not detached).\n".toList])
  | .noBranch => pure (s, ["Error: One or both branches do not exist.\n".toList])
  | .noAncestor => pure (s, ["No common ancestor. Cannot merge.\n".toList])
  | .found currentBranch currentHash targetHash lca =>
      let lcaFiles := loadFiles s.commits lca
      let currentFiles := loadFiles s.commits currentHash
      let targetFiles := loadFiles s.commits targetHash
      let r := mergeFiles currentFiles targetFiles targetBranch lcaFiles s
      pure (r.1,
        ("Merging branch '".toList ++ targetBranch ++ "' into '".toList ++ currentBranch ++
            "'\n".toList) ::
        ("Lowest Common Ancestor: ".toList ++ lca ++ "\n".toList) ::
        (r.2 ++ ["Merge complete. Please resolve conflicts and commit the result.\n".toList]))

/-- The lambda `loadFiles` of `diffCommits`: the entries of a commit file, and the line
that it prints when the file cannot be opened. -/
def diffLoadFiles (commits : Files) (hash : Str) : FileMap × List Str :=
  match commits hash with
  | none => ([], ["Commit not found: ".toList ++ hash ++ "\n".toList])
  | some text =>
      ((parseFiles false (getlines text)).foldl (fun files e => mapSet e.1 e.2 files) [], [])

/-- The loop `while (getline(file, line)) lines.push_back(line)` of `diffCommits` over
an object file; a file that cannot be opened gives no line. -/
def readLines (file : Option Str) : List Str :=
  match file with
  | none => []
  | some text => getlines text

/-- The body of the loop of `diffCommits` over the line indices: what it prints for the
index `i`. -/
def diffLine (lines1 lines2 : List Str) (i : Nat) : List Str :=
  let a := if h : i < lines1.length then lines1[i] else []
  let b := if h : i < lines2.length then lines2[i] else []
  if a ≠ b then
    (if !a.isEmpty then ["- ".toList ++ a ++ "\n".toList] else []) ++
      (if !b.isEmpty then ["+ ".toList ++ b ++ "\n".toList] else [])
  else []

/-- The loop of `diffCommits` over the line indices `0 .. maxLines - 1`. -/
def diffLines (lines1 lines2 : List Str) : List Str :=
  (List.range (max lines1.length lines2.length)).flatMap (diffLine lines1 lines2)

/-- The body of the loop of `diffCommits` over the entries of the first commit: nothing
for a path that the second commit does not hold, and otherwise the heading, the lines
of the comparison and the closing rule. -/
def diffEntry (objects : Files) (files2 : FileMap) (filename blob1 : Str) : List Str :=
  match mapFind files2 filename with
  | none => []
  | some blob2 =>
      ("Diff: ".toList ++ filename ++ "\n".toList) ::
        (diffLines (readLines (objects blob1)) (readLines (objects blob2)) ++
          ["--------------------------\n".toList])

/-- `diffCommits`; it changes nothing, the result is the output. -/
def diffCommits (hash1 hash2 : Str) (s : Repo) : List Str :=
  let files1 := diffLoadFiles s.commits hash1
  let files2 := diffLoadFiles s.commits hash2
  files1.2 ++ files2.2 ++ files1.1.flatMap (fun e => diffEntry s.objects files2.1 e.1 e.2)

/-! ### Auxiliary predicates and example states -/

/-- A lower-case hexadecimal digit. -/
def isHexChar (c : Char) : Bool :=
  ('0' ≤ c && c ≤ '9') || ('a' ≤ c && c ≤ 'f')

/-- The working directory of the examples: one file `f` with content `x`. -/
def demoWork : Files :=
  fun p => if p = "f".toList then some "x".toList else none

/-- The repository of the examples: `init`, then `add f`. -/
def demoRepo : Repo :=
  (addFileToStaging "f".toList (initMiniGit (Repo.bare demoWork)).1).1

/-- The states that the commands `init`, `add`, `commit`, `branch`, `checkout` and
`merge` can produce from a working directory without a repository, with the user
editing working files in between. -/
inductive Reachable : Repo → Prop where
  | init (work : Files) : Reachable (initMiniGit (Repo.bare work)).1
  | add (filename : Str) (s : Repo) : Reachable s → Reachable (addFileToStaging filename s).1
  | commit (message timestamp : Str) (s s' : Repo) (out : List Str) :
      Reachable s → commitChanges message timestamp s = .ok (s', out) → Reachable s'
  | branch (branchName : Str) (s s' : Repo) (out : List Str) :
      Reachable s → createBranch branchName s = .ok (s', out) → Reachable s'
  | checkout (target : Str) (s : Repo) : Reachable s → Reachable (checkoutTarget target s).1
  | edit (work : Files) (s : Repo) : Reachable s → Reachable { s with files := work }
  | merge (fuel : Nat) (targetBranch : Str) (s s' : Repo) (out : List Str) :
      Reachable s → mergeBranch fuel targetBranch s = .ok (s', out) → Reachable s'

/-- The commit message of the examples. -/
def demoMessage : Str := "m".toList

/-- The clock reading of the examples, as `ctime` prints it. -/
def demoTimestamp : Str := "Sun Nov  1 00:00:00 2026\n".toList

/-- The staging log of `demoRepo`. -/
def demoStaged : Str :=
  "f".toList ++ " ".toList ++ simpleHash "x".toList ++ "\n".toList

/-- The id of a commit of `demoStaged` with `demoMessage` at `demoTimestamp`. -/
def demoId : Str :=
  simpleHash (demoMessage ++ demoTimestamp ++ demoStaged)

/-- The repository after `commit -m m` in `demoRepo`. -/
def demoRepo1 : Repo :=
  { demoRepo with
    commits := writeFile demoRepo.commits demoId
      (commitText demoId "null".toList demoTimestamp demoMessage demoStaged)
    branches := writeFile demoRepo.branches "main".toList (demoId ++ "\n".toList)
    index := some [] }

/-- The repository after `add f` in `demoRepo1`. -/
def demoRepo2 : Repo :=
  (addFileToStaging "f".toList demoRepo1).1

/-- The repository after a second `commit -m m` within the same second, in
`demoRepo2`. -/
def demoRepo3 : Repo :=
  { demoRepo2 with
    commits := writeFile demoRepo2.commits demoId
      (commitText demoId demoId demoTimestamp demoMessage demoStaged)
    branches := writeFile demoRepo2.branches "main".toList (demoId ++ "\n".toList)
    index := some [] }

/-- The commit store of the history `root -> A -> B` with the branch `A -> C`. -/
def treeCommits : Files := fun k =>
  if k = "root".toList then
    some (commitText "root".toList "null".toList demoTimestamp demoMessage demoStaged)
  else if k = "A".toList then
    some (commitText "A".toList "root".toList demoTimestamp demoMessage demoStaged)
  else if k = "B".toList then
    some (commitText "B".toList "A".toList demoTimestamp demoMessage demoStaged)
  else if k = "C".toList then
    some (commitText "C".toList "A".toList demoTimestamp demoMessage demoStaged)
  else none

/-- A path or fingerprint that `ss >> word` reads back whole: not empty and without
white space. -/
def IsWord (w : Str) : Prop :=
  w ≠ [] ∧ ∀ c ∈ w, isSpace c = false

/-- The text that staging the given `(filename, hash)` pairs appends to `index.txt`. -/
def indexText : List (Str × Str) → Str
  | [] => []
  | (filename, hash) :: rest =>
      (filename ++ " ".toList ++ hash ++ "\n".toList) ++ indexText rest

/-- The clock reading of the second commit of the examples. -/
def forkTimestamp : Str := "Sun Nov  1 00:00:01 2026\n".toList

/-- The staging log after `add f` with `f` empty. -/
def forkStaged : Str :=
  "f".toList ++ " ".toList ++ simpleHash [] ++ "\n".toList

/-- The id of the commit of `forkStaged` with `demoMessage` at `forkTimestamp`. -/
def forkId : Str :=
  simpleHash (demoMessage ++ forkTimestamp ++ forkStaged)

/-- The clock reading of the third commit of the examples. -/
def sideTimestamp : Str := "Sun Nov  1 00:00:02 2026\n".toList

/-- The staging log after `add f` with `f` holding `z`. -/
def sideStaged : Str :=
  "f".toList ++ " ".toList ++ simpleHash "z".toList ++ "\n".toList

/-- The id of the commit of `sideStaged` with `demoMessage` at `sideTimestamp`. -/
def sideId : Str :=
  simpleHash (demoMessage ++ sideTimestamp ++ sideStaged)

/-- The directory `objects/` after `x` was staged. -/
def blobs1 : Files := saveBlob (fun _ => none) "x".toList

/-- The directory `objects/` after the empty content was staged as well. -/
def blobs2 : Files := saveBlob blobs1 []

/-- The directory `objects/` after `z` was staged as well. -/
def blobs3 : Files := saveBlob blobs2 "z".toList

/-- The directory `commits/` after the first commit. -/
def records1 : Files :=
  writeFile (fun _ => none) demoId
    (commitText demoId "null".toList demoTimestamp demoMessage demoStaged)

/-- The directory `commits/` after the second commit. -/
def records2 : Files :=
  writeFile records1 forkId (commitText forkId demoId forkTimestamp demoMessage forkStaged)

/-- The directory `commits/` after the third commit. -/
def records3 : Files :=
  writeFile records2 sideId (commitText sideId demoId sideTimestamp demoMessage sideStaged)

/-- The directory `branches/` after the first commit. -/
def refs1 : Files := writeFile (fun _ => none) "main".toList (demoId ++ "\n".toList)

/-- The directory `branches/` after `branch feature`. -/
def refs2 : Files := writeFile refs1 "feature".toList (demoId ++ "\n".toList)

/-- The directory `branches/` after the second commit, on `main`. -/
def refs3 : Files := writeFile refs2 "main".toList (forkId ++ "\n".toList)

/-- The directory `branches/` after the third commit, on `feature`. -/
def refs4 : Files := writeFile refs3 "feature".toList (sideId ++ "\n".toList)

/-- The repository after `init`, `add f` and `commit -m m`, field by field (it is
`demoRepo1`). -/
def baseRepo : Repo :=
  { initialized := true, objects := blobs1, commits := records1, branches := refs1
    head := some "ref: main\n".toList, index := some [], files := demoWork }

/-- The repository after `branch feature` in `baseRepo`. -/
def forkRepo1 : Repo :=
  { initialized := true, objects := blobs1, commits := records1, branches := refs2
    head := some "ref: main\n".toList, index := some [], files := demoWork }

/-- The repository `forkRepo1` after the user has emptied the file `f`. -/
def forkRepo2 : Repo :=
  { initialized := true, objects := blobs1, commits := records1, branches := refs2
    head := some "ref: main\n".toList, index := some []
    files := writeFile demoWork "f".toList [] }

/-- The repository after `add f` in `forkRepo2`. -/
def forkRepo3 : Repo :=
  { initialized := true, objects := blobs2, commits := records1, branches := refs2
    head := some "ref: main\n".toList, index := some forkStaged
    files := writeFile demoWork "f".toList [] }

/-- The repository after `commit -m m` in `forkRepo3`: `main` has moved on, `feature`
still points at the first commit. -/
def forkRepo4 : Repo :=
  { initialized := true, objects := blobs2, commits := records2, branches := refs3
    head := some "ref: main\n".toList, index := some []
    files := writeFile demoWork "f".toList [] }

/-- The repository after `checkout feature` in `forkRepo4`. -/
def sideRepo1 : Repo :=
  { initialized := true, objects := blobs2, commits := records2, branches := refs3
    head := some "ref: feature\n".toList, index := some []
    files := writeFile (writeFile demoWork "f".toList []) "f".toList "x".toList }

/-- The repository `sideRepo1` after the user has written `z` to the file `f`. -/
def sideRepo2 : Repo :=
  { initialized := true, objects := blobs2, commits := records2, branches := refs3
    head := some "ref: feature\n".toList, index := some []
    files := writeFile (writeFile (writeFile demoWork "f".toList []) "f".toList "x".toList)
      "f".toList "z".toList }

/-- The repository after `add f` in `sideRepo2`. -/
def sideRepo3 : Repo :=
  { initialized := true, objects := blobs3, commits := records2, branches := refs3
    head := some "ref: feature\n".toList, index := some sideStaged
    files := writeFile (writeFile (writeFile demoWork "f".toList []) "f".toList "x".toList)
      "f".toList "z".toList }

/-- The repository after `commit -m m` in `sideRepo3`: both branches have a commit of
their own on top of the first one. -/
def sideRepo4 : Repo :=
  { initialized := true, objects := blobs3, commits := records3, branches := refs4
    head := some "ref: feature\n".toList, index := some []
    files := writeFile (writeFile (writeFile demoWork "f".toList []) "f".toList "x".toList)
      "f".toList "z".toList }

/-- The shape of the repository files that the commands keep up: the repository
exists, every commit file is named by a string of hexadecimal digits, every branch
file holds the id of an existing commit and a newline, and `HEAD.txt` holds either
`ref: ` and more text, or the id of an existing commit and a newline. -/
def Consistent (s : Repo) : Prop :=
  s.initialized = true ∧
  (∀ k, (s.commits k).isSome = true → ∀ c ∈ k, isHexChar c = true) ∧
  (∀ b text, s.branches b = some text →
    ∃ h, text = h ++ "\n".toList ∧ (s.commits h).isSome = true) ∧
  ∃ text, s.head = some text ∧
    ((∃ rest, text = "ref: ".toList ++ rest) ∨
      (∃ h, text = h ++ "\n".toList ∧ (s.commits h).isSome = true))

/-- A commit store with two root commits `P` and `Q`. -/
def islandCommits : Files := fun k =>
  if k = "P".toList then
    some (commitText "P".toList "null".toList demoTimestamp demoMessage "f 0\n".toList)
  else if k = "Q".toList then
    some (commitText "Q".toList "null".toList demoTimestamp demoMessage "f 0\n".toList)
  else none

/-- A repository whose branches `main` and `other` point at the two roots of
`islandCommits`, with HEAD on `main`. -/
def islandRepo : Repo :=
  { initialized := true, objects := fun _ => none, commits := islandCommits
    branches := fun b =>
      if b = "main".toList then some "P\n".toList
      else if b = "other".toList then some "Q\n".toList
      else none
    head := some "ref: main\n".toList, index := some [], files := fun _ => none }

/-- The repository `islandRepo` with HEAD detached at the commit `P`. -/
def islandDetached : Repo :=
  { islandRepo with head := some "P\n".toList }

/-- The staging log after `add f` with `f` holding one empty line. -/
def lineStaged : Str :=
  "f".toList ++ " ".toList ++ simpleHash "\n".toList ++ "\n".toList

/-- The id of the commit of `lineStaged` with `demoMessage` at `sideTimestamp`. -/
def lineId : Str :=
  simpleHash (demoMessage ++ sideTimestamp ++ lineStaged)

/-- The directory `objects/` after the contents `x`, empty and one empty line were
staged. -/
def blobsL : Files := saveBlob blobs2 "\n".toList

/-- The directory `commits/` after a third commit on `main`. -/
def recordsL : Files :=
  writeFile records2 lineId (commitText lineId forkId sideTimestamp demoMessage lineStaged)

/-- The directory `branches/` after a third commit on `main`. -/
def refsL : Files := writeFile refs3 "main".toList (lineId ++ "\n".toList)

/-- The repository `forkRepo4` after the user has written one empty line to `f`. -/
def lineRepo1 : Repo :=
  { initialized := true, objects := blobs2, commits := records2, branches := refs3
    head := some "ref: main\n".toList, index := some []
    files := writeFile (writeFile demoWork "f".toList []) "f".toList "\n".toList }

/-- The repository after `add f` in `lineRepo1`. -/
def lineRepo2 : Repo :=
  { initialized := true, objects := blobsL, commits := records2, branches := refs3
    head := some "ref: main\n".toList, index := some lineStaged
    files := writeFile (writeFile demoWork "f".toList []) "f".toList "\n".toList }

/-- The repository after `commit -m m` in `lineRepo2`: the last two commits of `main`
hold `f` empty and `f` with one empty line. -/
def lineRepo3 : Repo :=
  { initialized := true, objects := blobsL, commits := recordsL, branches := refsL
    head := some "ref: main\n".toList, index := some []
    files := writeFile (writeFile demoWork "f".toList []) "f".toList "\n".toList }

/-- The report that the specification asks of the diff for the line index `i`: when the
two files differ at `i`, where a missing line differs from every line, the line of the
first file as removed if there is one, then the line of the second file as added if
there is one. -/
def specDiffLine (lines1 lines2 : List Str) (i : Nat) : List Str :=
  if lines1[i]? ≠ lines2[i]? then
    (match lines1[i]? with
      | some a => ["- ".toList ++ a ++ "\n".toList]
      | none => []) ++
    (match lines2[i]? with
      | some b => ["+ ".toList ++ b ++ "\n".toList]
      | none => [])
  else []

/-- The value of a hexadecimal digit. -/
def hexDigitValue (c : Char) : Nat :=
  if '0' ≤ c ∧ c ≤ '9' then c.toNat - '0'.toNat
  else if 'a' ≤ c ∧ c ≤ 'f' then c.toNat - 'a'.toNat + 10
  else 0

/-- The number that a string of hexadecimal digits denotes, most significant digit
first. -/
def hexValue (s : Str) : Nat :=
  s.foldl (fun acc c => 16 * acc + hexDigitValue c) 0

/-- A clock reading as `ctime` prints it: one line with its newline. -/
def IsClockLine (t : Str) : Prop :=
  ∃ d, t = d ++ "\n".toList ∧ ∀ c ∈ d, c ≠ '\n'

/-- A name that a file can have in a directory: not empty, without `/`, and not
`.` or `..`. -/
def IsName (n : Str) : Prop :=
  n ≠ [] ∧ '/' ∉ n ∧ n ≠ ".".toList ∧ n ≠ "..".toList

instance (n : Str) : Decidable (IsName n) := by
  unfold IsName; infer_instance

/-- A name that a regular file can have in the working directory. -/
def IsWorkName (n : Str) : Prop :=
  IsName n ∧ n ≠ ".minigit".toList

instance (n : Str) : Decidable (IsWorkName n) := by
  unfold IsWorkName; infer_instance

/-- The entries of the commit file `commits/<hash>.txt`, in the order of the file; a
missing file has none. -/
def commitEntries (commits : Files) (hash : Str) : List (Str × Str) :=
  parseFiles false (getlines ((commits hash).getD []))

/-- The entry map of the specification over a list of entries: the fingerprint of the
last entry for `p`, and the empty string when no entry has the path `p`. -/
def lastEntry (entries : List (Str × Str)) (p : Str) : Str :=
  ((entries.reverse.find? (fun e => e.1 = p)).map Prod.snd).getD []

/-- Entries as `add` and `commit` write them for files of the working directory: the
path is the name of a working file, and the fingerprint is the name of an object
file, or is missing. -/
def PlainEntries (entries : List (Str × Str)) : Prop :=
  ∀ e ∈ entries, IsWorkName e.1 ∧ (e.2 = [] ∨ IsName e.2)

/-- What the stream on `objects/<k>` holds when `k` is a name or empty: the object
of that name, and no byte for the empty `k`, which leads to the directory itself. -/
def blobStream (objects : Files) (k : Str) : Option Str :=
  if k = [] then some [] else objects k

/-- The loop `restoreFiles` seen on the files of the working directory, for entries
that are `PlainEntries`: each object that exists is copied to its file. -/
def restoreNames (objects : Files) : List (Str × Str) → Files → Files × List Str
  | [], work => (work, [])
  | (filename, hash) :: rest, work =>
      match blobStream objects hash with
      | some content => restoreNames objects rest (writeFile work filename content)
      | none =>
          let r := restoreNames objects rest work
          (r.1, ("Missing blob for ".toList ++ filename ++ "\n".toList) :: r.2)

/-- The loop `mergeFiles` seen on the files of the working directory, for paths that
are names of working files and fingerprints that are names or empty. -/
def mergeNames (objects : Files) (currentFiles targetFiles : FileMap) (targetBranch : Str) :
    List (Str × Str) → Files → Files × List Str
  | [], work => (work, [])
  | (filename, lcaBlob) :: rest, work =>
      let blobA := mapGet currentFiles filename
      let blobB := mapGet targetFiles filename
      if blobA = blobB || blobB.isEmpty then
        mergeNames objects currentFiles targetFiles targetBranch rest work
      else if blobA ≠ lcaBlob && blobB ≠ lcaBlob && blobA ≠ blobB then
        let r := mergeNames objects currentFiles targetFiles targetBranch rest
          (writeFile work filename
            (conflictFile (blobStream objects blobA) (blobStream objects blobB) targetBranch))
        (r.1, conflictLine filename :: r.2)
      else
        let r := mergeNames objects currentFiles targetFiles targetBranch rest
          (writeFile work filename (appliedFile (blobStream objects blobB)))
        (r.1, mergedLine targetBranch filename :: r.2)

/-- The states that the commands produce from plain arguments: every path given to
`add` is a word that names a file of the working directory and does not start with
`Parent:`, every commit message is one line, the clock gives one line, and the names
given to `branch`, `checkout` and `merge` have no `/`. -/
inductive ReachablePlain : Repo → Prop where
  | init (work : Files) : ReachablePlain (initMiniGit (Repo.bare work)).1
  | add (filename : Str) (s : Repo) : IsWord filename → IsWorkName filename →
      startsWith "Parent:".toList filename = false → ReachablePlain s →
      ReachablePlain (addFileToStaging filename s).1
  | commit (message timestamp : Str) (s s' : Repo) (out : List Str) :
      (∀ c ∈ message, c ≠ '\n') → IsClockLine timestamp → ReachablePlain s →
      commitChanges message timestamp s = .ok (s', out) → ReachablePlain s'
  | branch (branchName : Str) (s s' : Repo) (out : List Str) : '/' ∉ branchName →
      ReachablePlain s → createBranch branchName s = .ok (s', out) → ReachablePlain s'
  | checkout (target : Str) (s : Repo) : '/' ∉ target → ReachablePlain s →
      ReachablePlain (checkoutTarget target s).1
  | edit (work : Files) (s : Repo) : ReachablePlain s → ReachablePlain { s with files := work }
  | merge (fuel : Nat) (targetBranch : Str) (s s' : Repo) (out : List Str) :
      '/' ∉ targetBranch → ReachablePlain s →
      mergeBranch fuel targetBranch s = .ok (s', out) → ReachablePlain s'

/-- The invariant behind `NoBrokenHistory`: the files have the shape of `Consistent`,
`HEAD.txt` holds no `/`, the staging log is a list of entries whose paths are words
that name working files and do not start with `Parent:` and whose fingerprints are
words that name existing objects, the parent of every commit is `null` or an existing
commit, every fingerprint among the entries of a commit has an object, the entries of
every commit are `PlainEntries`, and the last `Parent:` line of every commit file,
which `showCommitLog` follows, gives the same parent as the first one, which
`mergeBranch` follows. -/
def Sound (s : Repo) : Prop :=
  Consistent s ∧
  (∀ text, s.head = some text → '/' ∉ text) ∧
  (∃ es, s.index.getD [] = indexText es ∧
    ∀ e ∈ es, (IsWord e.1 ∧ IsWorkName e.1 ∧ startsWith "Parent:".toList e.1 = false) ∧
      IsWord e.2 ∧ IsName e.2 ∧ (s.objects e.2).isSome = true) ∧
  (∀ k, (s.commits k).isSome = true →
    ∃ p, parentOf s.commits k = .ok p ∧
      (p = "null".toList ∨ (s.commits p).isSome = true)) ∧
  (∀ k text, s.commits k = some text →
    ∀ e ∈ parseFiles false (getlines text), (s.objects e.2).isSome = true) ∧
  (∀ k, PlainEntries (commitEntries s.commits k)) ∧
  (∀ k text, s.commits k = some text →
    logParent (getlines text) "null".toList = parentOf s.commits k)

/-- The directory `commits/` of `baseRepo` with the file `ref:.txt` that
`branch ../commits/ref:` writes there. -/
def recordsR : Files := writeFile records1 "ref:".toList (demoId ++ "\n".toList)

/-- The repository after `branch ../commits/ref:` in `baseRepo`: the path of the new
branch file leads into `commits/`. -/
def refRepo1 : Repo :=
  { initialized := true, objects := blobs1, commits := recordsR, branches := refs1
    head := some "ref: main\n".toList, index := some [], files := demoWork }

/-- The repository after `checkout ref:` in `refRepo1`: the file `commits/ref:.txt` is
taken for a commit and HEAD is detached at `ref:`. -/
def refRepo2 : Repo :=
  { initialized := true, objects := blobs1, commits := recordsR, branches := refs1
    head := some "ref:\n".toList, index := some [], files := demoWork }

/-- The repository after `add f` in `refRepo2`. -/
def refRepo3 : Repo :=
  { initialized := true, objects := saveBlob blobs1 "x".toList, commits := recordsR
    branches := refs1, head := some "ref:\n".toList, index := some demoStaged
    files := demoWork }

/-! ## Properties -/

/-! ### Paths -/

theorem components_name (n : Str) (h : '/' ∉ n) : components n = [n] := by
  induction n with
  | nil => rfl
  | cons c cs ih =>
      have hc : c ≠ '/' := fun e => h (by simp [e])
      have hcs : '/' ∉ cs := fun e => h (by simp [e])
      simp only [components, if_neg hc, ih hcs]

theorem components_append (a rest : Str) (h : '/' ∉ a) :
    components (a ++ '/' :: rest) = a :: components rest := by
  induction a with
  | nil => simp [components]
  | cons c cs ih =>
      have hc : c ≠ '/' := fun e => h (by simp [e])
      have hcs : '/' ∉ cs := fun e => h (by simp [e])
      have e := ih hcs
      simp only [List.cons_append, components, if_neg hc]
      rw [show cs.append ('/' :: rest) = cs ++ '/' :: rest from rfl, e]

theorem resolve_workName (i : Bool) (n : Str) (h : IsWorkName n) :
    resolve i n = .file .top n := by
  obtain ⟨⟨h0, hs, h1, h2⟩, hm⟩ := h
  simp only [resolve, if_neg h0, components_name n hs, walk]
  simp at h1 h2 hm
  have hc : Dir.child i .top n = none := by
    simp [Dir.child, hm]
  simp [h0, h1, h2, hc, hm]

theorem txt_ne (b : Str) :
    b ++ ".txt".toList ≠ [] ∧ b ++ ".txt".toList ≠ ".".toList ∧
      b ++ ".txt".toList ≠ "..".toList := by
  refine ⟨?_, ?_, ?_⟩ <;> intro e <;> have := congrArg List.length e <;>
    simp at this

theorem txt_no_slash (b : Str) (h : '/' ∉ b) : '/' ∉ b ++ ".txt".toList := by
  simp [h]

theorem stripTxt_append (k : Str) : stripTxt (k ++ ".txt".toList) = some k := by
  simp [stripTxt]

theorem walk_repo (rest : List Str) :
    walk true .top (".minigit".toList :: rest) = walk true .repo rest := by
  simp [walk, Dir.child]

theorem resolve_branchPath (b : Str) (h : '/' ∉ b) :
    resolve true (".minigit/branches/".toList ++ b ++ ".txt".toList) =
      .file .branches (b ++ ".txt".toList) := by
  have e : ".minigit/branches/".toList ++ b ++ ".txt".toList =
      ".minigit".toList ++ '/' :: ("branches".toList ++ '/' :: (b ++ ".txt".toList)) := by
    simp
  obtain ⟨t0, t1, t2⟩ := txt_ne b
  rw [e]
  simp only [resolve]
  rw [if_neg (by simp), components_append _ _ (by decide), components_append _ _ (by decide),
    components_name _ (txt_no_slash b h), walk_repo]
  simp at t0 t1 t2
  simp [walk, Dir.child, t0, t1, t2]

theorem resolve_commitPath (k : Str) (h : '/' ∉ k) :
    resolve true (".minigit/commits/".toList ++ k ++ ".txt".toList) =
      .file .commits (k ++ ".txt".toList) := by
  have e : ".minigit/commits/".toList ++ k ++ ".txt".toList =
      ".minigit".toList ++ '/' :: ("commits".toList ++ '/' :: (k ++ ".txt".toList)) := by
    simp
  obtain ⟨t0, t1, t2⟩ := txt_ne k
  rw [e]
  simp only [resolve]
  rw [if_neg (by simp), components_append _ _ (by decide), components_append _ _ (by decide),
    components_name _ (txt_no_slash k h), walk_repo]
  simp at t0 t1 t2
  simp [walk, Dir.child, t0, t1, t2]

theorem resolve_objectPath (k : Str) (h : IsName k) :
    resolve true (".minigit/objects/".toList ++ k) = .file .objects k := by
  obtain ⟨h0, hs, h1, h2⟩ := h
  have e : ".minigit/objects/".toList ++ k =
      ".minigit".toList ++ '/' :: ("objects".toList ++ '/' :: k) := by
    simp
  rw [e]
  simp only [resolve]
  rw [if_neg (by simp), components_append _ _ (by decide), components_append _ _ (by decide),
    components_name _ hs, walk_repo]
  simp at h1 h2
  simp [walk, Dir.child, h0, h1, h2]

theorem resolve_uninitialized (rest : Str) :
    resolve false (".minigit/".toList ++ rest) = .nothing := by
  have e : ".minigit/".toList ++ rest = ".minigit".toList ++ '/' :: rest := by simp
  rw [e]
  simp only [resolve]
  rw [if_neg (by simp), components_append _ _ (by decide)]
  cases hc : components rest with
  | nil => simp [walk, Dir.child]
  | cons x xs => simp [walk, Dir.child]

theorem file_branches (s : Repo) (b : Str) :
    s.file .branches (b ++ ".txt".toList) = s.branches b := by
  simp only [Repo.file, stripTxt_append]

theorem file_commits (s : Repo) (k : Str) :
    s.file .commits (k ++ ".txt".toList) = s.commits k := by
  simp only [Repo.file, stripTxt_append]

theorem setFile_branches (s : Repo) (b c : Str) :
    s.setFile .branches (b ++ ".txt".toList) c =
      { s with branches := writeFile s.branches b c } := by
  simp only [Repo.setFile, stripTxt_append]

theorem setFile_commits (s : Repo) (k c : Str) :
    s.setFile .commits (k ++ ".txt".toList) c =
      { s with commits := writeFile s.commits k c } := by
  simp only [Repo.setFile, stripTxt_append]

theorem pathExists_branch (s : Repo) (b : Str) (hi : s.initialized = true) (h : '/' ∉ b) :
    pathExists s (".minigit/branches/".toList ++ b ++ ".txt".toList) = (s.branches b).isSome := by
  simp only [pathExists, hi, resolve_branchPath b h, file_branches]

theorem readPath_branch (s : Repo) (b : Str) (hi : s.initialized = true) (h : '/' ∉ b) :
    readPath s (".minigit/branches/".toList ++ b ++ ".txt".toList) = s.branches b := by
  simp only [readPath, hi, resolve_branchPath b h, file_branches]

theorem writePath_branch (s : Repo) (b c : Str) (hi : s.initialized = true) (h : '/' ∉ b) :
    writePath s (".minigit/branches/".toList ++ b ++ ".txt".toList) c =
      { s with branches := writeFile s.branches b c } := by
  simp only [writePath, hi, resolve_branchPath b h, setFile_branches]

theorem pathExists_commit (s : Repo) (k : Str) (hi : s.initialized = true) (h : '/' ∉ k) :
    pathExists s (".minigit/commits/".toList ++ k ++ ".txt".toList) = (s.commits k).isSome := by
  simp only [pathExists, hi, resolve_commitPath k h, file_commits]

theorem readPath_commit (s : Repo) (k : Str) (hi : s.initialized = true) (h : '/' ∉ k) :
    readPath s (".minigit/commits/".toList ++ k ++ ".txt".toList) = s.commits k := by
  simp only [readPath, hi, resolve_commitPath k h, file_commits]

theorem pathExists_object (s : Repo) (k : Str) (hi : s.initialized = true) (h : IsName k) :
    pathExists s (".minigit/objects/".toList ++ k) = (s.objects k).isSome := by
  simp only [pathExists, hi, resolve_objectPath k h, Repo.file]

theorem readPath_object (s : Repo) (k : Str) (hi : s.initialized = true) (h : IsName k) :
    readPath s (".minigit/objects/".toList ++ k) = s.objects k := by
  simp only [readPath, hi, resolve_objectPath k h, Repo.file]

theorem pathExists_name (s : Repo) (n : Str) (h : IsWorkName n) :
    pathExists s n = (s.files n).isSome := by
  simp only [pathExists, resolve_workName _ n h, Repo.file]

theorem readPath_name (s : Repo) (n : Str) (h : IsWorkName n) :
    readPath s n = s.files n := by
  simp only [readPath, resolve_workName _ n h, Repo.file]

theorem work_name (s : Repo) (n : Str) (h : IsWorkName n) :
    s.work n = s.files n := by
  simp only [Repo.work, resolve_workName _ n h, Repo.file]

theorem writePath_name (s : Repo) (n c : Str) (h : IsWorkName n) :
    writePath s n c = { s with files := writeFile s.files n c } := by
  simp only [writePath, resolve_workName _ n h, Repo.setFile]

theorem isWorkName_f : IsWorkName "f".toList := by decide

/-- The case of `addFileToStaging` for the name of a file of the working directory. -/
theorem addFileToStaging_name (filename : Str) (s : Repo) (h : IsWorkName filename) :
    addFileToStaging filename s =
      if !s.initialized then
        (s, ["Repository not initialized. Run './minigit init' first.\n".toList])
      else
        match s.files filename with
        | none => (s, ["File not found: ".toList ++ filename ++ "\n".toList])
        | some content =>
            ({ s with
                objects := saveBlob s.objects content
                index := some (s.index.getD [] ++
                  (filename ++ " ".toList ++ simpleHash content ++ "\n".toList)) },
             ["Added '".toList ++ filename ++ "' to staging area.\n".toList]) := by
  unfold addFileToStaging
  rw [pathExists_name s filename h, readPath_name s filename h]
  cases hf : s.files filename <;> simp

/-- The case of `addFileToStaging` for a path that names a regular file. -/
theorem addFileToStaging_file (filename x : Str) (s : Repo) (hi : s.initialized = true)
    (h : s.work filename = some x) :
    addFileToStaging filename s =
      ({ s with
          objects := saveBlob s.objects x
          index := some (s.index.getD [] ++
            (filename ++ " ".toList ++ simpleHash x ++ "\n".toList)) },
       ["Added '".toList ++ filename ++ "' to staging area.\n".toList]) := by
  unfold Repo.work at h
  unfold addFileToStaging pathExists readPath
  cases hr : resolve s.initialized filename with
  | dir d => rw [hr] at h; simp at h
  | nothing => rw [hr] at h; simp at h
  | file d name =>
      rw [hr] at h
      simp only at h
      simp [hi, h]

theorem resolve_objectsDir :
    resolve true ".minigit/objects/".toList = .dir .objects := by
  decide

theorem blob_exists (s : Repo) (k : Str) (hi : s.initialized = true) (hk : k = [] ∨ IsName k) :
    pathExists s (".minigit/objects/".toList ++ k) = (blobStream s.objects k).isSome := by
  rcases hk with rfl | hk
  · simp only [List.append_nil, pathExists, hi, resolve_objectsDir, blobStream, if_true,
      Option.isSome_some]
  · rw [pathExists_object s k hi hk, blobStream, if_neg hk.1]

theorem blob_read (s : Repo) (k : Str) (hi : s.initialized = true) (hk : k = [] ∨ IsName k) :
    readPath s (".minigit/objects/".toList ++ k) = blobStream s.objects k := by
  rcases hk with rfl | hk
  · simp only [List.append_nil, readPath, hi, resolve_objectsDir, blobStream, if_true]
  · rw [readPath_object s k hi hk, blobStream, if_neg hk.1]

theorem copyBlob_names (s : Repo) (k n : Str) (hi : s.initialized = true)
    (hn : IsWorkName n) (hk : k = [] ∨ IsName k) :
    copyBlob s (".minigit/objects/".toList ++ k) n =
      { s with files := writeFile s.files n ((blobStream s.objects k).getD []) } := by
  unfold copyBlob
  rw [writePath_name s n _ hn, writePath_name s n _ hn,
    blob_read { s with files := writeFile s.files n [] } k hi hk]

theorem writeConflict_names (s : Repo) (n a b tb : Str) (hi : s.initialized = true)
    (hn : IsWorkName n) (ha : a = [] ∨ IsName a) (hb : b = [] ∨ IsName b) :
    writeConflict s n a b tb =
      { s with
        files := writeFile s.files n
                  (conflictFile (blobStream s.objects a) (blobStream s.objects b) tb) } := by
  unfold writeConflict
  simp only
  rw [writePath_name s n _ hn, writePath_name s n _ hn,
    blob_read { s with files := writeFile s.files n [] } a hi ha,
    blob_read { s with files := writeFile s.files n [] } b hi hb]

theorem writeApplied_names (s : Repo) (n b : Str) (hi : s.initialized = true)
    (hn : IsWorkName n) (hb : b = [] ∨ IsName b) :
    writeApplied s n b =
      { s with files := writeFile s.files n (appliedFile (blobStream s.objects b)) } := by
  unfold writeApplied
  rw [writePath_name s n _ hn, writePath_name s n _ hn,
    blob_read { s with files := writeFile s.files n [] } b hi hb]

/-- On plain entries `restoreFiles` changes the files of the working directory only, as
`restoreNames` describes. -/
theorem restoreFiles_names : ∀ (entries : List (Str × Str)) (s : Repo),
    s.initialized = true → PlainEntries entries →
    restoreFiles entries s =
      ({ s with files := (restoreNames s.objects entries s.files).1 },
        (restoreNames s.objects entries s.files).2) := by
  intro entries
  induction entries with
  | nil => intro s _ _; rfl
  | cons e rest ih =>
    intro s hi hp
    obtain ⟨n, k⟩ := e
    have he := hp (n, k) (List.mem_cons_self _ _)
    have hrest : PlainEntries rest := fun e' h' => hp e' (List.mem_cons_of_mem _ h')
    simp only [restoreFiles, restoreNames]
    rw [blob_exists s k hi he.2]
    cases hb : blobStream s.objects k with
    | none =>
      simp only [Option.isSome_none, Bool.false_eq_true, if_false]
      rw [ih s hi hrest]
    | some content =>
      simp only [Option.isSome_some, if_true]
      rw [copyBlob_names s k n hi he.1 he.2, hb]
      exact ih { s with files := writeFile s.files n content } hi hrest

/-- On paths that are names of working files, with fingerprints that are names or
empty, `mergeFiles` changes the files of the working directory only, as `mergeNames`
describes. -/
theorem mergeFiles_names (C T : FileMap) (tb : Str) : ∀ (entries : List (Str × Str)) (s : Repo),
    s.initialized = true →
    (∀ e ∈ entries, IsWorkName e.1 ∧ (mapGet C e.1 = [] ∨ IsName (mapGet C e.1)) ∧
      (mapGet T e.1 = [] ∨ IsName (mapGet T e.1))) →
    mergeFiles C T tb entries s =
      ({ s with files := (mergeNames s.objects C T tb entries s.files).1 },
        (mergeNames s.objects C T tb entries s.files).2) := by
  intro entries
  induction entries with
  | nil => intro s _ _; rfl
  | cons e rest ih =>
    intro s hi hp
    obtain ⟨n, l⟩ := e
    obtain ⟨hn, ha, hb⟩ := hp (n, l) (List.mem_cons_self _ _)
    have hrest : ∀ e ∈ rest, IsWorkName e.1 ∧ (mapGet C e.1 = [] ∨ IsName (mapGet C e.1)) ∧
        (mapGet T e.1 = [] ∨ IsName (mapGet T e.1)) :=
      fun e' h' => hp e' (List.mem_cons_of_mem _ h')
    simp only [mergeFiles, mergeNames]
    split
    · exact ih s hi hrest
    · split
      · rw [writeConflict_names s n _ _ tb hi hn ha hb]
        have := ih { s with
          files := writeFile s.files n
                    (conflictFile (blobStream s.objects (mapGet C n))
                      (blobStream s.objects (mapGet T n)) tb) } hi hrest
        rw [this]
      · rw [writeApplied_names s n _ hi hn hb]
        have := ih { s with
          files := writeFile s.files n (appliedFile (blobStream s.objects (mapGet T n))) }
          hi hrest
        rw [this]

theorem digitChar_hex : ∀ d, d < 16 → isHexChar (Nat.digitChar d) = true := by
  decide

theorem toDigitsCore_hex (fuel : Nat) : ∀ (n : Nat) (ds : List Char),
    (∀ c ∈ ds, isHexChar c = true) →
    ∀ c ∈ Nat.toDigitsCore 16 fuel n ds, isHexChar c = true := by
  induction fuel with
  | zero => intro n ds h; simpa [Nat.toDigitsCore] using h
  | succ f ih =>
    intro n ds h
    have hd : isHexChar (Nat.digitChar (n % 16)) = true :=
      digitChar_hex _ (Nat.mod_lt _ (by decide))
    have hcons : ∀ c ∈ Nat.digitChar (n % 16) :: ds, isHexChar c = true := by
      intro c hc
      rcases List.mem_cons.mp hc with rfl | hc
      · exact hd
      · exact h c hc
    simp only [Nat.toDigitsCore]
    split
    · exact hcons
    · exact ih _ _ hcons

theorem toDigitsCore_ne_nil (fuel : Nat) : ∀ (n : Nat) (ds : List Char),
    ds ≠ [] → Nat.toDigitsCore 16 fuel n ds ≠ [] := by
  induction fuel with
  | zero => intro n ds h; simpa [Nat.toDigitsCore] using h
  | succ f ih =>
    intro n ds _
    simp only [Nat.toDigitsCore]
    split
    · simp
    · exact ih _ _ (by simp)

theorem hex8_hex (n : Nat) : ∀ c ∈ hex8 n, isHexChar c = true := by
  intro c hc
  simp only [hex8, List.mem_append, List.mem_replicate] at hc
  rcases hc with ⟨_, rfl⟩ | hc
  · decide
  · exact toDigitsCore_hex _ _ _ (by simp) c hc

theorem hex8_ne_nil (n : Nat) : hex8 n ≠ [] := by
  have h : Nat.toDigits 16 n ≠ [] := by
    unfold Nat.toDigits
    simp only [Nat.toDigitsCore]
    split
    · simp
    · exact toDigitsCore_ne_nil _ _ _ (by simp)
  simp [hex8, h]

theorem sha1_hex (s : Str) : ∀ c ∈ sha1 s, isHexChar c = true := by
  intro c hc
  simp only [sha1, SHA1.final, List.mem_append] at hc
  rcases hc with (((hc | hc) | hc) | hc) | hc <;> exact hex8_hex _ c hc

theorem sha1_ne_nil (s : Str) : sha1 s ≠ [] := by
  simp [sha1, SHA1.final, hex8_ne_nil]

theorem simpleHash_hex (s : Str) : ∀ c ∈ simpleHash s, isHexChar c = true :=
  sha1_hex s

theorem simpleHash_ne_nil (s : Str) : simpleHash s ≠ [] :=
  sha1_ne_nil s

theorem getlines_cons (c : Char) (cs : Str) (hc : c ≠ '\n') :
    getlines (c :: cs) =
      match getlines cs with
      | [] => [[c]]
      | l :: ls => (c :: l) :: ls := by
  simp only [getlines, if_neg hc]

theorem getlines_line (l rest : Str) (h : ∀ c ∈ l, c ≠ '\n') :
    getlines (l ++ '\n' :: rest) = l :: getlines rest := by
  induction l with
  | nil => simp [getlines]
  | cons c cs ih =>
    have hc : c ≠ '\n' := h c (by simp)
    have ih' := ih (fun d hd => h d (by simp [hd]))
    rw [List.cons_append, getlines_cons _ _ hc, ih']

theorem getlines_last (l : Str) (h : ∀ c ∈ l, c ≠ '\n') (hne : l ≠ []) :
    getlines l = [l] := by
  induction l with
  | nil => exact absurd rfl hne
  | cons c cs ih =>
    have hc : c ≠ '\n' := h c (by simp)
    cases cs with
    | nil => simp [getlines, hc]
    | cons d ds =>
      have ih' := ih (fun e he => h e (by simp [he])) (by simp)
      rw [getlines_cons _ _ hc, ih']

theorem hex_ne_newline (c : Char) (h : isHexChar c = true) : c ≠ '\n' := by
  rintro rfl
  exact absurd h (by decide)

theorem hex_not_space (c : Char) (h : isHexChar c = true) : isSpace c = false := by
  simp only [isHexChar, Bool.or_eq_true, Bool.and_eq_true, decide_eq_true_eq] at h
  have h1 : 48 ≤ c.toNat := by
    rcases h with ⟨h, _⟩ | ⟨h, _⟩
    · exact h
    · exact le_trans (by decide) h
  simp only [isSpace, Bool.or_eq_false_iff, decide_eq_false_iff_not]
  refine ⟨⟨⟨⟨⟨?_, ?_⟩, ?_⟩, ?_⟩, ?_⟩, ?_⟩ <;> rintro rfl <;> exact absurd h1 (by decide)

theorem simpleHash_no_newline (s : Str) : ∀ c ∈ simpleHash s, c ≠ '\n' :=
  fun c hc => hex_ne_newline c (simpleHash_hex s c hc)

theorem getlines_no_newline : ∀ (s : Str), ∀ l ∈ getlines s, ∀ c ∈ l, c ≠ '\n'
  | [], l, hl, _, _ => by simp [getlines] at hl
  | d :: ds, l, hl, c, hc => by
    by_cases hd : d = '\n'
    · simp only [getlines, hd, if_true, List.mem_cons] at hl
      rcases hl with rfl | hl
      · simp at hc
      · exact getlines_no_newline ds l hl c hc
    · rw [getlines_cons _ _ hd] at hl
      cases hg : getlines ds with
      | nil =>
        simp only [hg, List.mem_singleton] at hl
        subst hl
        simp only [List.mem_singleton] at hc
        exact hc ▸ hd
      | cons l0 ls =>
        simp only [hg, List.mem_cons] at hl
        rcases hl with rfl | hl
        · rcases List.mem_cons.mp hc with rfl | hc
          · exact hd
          · exact getlines_no_newline ds l0 (by simp [hg]) c hc
        · exact getlines_no_newline ds l (by simp [hg, hl]) c hc

theorem getline_no_newline (file : Option Str) (str : Str) (h : ∀ c ∈ str, c ≠ '\n') :
    ∀ c ∈ getline file str, c ≠ '\n' := by
  cases file with
  | none => simpa [getline] using h
  | some text =>
    intro c hc
    simp only [getline] at hc
    cases hg : getlines text with
    | nil => simp [hg] at hc
    | cons l ls =>
      simp only [hg, List.headD_cons] at hc
      exact getlines_no_newline text l (by simp [hg]) c hc

theorem getline_hash_file (h fallback : Str) (hh : ∀ c ∈ h, c ≠ '\n') :
    getline (some (h ++ "\n".toList)) fallback = h := by
  have := getlines_line h [] hh
  simp only [getline]
  simp only [String.toList] at *
  simp [this, getlines]

theorem append_no_newline (a b : Str) (ha : ∀ c ∈ a, c ≠ '\n') (hb : ∀ c ∈ b, c ≠ '\n') :
    ∀ c ∈ a ++ b, c ≠ '\n' := by
  intro c hc
  rcases List.mem_append.mp hc with h | h
  · exact ha c h
  · exact hb c h

theorem commitText_lines (k p timestamp message staged : Str)
    (hk : ∀ c ∈ k, c ≠ '\n') (hp : ∀ c ∈ p, c ≠ '\n') :
    getlines (commitText k p timestamp message staged) =
      ("Commit: ".toList ++ k) :: ("Parent: ".toList ++ p) ::
        getlines ("Date: ".toList ++ timestamp ++ "Message: ".toList ++ message ++
          "\n".toList ++ "Files:\n".toList ++ staged) := by
  have h1 : ∀ c ∈ "Commit: ".toList ++ k, c ≠ '\n' :=
    append_no_newline _ _ (by decide) hk
  have h2 : ∀ c ∈ "Parent: ".toList ++ p, c ≠ '\n' :=
    append_no_newline _ _ (by decide) hp
  have e : commitText k p timestamp message staged =
      ("Commit: ".toList ++ k) ++ '\n' :: (("Parent: ".toList ++ p) ++ '\n' ::
        ("Date: ".toList ++ timestamp ++ "Message: ".toList ++ message ++
          "\n".toList ++ "Files:\n".toList ++ staged)) := by
    simp [commitText]
  rw [e, getlines_line _ _ h1, getlines_line _ _ h2]

theorem parentOf_commitText (commits : Files) (k k' p timestamp message staged : Str)
    (hc : commits k' = some (commitText k p timestamp message staged))
    (hk : ∀ c ∈ k, c ≠ '\n') (hp : ∀ c ∈ p, c ≠ '\n') :
    parentOf commits k' = .ok p := by
  simp only [parentOf, hc, commitText_lines k p timestamp message staged hk hp]
  simp [List.find?, startsWith, substr, List.isPrefixOf]

theorem resolveHead_no_newline (s : Repo) (p : Str) (h : resolveHead s = .ok p) :
    ∀ c ∈ p, c ≠ '\n' := by
  have hnull : ∀ c ∈ "null".toList, c ≠ '\n' := by decide
  unfold resolveHead at h
  dsimp only at h
  split at h
  · split at h
    · cases hs : substr (getline s.head []) 5 with
      | error e => simp [hs, bind, Except.bind] at h
      | ok b =>
        simp only [hs, bind, Except.bind, pure, Except.pure, Except.ok.injEq] at h
        subst h
        exact getline_no_newline _ _ hnull
    · simp only [pure, Except.pure, Except.ok.injEq] at h
      subst h
      exact getline_no_newline _ _ (by simp)
  · simp only [pure, Except.pure, Except.ok.injEq] at h
    subst h
    exact hnull

theorem getlineOk_of_ne_nil (file : Option Str) (h : getline file [] ≠ []) :
    getlineOk file = true := by
  cases file with
  | none => simp [getline] at h
  | some text =>
    cases hg : getlines text with
    | nil => simp [getline, hg] at h
    | cons l ls => simp [getlineOk, hg]

theorem startsWith_ref_ne_nil (s : Str) (h : startsWith "ref:".toList s = true) : s ≠ [] := by
  rintro rfl
  simp [startsWith] at h

theorem startsWith_ref_hex (k : Str) (hk : ∀ c ∈ k, isHexChar c = true) :
    startsWith "ref:".toList k = false := by
  cases k with
  | nil => simp [startsWith]
  | cons c cs =>
    have hc : isHexChar c = true := hk c (by simp)
    have : c ≠ 'r' := by
      rintro rfl
      exact absurd hc (by decide)
    simp [startsWith, List.isPrefixOf, Ne.symm this]

theorem writeFile_same (dir : Files) (path content : Str) :
    writeFile dir path content path = some content := by
  simp [writeFile]

theorem writeFile_other (dir : Files) (path content q : Str) (h : q ≠ path) :
    writeFile dir path content q = dir q := by
  simp [writeFile, h]

theorem append_newline_ne_nil (a : Str) : a ++ "\n".toList ≠ [] := by
  simp

theorem saveBlob_self (objects : Files) (x : Str)
    (hfree : ∀ c, objects (simpleHash x) = some c → c = x) :
    saveBlob objects x (simpleHash x) = some x := by
  unfold saveBlob
  split
  · simp [writeFile]
  · rename_i h
    cases ho : objects (simpleHash x) with
    | none => exact absurd ho h
    | some c => rw [hfree c ho]

theorem saveBlob_idem (objects : Files) (x : Str) :
    saveBlob (saveBlob objects x) x = saveBlob objects x := by
  have h : saveBlob objects x (simpleHash x) ≠ none := by
    unfold saveBlob
    split
    · simp [writeFile]
    · assumption
  show (if saveBlob objects x (simpleHash x) = none then _ else saveBlob objects x) = _
  rw [if_neg h]

theorem addFileToStaging_eq (s : Repo) (filename x : Str)
    (hinit : s.initialized = true) (hfile : s.work filename = some x) :
    addFileToStaging filename s =
      ({ s with
          objects := saveBlob s.objects x
          index := some (s.index.getD [] ++
            (filename ++ " ".toList ++ simpleHash x ++ "\n".toList)) },
       ["Added '".toList ++ filename ++ "' to staging area.\n".toList]) :=
  addFileToStaging_file filename x s hinit hfile

/-- C6: in a store where every object is keyed by the hash of its own content and no
stored content collides with `x`, staging a file with content `x` leaves the object
store mapping `simpleHash x` to exactly `x`. -/
theorem put_then_get (s : Repo) (filename x : Str)
    (hinit : s.initialized = true) (hfile : s.work filename = some x)
    (hkeyed : ∀ h c, s.objects h = some c → simpleHash c = h)
    (hfree : ∀ h c, s.objects h = some c → simpleHash c = simpleHash x → c = x) :
    (addFileToStaging filename s).1.objects (simpleHash x) = some x := by
  rw [addFileToStaging_eq s filename x hinit hfile]
  exact saveBlob_self _ _ (fun c hc => hfree _ c hc (hkeyed _ c hc))

theorem demoRepo_objects : demoRepo.objects = saveBlob (fun _ => none) "x".toList := rfl

theorem put_then_get_witness :
    (addFileToStaging "f".toList demoRepo).1.objects (simpleHash "x".toList) =
      some "x".toList :=
  put_then_get demoRepo "f".toList "x".toList rfl rfl
    (by
      intro h c hc
      rw [demoRepo_objects] at hc
      simp only [saveBlob, if_true, writeFile] at hc
      split at hc
      · rename_i hh
        cases hc
        exact hh.symm
      · cases hc)
    (by
      intro h c hc _
      rw [demoRepo_objects] at hc
      simp only [saveBlob, if_true, writeFile] at hc
      split at hc
      · cases hc; rfl
      · cases hc)

theorem addFileToStaging_absent (filename : Str) (s : Repo)
    (h : s.initialized = false ∨ pathExists s filename = false) :
    (addFileToStaging filename s).1 = s := by
  unfold addFileToStaging
  rcases h with h | h
  · simp [h]
  · by_cases hi : s.initialized = true <;> simp [hi, h]

theorem addFileToStaging_initialized (filename : Str) (s : Repo) :
    (addFileToStaging filename s).1.initialized = s.initialized := by
  unfold addFileToStaging
  split
  · rfl
  · split <;> rfl

/-- The object store after `addFileToStaging` on a path that exists: the content that
the stream on the path holds is saved. -/
theorem addFileToStaging_objects (filename : Str) (s : Repo) (hi : s.initialized = true)
    (he : pathExists s filename = true) :
    (addFileToStaging filename s).1.objects =
      saveBlob s.objects ((readPath s filename).getD []) := by
  unfold addFileToStaging
  simp [hi, he]

theorem pathExists_of_readPath (s t : Repo) (path : Str) (hi : t.initialized = s.initialized)
    (h : t.work path = s.work path) (he : pathExists s path = true) :
    pathExists t path = true ∧ readPath t path = readPath s path := by
  unfold Repo.work at h
  unfold pathExists at he ⊢
  unfold readPath
  rw [hi] at h ⊢
  cases hr : resolve s.initialized path with
  | dir d => simp
  | nothing => rw [hr] at he; simp at he
  | file d name =>
      rw [hr] at h he
      simp only at h he ⊢
      rw [h]
      exact ⟨he, rfl⟩

theorem addFileToStaging_files (filename : Str) (s : Repo) :
    (addFileToStaging filename s).1.files = s.files := by
  unfold addFileToStaging
  split
  · rfl
  · split <;> rfl

theorem addFileToStaging_work (filename n : Str) (s : Repo) (h : IsWorkName n) :
    (addFileToStaging filename s).1.work n = s.work n := by
  rw [work_name _ n h, work_name _ n h, addFileToStaging_files]

/-- C7: putting a content into an object store a second time leaves the store as the
first put left it, for every store and content.  For `addFileToStaging`: when the
first staging leaves the file at the path as it was, the second staging leaves the
object store as the first left it, and both record the same fingerprint
`simpleHash x`.  (The first staging of the path `.minigit/index.txt` changes that
very file, and the second staging puts another content: `add_index_twice`.) -/
theorem put_idempotent (s : Repo) (filename : Str)
    (hsame : (addFileToStaging filename s).1.work filename = s.work filename) :
    (∀ (objects : Files) (x : Str), saveBlob (saveBlob objects x) x = saveBlob objects x) ∧
      (addFileToStaging filename (addFileToStaging filename s).1).1.objects =
        (addFileToStaging filename s).1.objects ∧
      ∀ x, s.initialized = true → s.work filename = some x →
        (addFileToStaging filename s).1.index =
            some (s.index.getD [] ++ (filename ++ " ".toList ++ simpleHash x ++ "\n".toList)) ∧
          (addFileToStaging filename (addFileToStaging filename s).1).1.index =
            some (s.index.getD [] ++ (filename ++ " ".toList ++ simpleHash x ++ "\n".toList) ++
              (filename ++ " ".toList ++ simpleHash x ++ "\n".toList)) := by
  refine ⟨fun objects x => saveBlob_idem objects x, ?_, ?_⟩
  · by_cases hinit : s.initialized = true
    · by_cases he : pathExists s filename = true
      · have hi1 := addFileToStaging_initialized filename s
        obtain ⟨he1, hr1⟩ := pathExists_of_readPath s (addFileToStaging filename s).1 filename
          hi1 hsame he
        rw [addFileToStaging_objects filename _ (by rw [hi1]; exact hinit) he1, hr1,
          addFileToStaging_objects filename s hinit he]
        exact saveBlob_idem _ _
      · rw [addFileToStaging_absent filename s (Or.inr (by simpa using he)),
          addFileToStaging_absent filename s (Or.inr (by simpa using he))]
    · rw [addFileToStaging_absent filename s (Or.inl (by simpa using hinit)),
        addFileToStaging_absent filename s (Or.inl (by simpa using hinit))]
  · intro x hinit hfile
    have h1 := addFileToStaging_eq s filename x hinit hfile
    have h2 := addFileToStaging_eq (addFileToStaging filename s).1 filename x
      (by rw [h1]; exact hinit) (by rw [hsame]; exact hfile)
    rw [h2, h1]
    simp

theorem put_idempotent_witness :
    (addFileToStaging "f".toList (addFileToStaging "f".toList demoRepo).1).1.objects =
        (addFileToStaging "f".toList demoRepo).1.objects ∧
      (addFileToStaging "f".toList (addFileToStaging "f".toList demoRepo).1).1.index =
        some (demoRepo.index.getD [] ++
          ("f".toList ++ " ".toList ++ simpleHash "x".toList ++ "\n".toList) ++
          ("f".toList ++ " ".toList ++ simpleHash "x".toList ++ "\n".toList)) :=
  ⟨(put_idempotent demoRepo "f".toList
      (addFileToStaging_work "f".toList "f".toList demoRepo isWorkName_f)).2.1,
   ((put_idempotent demoRepo "f".toList
      (addFileToStaging_work "f".toList "f".toList demoRepo isWorkName_f)).2.2
        "x".toList rfl rfl).2⟩

theorem resolveHead_symbolic (s : Repo)
    (h : startsWith "ref:".toList (getline s.head []) = true) :
    resolveHead s =
      (substr (getline s.head []) 5 >>= fun b =>
        pure (getline (s.branches b) "null".toList)) := by
  have hok := getlineOk_of_ne_nil s.head (startsWith_ref_ne_nil _ h)
  simp only [resolveHead, hok, h, if_true]

theorem resolveHead_detached (s : Repo)
    (h : startsWith "ref:".toList (getline s.head []) = false) :
    resolveHead s =
      .ok (if getlineOk s.head = true then getline s.head [] else "null".toList) := by
  unfold resolveHead
  split <;> simp only [h, pure, Except.pure, if_false, Bool.false_eq_true]

theorem getlineOk_hash_file (k : Str) (hk : ∀ c ∈ k, c ≠ '\n') :
    getlineOk (some (k ++ "\n".toList)) = true := by
  have := getlines_line k [] hk
  simp only [String.toList] at *
  simp [getlineOk, this]

theorem commitChanges_symbolic (message timestamp staged b p : Str) (s : Repo)
    (hinit : s.initialized = true) (hidx : s.index = some staged) (hst : staged ≠ [])
    (hsym : startsWith "ref:".toList (getline s.head []) = true)
    (hb : substr (getline s.head []) 5 = .ok b)
    (hp : p = getline (s.branches b) "null".toList) :
    commitChanges message timestamp s =
      .ok ({ s with
              commits := writeFile s.commits (simpleHash (message ++ timestamp ++ staged))
                (commitText (simpleHash (message ++ timestamp ++ staged)) p timestamp message
                  staged)
              branches := writeFile s.branches b
                (simpleHash (message ++ timestamp ++ staged) ++ "\n".toList)
              index := some [] },
            ["Committed with hash: ".toList ++ simpleHash (message ++ timestamp ++ staged) ++
              "\n".toList]) := by
  have hr := resolveHead_symbolic s hsym
  rw [hb] at hr
  simp only [bind, Except.bind, pure, Except.pure] at hr
  unfold commitChanges
  simp only [hinit, hidx, hst, if_false, hr, bind, Except.bind, pure, Except.pure, hsym, if_true,
    hb, hp]

theorem commitChanges_detached (message timestamp staged : Str) (s : Repo)
    (hinit : s.initialized = true) (hidx : s.index = some staged) (hst : staged ≠ [])
    (hdet : startsWith "ref:".toList (getline s.head []) = false) :
    commitChanges message timestamp s =
      .ok ({ s with
              commits := writeFile s.commits (simpleHash (message ++ timestamp ++ staged))
                (commitText (simpleHash (message ++ timestamp ++ staged))
                  (if getlineOk s.head = true then getline s.head [] else "null".toList)
                  timestamp message staged)
              head := some (simpleHash (message ++ timestamp ++ staged) ++ "\n".toList)
              index := some [] },
            ["Committed with hash: ".toList ++ simpleHash (message ++ timestamp ++ staged) ++
              "\n".toList]) := by
  have hr := resolveHead_detached s hdet
  unfold commitChanges
  simp only [hinit, hidx, hst, if_false, hr, bind, Except.bind, pure, Except.pure, hdet]
  simp

theorem simpleHash_ne_null (s : Str) : simpleHash s ≠ "null".toList := by
  intro h
  have := simpleHash_hex s 'n' (by rw [h]; decide)
  exact absurd this (by decide)

theorem demoRepo_commit :
    commitChanges demoMessage demoTimestamp demoRepo =
      .ok (demoRepo1, ["Committed with hash: ".toList ++ demoId ++ "\n".toList]) :=
  commitChanges_symbolic demoMessage demoTimestamp demoStaged "main".toList "null".toList
    demoRepo rfl rfl (append_newline_ne_nil _) rfl rfl rfl

theorem demoRepo2_index : demoRepo2.index = some demoStaged := by
  have h := addFileToStaging_eq demoRepo1 "f".toList "x".toList rfl rfl
  simp only [demoRepo2, h]
  rfl

theorem demoRepo2_commit :
    commitChanges demoMessage demoTimestamp demoRepo2 =
      .ok (demoRepo3, ["Committed with hash: ".toList ++ demoId ++ "\n".toList]) :=
  commitChanges_symbolic demoMessage demoTimestamp demoStaged "main".toList demoId
    demoRepo2 rfl demoRepo2_index (append_newline_ne_nil _) rfl rfl
    (getline_hash_file demoId "null".toList (simpleHash_no_newline _)).symm

theorem demoRepo3_reachable : Reachable demoRepo3 :=
  .commit demoMessage demoTimestamp demoRepo2 demoRepo3 _
    (.add "f".toList demoRepo1
      (.commit demoMessage demoTimestamp demoRepo demoRepo1 _
        (.add "f".toList _ (.init demoWork)) demoRepo_commit))
    demoRepo2_commit

theorem demoRepo1_record :
    demoRepo1.commits demoId =
      some (commitText demoId "null".toList demoTimestamp demoMessage demoStaged) := by
  simp only [demoRepo1, writeFile_same]

theorem demoRepo3_record :
    demoRepo3.commits demoId =
      some (commitText demoId demoId demoTimestamp demoMessage demoStaged) := by
  simp only [demoRepo3, writeFile_same]

theorem demoRepo1_parent : parentOf demoRepo1.commits demoId = .ok "null".toList :=
  parentOf_commitText _ demoId demoId "null".toList demoTimestamp demoMessage demoStaged
    demoRepo1_record (simpleHash_no_newline _) (by decide)

theorem demoRepo3_parent : parentOf demoRepo3.commits demoId = .ok demoId :=
  parentOf_commitText _ demoId demoId demoId demoTimestamp demoMessage demoStaged
    demoRepo3_record (simpleHash_no_newline _) (simpleHash_no_newline _)

/-- C9 (code at the failing input): the second of two commits with the same message,
clock reading and staged text computes the id of the first and replaces its record;
the recorded parent of that id changes from `null` to the id itself. -/
theorem commit_overwrites_record :
    commitChanges demoMessage demoTimestamp demoRepo =
        .ok (demoRepo1, ["Committed with hash: ".toList ++ demoId ++ "\n".toList]) ∧
      commitChanges demoMessage demoTimestamp (addFileToStaging "f".toList demoRepo1).1 =
        .ok (demoRepo3, ["Committed with hash: ".toList ++ demoId ++ "\n".toList]) ∧
      parentOf demoRepo1.commits demoId = .ok "null".toList ∧
      parentOf demoRepo3.commits demoId = .ok demoId ∧
      demoRepo3.commits demoId ≠ demoRepo1.commits demoId := by
  refine ⟨demoRepo_commit, demoRepo2_commit, demoRepo1_parent, demoRepo3_parent, ?_⟩
  rw [demoRepo3_record, demoRepo1_record]
  intro h
  have hl := congrArg getlines (Option.some.inj h)
  rw [commitText_lines demoId demoId _ _ _ (simpleHash_no_newline _) (simpleHash_no_newline _),
    commitText_lines demoId "null".toList _ _ _ (simpleHash_no_newline _) (by decide)] at hl
  simp only [List.cons.injEq, List.append_cancel_left_eq, true_and] at hl
  exact simpleHash_ne_null _ hl.1

theorem logParent_skip (ls : List Str) (acc : Str)
    (h : ∀ l ∈ ls, startsWith "Parent:".toList l = false) :
    logParent ls acc = .ok acc := by
  induction ls with
  | nil => rfl
  | cons l rest ih =>
    have hl := h l (by simp)
    have ih' := ih (fun l' hl' => h l' (by simp [hl']))
    simp only [logParent, hl, ih']
    rfl

theorem logParent_commitText (k p timestamp message staged : Str)
    (hk : ∀ c ∈ k, c ≠ '\n') (hp : ∀ c ∈ p, c ≠ '\n')
    (hrest : ∀ l ∈ getlines ("Date: ".toList ++ timestamp ++ "Message: ".toList ++ message ++
      "\n".toList ++ "Files:\n".toList ++ staged), startsWith "Parent:".toList l = false) :
    logParent (getlines (commitText k p timestamp message staged)) "null".toList = .ok p := by
  rw [commitText_lines k p timestamp message staged hk hp]
  have h1 : startsWith "Parent:".toList ("Commit: ".toList ++ k) = false := by
    simp [startsWith, List.isPrefixOf]
  have h2 : startsWith "Parent:".toList ("Parent: ".toList ++ p) = true := by
    simp [startsWith, List.isPrefixOf]
  have h3 : substr ("Parent: ".toList ++ p) 8 = .ok p := by
    simp [substr]
  simp only [logParent, h1, h2, h3, bind, Except.bind, logParent_skip _ _ hrest]
  rfl

theorem demo_rest_lines_of (h : Str) (hh : ∀ c ∈ h, c ≠ '\n') :
    getlines ("Date: ".toList ++ demoTimestamp ++ "Message: ".toList ++ demoMessage ++
      "\n".toList ++ "Files:\n".toList ++ ("f".toList ++ " ".toList ++ h ++ "\n".toList)) =
    ["Date: Sun Nov  1 00:00:00 2026".toList, "Message: m".toList, "Files:".toList,
      "f ".toList ++ h] := by
  have e : "Date: ".toList ++ demoTimestamp ++ "Message: ".toList ++ demoMessage ++
      "\n".toList ++ "Files:\n".toList ++ ("f".toList ++ " ".toList ++ h ++ "\n".toList) =
      "Date: Sun Nov  1 00:00:00 2026".toList ++ '\n' :: ("Message: m".toList ++ '\n' ::
        ("Files:".toList ++ '\n' :: (("f ".toList ++ h) ++ '\n' :: []))) := by
    simp [demoTimestamp, demoMessage]
  rw [e, getlines_line _ _ (by decide), getlines_line _ _ (by decide),
    getlines_line _ _ (by decide),
    getlines_line _ _ (append_no_newline _ _ (by decide) hh)]
  rfl

theorem demo_rest_lines :
    getlines ("Date: ".toList ++ demoTimestamp ++ "Message: ".toList ++ demoMessage ++
      "\n".toList ++ "Files:\n".toList ++ demoStaged) =
    ["Date: Sun Nov  1 00:00:00 2026".toList, "Message: m".toList, "Files:".toList,
      "f ".toList ++ simpleHash "x".toList] :=
  demo_rest_lines_of _ (simpleHash_no_newline _)

theorem startsWith_parent_entry (h : Str) :
    startsWith "Parent:".toList ("f ".toList ++ h) = false := by
  simp [startsWith, List.isPrefixOf]

theorem demoRepo3_logParent :
    logParent (getlines (commitText demoId demoId demoTimestamp demoMessage demoStaged))
      "null".toList = .ok demoId := by
  apply logParent_commitText _ _ _ _ _ (simpleHash_no_newline _) (simpleHash_no_newline _)
  rw [demo_rest_lines]
  intro l hl
  simp only [List.mem_cons, List.mem_singleton, List.not_mem_nil, or_false] at hl
  rcases hl with rfl | rfl | rfl | rfl
  · decide
  · decide
  · decide
  · exact startsWith_parent_entry _

theorem ancestorWalk_self_loop (commits : Files) (k : Str) (hk : k ≠ "null".toList)
    (hp : parentOf commits k = .ok k) (fuel : Nat) :
    ancestorWalk commits fuel k = .error .outOfFuel := by
  induction fuel with
  | zero => rfl
  | succ n ih => simp only [ancestorWalk, if_neg hk, hp, bind, Except.bind, ih]

theorem logWalk_self_loop (commits : Files) (k text : Str) (hk : k ≠ "null".toList)
    (ht : commits k = some text) (hp : logParent (getlines text) "null".toList = .ok k)
    (fuel : Nat) :
    logWalk commits fuel k = .error .outOfFuel := by
  induction fuel with
  | zero => rfl
  | succ n ih => simp only [logWalk, if_neg hk, ht, hp, bind, Except.bind, ih]

theorem demoRepo3_ancestorWalk (fuel : Nat) :
    ancestorWalk demoRepo3.commits fuel demoId = .error .outOfFuel :=
  ancestorWalk_self_loop _ _ (simpleHash_ne_null _) demoRepo3_parent fuel

theorem demoRepo3_logWalk (fuel : Nat) :
    logWalk demoRepo3.commits fuel demoId = .error .outOfFuel :=
  logWalk_self_loop _ _ _ (simpleHash_ne_null _) demoRepo3_record demoRepo3_logParent fuel

theorem demoRepo3_main : demoRepo3.branches "main".toList = some (demoId ++ "\n".toList) := by
  simp only [demoRepo3, writeFile_same]

theorem demoRepo3_showCommitLog (fuel : Nat) :
    showCommitLog fuel demoRepo3 = .error .outOfFuel := by
  have hh : demoRepo3.head = some "ref: main\n".toList := rfl
  have hg : getline (some "ref: main\n".toList) [] = "ref: main".toList := rfl
  have hs : startsWith "ref:".toList "ref: main".toList = true := rfl
  have hb : substr "ref: main".toList 5 = .ok "main".toList := rfl
  simp only [showCommitLog, hh, hg, hs, hb, if_true, bind, Except.bind, demoRepo3_main,
    getline_hash_file demoId _ (simpleHash_no_newline _), demoRepo3_logWalk]

theorem demoRepo3_mergeBranch (fuel : Nat) :
    mergeBranch fuel "main".toList demoRepo3 = .error .outOfFuel := by
  have hh : demoRepo3.head = some "ref: main\n".toList := rfl
  have hg : getline (some "ref: main\n".toList) [] = "ref: main".toList := rfl
  have hs : startsWith "ref:".toList "ref: main".toList = true := rfl
  have hb : substr "ref: main".toList 5 = .ok "main".toList := rfl
  simp only [mergeBranch, mergeBase, lowestCommonAncestor, hh, hg, hs, hb, bind, Except.bind,
    demoRepo3_main, getline_hash_file demoId _ (simpleHash_no_newline _), demoRepo3_ancestorWalk]
  rfl

/-- C10 (code at the failing input): after `init`, `add f`, `commit -m m`, `add f`,
`commit -m m` with both commits in the same second, the one commit is its own parent,
and the history walks of `showCommitLog` and `mergeBranch` do not end, whatever the
fuel. -/
theorem ancestor_walk_diverges :
    Reachable demoRepo3 ∧
      demoRepo3.branches "main".toList = some (demoId ++ "\n".toList) ∧
      parentOf demoRepo3.commits demoId = .ok demoId ∧
      ∀ fuel,
        ancestorWalk demoRepo3.commits fuel demoId = .error .outOfFuel ∧
        logWalk demoRepo3.commits fuel demoId = .error .outOfFuel ∧
        showCommitLog fuel demoRepo3 = .error .outOfFuel ∧
        mergeBranch fuel "main".toList demoRepo3 = .error .outOfFuel :=
  ⟨demoRepo3_reachable, demoRepo3_main, demoRepo3_parent, fun fuel =>
    ⟨demoRepo3_ancestorWalk fuel, demoRepo3_logWalk fuel, demoRepo3_showCommitLog fuel,
      demoRepo3_mergeBranch fuel⟩⟩

theorem ancestorWalk_inv (commits : Files) (n : Nat) (b : Str) (cb : List Str)
    (h : ancestorWalk commits n b = .ok cb) :
    (b = "null".toList ∧ cb = []) ∨
      (b ≠ "null".toList ∧ ∃ m p rest, n = m + 1 ∧ parentOf commits b = .ok p ∧
        ancestorWalk commits m p = .ok rest ∧ cb = b :: rest) := by
  cases n with
  | zero => simp [ancestorWalk] at h
  | succ m =>
    unfold ancestorWalk at h
    by_cases hb : b = "null".toList
    · left
      rw [if_pos hb] at h
      exact ⟨hb, (Except.ok.inj h).symm⟩
    · right
      rw [if_neg hb] at h
      cases hp : parentOf commits b with
      | error e => simp [hp, bind, Except.bind] at h
      | ok p =>
        cases hr : ancestorWalk commits m p with
        | error e => simp [hp, hr, bind, Except.bind] at h
        | ok rest =>
          simp only [hp, hr, bind, Except.bind, pure, Except.pure, Except.ok.injEq] at h
          exact ⟨hb, m, p, rest, rfl, rfl, hr, h.symm⟩

theorem ancestorWalk_mono (commits : Files) (n : Nat) : ∀ (b : Str) (cb : List Str),
    ancestorWalk commits n b = .ok cb → ∀ m, n ≤ m → ancestorWalk commits m b = .ok cb := by
  induction n with
  | zero => intro b cb h; simp [ancestorWalk] at h
  | succ n ih =>
    intro b cb h m hm
    obtain ⟨m', rfl⟩ : ∃ m', m = m' + 1 := ⟨m - 1, by omega⟩
    rcases ancestorWalk_inv commits _ b cb h with ⟨hb, hcb⟩ | ⟨hb, k, p, rest, hk, hp, hr, hcb⟩
    · subst hcb
      simp only [ancestorWalk, if_pos hb]
      rfl
    · have hk' : k = n := by omega
      subst hk'
      have := ih p rest hr m' (by omega)
      simp only [ancestorWalk, if_neg hb, hp, this, bind, Except.bind, hcb]
      rfl

theorem ancestorWalk_suffix (commits : Files) (pre : List Str) : ∀ (n : Nat) (b r : Str)
    (post : List Str), ancestorWalk commits n b = .ok (pre ++ r :: post) →
    ∃ n', ancestorWalk commits n' r = .ok (r :: post) := by
  induction pre with
  | nil =>
    intro n b r post h
    rcases ancestorWalk_inv commits n b _ h with ⟨_, hcb⟩ | ⟨_, _, _, rest, _, _, _, hcb⟩
    · simp at hcb
    · simp only [List.nil_append, List.cons.injEq] at hcb
      rw [List.nil_append] at h
      exact ⟨n, hcb.1 ▸ h⟩
  | cons q pre ih =>
    intro n b r post h
    rcases ancestorWalk_inv commits n b _ h with ⟨_, hcb⟩ | ⟨_, m, p, rest, _, _, hr, hcb⟩
    · simp at hcb
    · simp only [List.cons_append, List.cons.injEq] at hcb
      rw [← hcb.2] at hr
      exact ih m p r post hr

theorem findLca_of_walk (commits : Files) (ca : List Str) (n : Nat) : ∀ (b : Str)
    (cb : List Str), ancestorWalk commits n b = .ok cb → ∀ m, n ≤ m →
    findLca commits ca m b =
      .ok ((cb.find? (fun x => decide (x ∈ ca))).getD "null".toList) := by
  induction n with
  | zero => intro b cb h; simp [ancestorWalk] at h
  | succ n ih =>
    intro b cb h m hm
    obtain ⟨m', rfl⟩ : ∃ m', m = m' + 1 := ⟨m - 1, by omega⟩
    rcases ancestorWalk_inv commits _ b cb h with ⟨hb, hcb⟩ | ⟨hb, k, p, rest, hk, hp, hr, hcb⟩
    · subst hcb
      simp only [findLca, if_pos hb]
      rfl
    · have hk' : k = n := by omega
      subst hk' hcb
      by_cases hmem : b ∈ ca
      · simp only [findLca, if_neg hb, if_pos hmem]
        rw [List.find?_cons_of_pos _ (by simpa using hmem)]
        rfl
      · simp only [findLca, if_neg hb, if_neg hmem, hp, bind, Except.bind]
        rw [List.find?_cons_of_neg _ (by simpa using hmem)]
        exact ih p rest hr m' (by omega)

theorem tree_walk_B :
    ancestorWalk treeCommits 4 "B".toList = .ok ["B".toList, "A".toList, "root".toList] := by
  rfl

/-- C2: when the walks from the two tips end, the search of `mergeBranch` returns the
first id on the chain of `b` that lies on the chain of `a`, or `null`; such an id is
on both chains and every common id is on the chain that starts at it.  On the
history `root -> A -> B` with `A -> C`: LCA(B, C) = A, LCA(A, A) = A and
LCA(root, root) = root. -/
theorem lca_is_nearest (commits : Files) (a b : Str) (fa fb : Nat) (ca cb : List Str)
    (ha : ancestorWalk commits fa a = .ok ca) (hb : ancestorWalk commits fb b = .ok cb) :
    (∀ fuel, max fa fb ≤ fuel →
      lowestCommonAncestor commits fuel a b =
        .ok ((cb.find? (fun x => decide (x ∈ ca))).getD "null".toList)) ∧
    (∀ r, cb.find? (fun x => decide (x ∈ ca)) = some r →
      r ∈ ca ∧ r ∈ cb ∧
        ∀ x, x ∈ ca → x ∈ cb → ∃ fr cr, ancestorWalk commits fr r = .ok cr ∧ x ∈ cr) ∧
    lowestCommonAncestor treeCommits 4 "B".toList "C".toList = .ok "A".toList ∧
    lowestCommonAncestor treeCommits 4 "A".toList "A".toList = .ok "A".toList ∧
    lowestCommonAncestor treeCommits 4 "root".toList "root".toList = .ok "root".toList := by
  refine ⟨?_, ?_, rfl, rfl, rfl⟩
  · intro fuel hfuel
    have h1 := ancestorWalk_mono commits fa a ca ha fuel (le_trans (le_max_left _ _) hfuel)
    have h2 := findLca_of_walk commits ca fb b cb hb fuel (le_trans (le_max_right _ _) hfuel)
    simp only [lowestCommonAncestor, h1, bind, Except.bind, h2]
  · intro r hr
    have hmem : r ∈ ca := by simpa using List.find?_some hr
    refine ⟨hmem, List.mem_of_find?_eq_some hr, ?_⟩
    intro x hxa hxb
    obtain ⟨_, pre, post, hsplit, hpre⟩ := List.find?_eq_some.mp hr
    rw [hsplit] at hb hxb
    obtain ⟨n', hn'⟩ := ancestorWalk_suffix commits pre fb b r post hb
    refine ⟨n', r :: post, hn', ?_⟩
    rcases List.mem_append.mp hxb with hx | hx
    · have := hpre x hx
      simp [hxa] at this
    · exact hx

theorem lca_is_nearest_witness :
    lowestCommonAncestor treeCommits 7 "B".toList "C".toList = .ok "A".toList :=
  (lca_is_nearest treeCommits "B".toList "C".toList 4 4
      ["B".toList, "A".toList, "root".toList] ["C".toList, "A".toList, "root".toList]
      rfl rfl).1 7 (by decide)

theorem mergeNames_skip (objects : Files) (C T : FileMap) (tb p l : Str)
    (rest : List (Str × Str)) (work : Files)
    (h : mapGet C p = mapGet T p ∨ mapGet T p = []) :
    mergeNames objects C T tb ((p, l) :: rest) work = mergeNames objects C T tb rest work := by
  have hc : (decide (mapGet C p = mapGet T p) || (mapGet T p).isEmpty) = true := by
    simpa [List.isEmpty_iff] using h
  simp only [mergeNames, hc, if_true]

theorem mergeNames_conflict (objects : Files) (C T : FileMap) (tb p l : Str)
    (rest : List (Str × Str)) (work : Files)
    (h1 : ¬ (mapGet C p = mapGet T p ∨ mapGet T p = []))
    (h2 : mapGet C p ≠ l ∧ mapGet T p ≠ l) :
    mergeNames objects C T tb ((p, l) :: rest) work =
      ((mergeNames objects C T tb rest
          (writeFile work p (conflictFile (blobStream objects (mapGet C p)) (blobStream objects (mapGet T p)) tb))).1,
        conflictLine p :: (mergeNames objects C T tb rest
          (writeFile work p (conflictFile (blobStream objects (mapGet C p)) (blobStream objects (mapGet T p)) tb))).2) := by
  have hc : (decide (mapGet C p = mapGet T p) || (mapGet T p).isEmpty) = false := by
    simpa [List.isEmpty_iff] using h1
  have hd : (decide (mapGet C p ≠ l) && decide (mapGet T p ≠ l) &&
      decide (mapGet C p ≠ mapGet T p)) = true := by
    have h3 : mapGet C p ≠ mapGet T p := fun e => h1 (Or.inl e)
    simp [h2.1, h2.2, h3]
  simp only [mergeNames, hc, hd, if_true, Bool.false_eq_true, if_false]

theorem mergeNames_apply (objects : Files) (C T : FileMap) (tb p l : Str)
    (rest : List (Str × Str)) (work : Files)
    (h1 : ¬ (mapGet C p = mapGet T p ∨ mapGet T p = []))
    (h2 : ¬ (mapGet C p ≠ l ∧ mapGet T p ≠ l)) :
    mergeNames objects C T tb ((p, l) :: rest) work =
      ((mergeNames objects C T tb rest
          (writeFile work p (appliedFile (blobStream objects (mapGet T p))))).1,
        mergedLine tb p :: (mergeNames objects C T tb rest
          (writeFile work p (appliedFile (blobStream objects (mapGet T p))))).2) := by
  have hc : (decide (mapGet C p = mapGet T p) || (mapGet T p).isEmpty) = false := by
    simpa [List.isEmpty_iff] using h1
  have hd : (decide (mapGet C p ≠ l) && decide (mapGet T p ≠ l) &&
      decide (mapGet C p ≠ mapGet T p)) = false := by
    by_cases ha : mapGet C p = l
    · simp [ha]
    · have hb : mapGet T p = l := by
        by_contra hb
        exact h2 ⟨ha, hb⟩
      simp [hb]
  simp only [mergeNames, hc, hd, if_true, Bool.false_eq_true, if_false]

theorem conflictLine_inj (p q : Str) (h : conflictLine p = conflictLine q) : p = q := by
  simpa [conflictLine] using h

theorem mergedLine_inj (tb p q : Str) (h : mergedLine tb p = mergedLine tb q) : p = q := by
  simpa [mergedLine] using h

theorem conflictLine_ne_mergedLine (tb p q : Str) : conflictLine p ≠ mergedLine tb q := by
  simp [conflictLine, mergedLine]

theorem mergeNames_cons_ne (objects : Files) (C T : FileMap) (tb p q lq : Str)
    (rest : List (Str × Str)) (work : Files) (hpq : p ≠ q) :
    ∃ work', work' p = work p ∧
      (mergeNames objects C T tb ((q, lq) :: rest) work).1 =
        (mergeNames objects C T tb rest work').1 ∧
      (mergeNames objects C T tb ((q, lq) :: rest) work).2.count (conflictLine p) =
        (mergeNames objects C T tb rest work').2.count (conflictLine p) ∧
      (mergeNames objects C T tb ((q, lq) :: rest) work).2.count (mergedLine tb p) =
        (mergeNames objects C T tb rest work').2.count (mergedLine tb p) := by
  have hc : conflictLine p ≠ conflictLine q := fun e => hpq (conflictLine_inj _ _ e)
  have hm : mergedLine tb p ≠ mergedLine tb q := fun e => hpq (mergedLine_inj _ _ _ e)
  by_cases h1 : mapGet C q = mapGet T q ∨ mapGet T q = []
  · exact ⟨work, rfl, by rw [mergeNames_skip _ _ _ _ _ _ _ _ h1],
      by rw [mergeNames_skip _ _ _ _ _ _ _ _ h1], by rw [mergeNames_skip _ _ _ _ _ _ _ _ h1]⟩
  · by_cases h2 : mapGet C q ≠ lq ∧ mapGet T q ≠ lq
    · refine ⟨writeFile work q (conflictFile (blobStream objects (mapGet C q)) (blobStream objects (mapGet T q)) tb),
        writeFile_other _ _ _ _ hpq, ?_, ?_, ?_⟩
      · rw [mergeNames_conflict _ _ _ _ _ _ _ _ h1 h2]
      · rw [mergeNames_conflict _ _ _ _ _ _ _ _ h1 h2]
        exact List.count_cons_of_ne hc _
      · rw [mergeNames_conflict _ _ _ _ _ _ _ _ h1 h2]
        exact List.count_cons_of_ne (conflictLine_ne_mergedLine _ _ _).symm _
    · refine ⟨writeFile work q (appliedFile (blobStream objects (mapGet T q))),
        writeFile_other _ _ _ _ hpq, ?_, ?_, ?_⟩
      · rw [mergeNames_apply _ _ _ _ _ _ _ _ h1 h2]
      · rw [mergeNames_apply _ _ _ _ _ _ _ _ h1 h2]
        exact List.count_cons_of_ne (conflictLine_ne_mergedLine _ _ _) _
      · rw [mergeNames_apply _ _ _ _ _ _ _ _ h1 h2]
        exact List.count_cons_of_ne hm _

theorem mergeNames_other (objects : Files) (C T : FileMap) (tb p : Str) :
    ∀ (entries : List (Str × Str)) (work : Files), p ∉ entries.map Prod.fst →
      (mergeNames objects C T tb entries work).1 p = work p ∧
      (mergeNames objects C T tb entries work).2.count (conflictLine p) = 0 ∧
      (mergeNames objects C T tb entries work).2.count (mergedLine tb p) = 0 := by
  intro entries
  induction entries with
  | nil => intro work _; exact ⟨rfl, rfl, rfl⟩
  | cons e rest ih =>
    intro work hp
    obtain ⟨q, lq⟩ := e
    simp only [List.map_cons, List.mem_cons, not_or] at hp
    obtain ⟨w', hw, h1, h2, h3⟩ := mergeNames_cons_ne objects C T tb p q lq rest work hp.1
    obtain ⟨i1, i2, i3⟩ := ih w' hp.2
    rw [h1, h2, h3, i1, hw]
    exact ⟨rfl, i2, i3⟩

theorem mergeNames_entry (objects : Files) (C T : FileMap) (tb p l : Str) :
    ∀ (entries : List (Str × Str)) (work : Files), (entries.map Prod.fst).Nodup →
      (p, l) ∈ entries →
      (mapGet C p = mapGet T p ∨ mapGet T p = [] →
        (mergeNames objects C T tb entries work).1 p = work p ∧
        (mergeNames objects C T tb entries work).2.count (conflictLine p) = 0 ∧
        (mergeNames objects C T tb entries work).2.count (mergedLine tb p) = 0) ∧
      (¬ (mapGet C p = mapGet T p ∨ mapGet T p = []) →
        mapGet C p ≠ l ∧ mapGet T p ≠ l →
        (mergeNames objects C T tb entries work).1 p =
          some (conflictFile (blobStream objects (mapGet C p)) (blobStream objects (mapGet T p)) tb) ∧
        (mergeNames objects C T tb entries work).2.count (conflictLine p) = 1 ∧
        (mergeNames objects C T tb entries work).2.count (mergedLine tb p) = 0) ∧
      (¬ (mapGet C p = mapGet T p ∨ mapGet T p = []) →
        ¬ (mapGet C p ≠ l ∧ mapGet T p ≠ l) →
        (mergeNames objects C T tb entries work).1 p =
          some (appliedFile (blobStream objects (mapGet T p))) ∧
        (mergeNames objects C T tb entries work).2.count (conflictLine p) = 0 ∧
        (mergeNames objects C T tb entries work).2.count (mergedLine tb p) = 1) := by
  intro entries
  induction entries with
  | nil => intro work _ hmem; simp at hmem
  | cons e rest ih =>
    intro work hnd hmem
    obtain ⟨q, lq⟩ := e
    simp only [List.map_cons, List.nodup_cons] at hnd
    rcases List.mem_cons.mp hmem with heq | hin
    · obtain ⟨rfl, rfl⟩ := Prod.mk.inj heq
      refine ⟨fun h1 => ?_, fun h1 h2 => ?_, fun h1 h2 => ?_⟩
      · rw [mergeNames_skip _ _ _ _ _ _ _ _ h1]
        exact mergeNames_other objects C T tb p rest work hnd.1
      · rw [mergeNames_conflict _ _ _ _ _ _ _ _ h1 h2]
        obtain ⟨i1, i2, i3⟩ := mergeNames_other objects C T tb p rest
          (writeFile work p (conflictFile (blobStream objects (mapGet C p)) (blobStream objects (mapGet T p)) tb)) hnd.1
        refine ⟨by rw [i1]; exact writeFile_same _ _ _, ?_, ?_⟩
        · rw [List.count_cons_self, i2]
        · rw [List.count_cons_of_ne (conflictLine_ne_mergedLine _ _ _).symm, i3]
      · rw [mergeNames_apply _ _ _ _ _ _ _ _ h1 h2]
        obtain ⟨i1, i2, i3⟩ := mergeNames_other objects C T tb p rest
          (writeFile work p (appliedFile (blobStream objects (mapGet T p)))) hnd.1
        refine ⟨by rw [i1]; exact writeFile_same _ _ _, ?_, ?_⟩
        · rw [List.count_cons_of_ne (conflictLine_ne_mergedLine _ _ _), i2]
        · rw [List.count_cons_self, i3]
    · have hpq : p ≠ q := by
        rintro rfl
        exact hnd.1 (List.mem_map_of_mem Prod.fst hin)
      obtain ⟨w', hw, h1, h2, h3⟩ := mergeNames_cons_ne objects C T tb p q lq rest work hpq
      rw [h1, h2, h3, ← hw]
      exact ih w' hnd.2 hin

theorem mapSet_keys (k v : Str) : ∀ (m : FileMap) (x : Str),
    x ∈ (mapSet k v m).map Prod.fst → x = k ∨ x ∈ m.map Prod.fst := by
  intro m
  induction m with
  | nil => intro x hx; simpa [mapSet] using hx
  | cons e rest ih =>
    intro x hx
    obtain ⟨k', v'⟩ := e
    unfold mapSet at hx
    split at hx
    · rename_i hk
      simp only [List.map_cons, List.mem_cons] at hx ⊢
      rcases hx with h | h
      · exact Or.inl h
      · exact Or.inr (Or.inr h)
    · split at hx
      · simpa using hx
      · simp only [List.map_cons, List.mem_cons] at hx ⊢
        rcases hx with h | h
        · exact Or.inr (Or.inl h)
        · rcases ih x h with h | h
          · exact Or.inl h
          · exact Or.inr (Or.inr h)

theorem mapSet_sorted (k v : Str) : ∀ (m : FileMap),
    (m.map Prod.fst).Pairwise (· < ·) → ((mapSet k v m).map Prod.fst).Pairwise (· < ·) := by
  intro m
  induction m with
  | nil => intro _; simp [mapSet]
  | cons e rest ih =>
    intro hs
    obtain ⟨k', v'⟩ := e
    simp only [List.map_cons, List.pairwise_cons] at hs
    unfold mapSet
    split
    · rename_i hk
      subst hk
      simpa using hs
    · rename_i hk
      split
      · rename_i hlt
        simp only [List.map_cons, List.pairwise_cons, List.mem_cons]
        refine ⟨?_, hs.1, hs.2⟩
        rintro x (rfl | hx)
        · exact hlt
        · exact lt_trans hlt (hs.1 x hx)
      · rename_i hlt
        have hgt : k' < k := by
          rcases lt_trichotomy k k' with h | h | h
          · exact absurd h hlt
          · exact absurd h hk
          · exact h
        simp only [List.map_cons, List.pairwise_cons]
        refine ⟨?_, ih hs.2⟩
        intro x hx
        rcases mapSet_keys k v rest x hx with rfl | h
        · exact hgt
        · exact hs.1 x h

theorem loadFiles_sorted (commits : Files) (hash : Str) :
    ((loadFiles commits hash).map Prod.fst).Pairwise (· < ·) := by
  unfold loadFiles
  generalize parseFiles false (getlines ((commits hash).getD [])) = es
  have : ∀ (es : List (Str × Str)) (m : FileMap), (m.map Prod.fst).Pairwise (· < ·) →
      ((es.foldl (fun files e => mapSet e.1 e.2 files) m).map Prod.fst).Pairwise (· < ·) := by
    intro es
    induction es with
    | nil => intro m hm; exact hm
    | cons e rest ih => intro m hm; exact ih _ (mapSet_sorted e.1 e.2 m hm)
  exact this es [] (by simp)

theorem loadFiles_nodup (commits : Files) (hash : Str) :
    ((loadFiles commits hash).map Prod.fst).Nodup :=
  (loadFiles_sorted commits hash).imp (fun h => ne_of_lt h)

theorem mapFind_mem (m : FileMap) (p l : Str) (h : mapFind m p = some l) : (p, l) ∈ m := by
  unfold mapFind at h
  cases hf : m.find? (fun e => decide (e.1 = p)) with
  | none => simp [hf] at h
  | some e =>
    simp only [hf, Option.map_some', Option.some.injEq] at h
    have h1 : e.1 = p := by simpa using List.find?_some hf
    have h2 := List.mem_of_find?_eq_some hf
    obtain ⟨e1, e2⟩ := e
    simp only at h h1
    subst h h1
    exact h2

theorem mapFind_mapSet (k v : Str) : ∀ (m : FileMap) (p : Str),
    mapFind (mapSet k v m) p = if p = k then some v else mapFind m p := by
  intro m
  induction m with
  | nil =>
    intro p
    by_cases hp : p = k
    · simp [mapSet, mapFind, hp]
    · simp [mapSet, mapFind, hp, Ne.symm hp]
  | cons e rest ih =>
    intro p
    obtain ⟨k', v'⟩ := e
    unfold mapSet
    by_cases hk : k = k'
    · rw [if_pos hk]
      by_cases hp : p = k
      · simp [mapFind, hp]
      · have hp' : ¬ k' = p := fun h => hp (h.symm.trans hk.symm)
        simp [mapFind, hp, Ne.symm hp, hp']
    · rw [if_neg hk]
      by_cases hlt : k < k'
      · rw [if_pos hlt]
        by_cases hp : p = k
        · simp [mapFind, hp]
        · simp [mapFind, hp, Ne.symm hp]
      · rw [if_neg hlt]
        by_cases hp' : k' = p
        · have hp : ¬ p = k := fun h => hk (h.symm.trans hp'.symm)
          simp [mapFind, hp, hp']
        · have := ih p
          unfold mapFind at this ⊢
          rw [List.find?_cons_of_neg _ (by simpa using hp'),
            List.find?_cons_of_neg _ (by simpa using hp')]
          exact this

theorem mapFind_of_mem (m : FileMap) (hnd : (m.map Prod.fst).Nodup) (k v : Str)
    (h : (k, v) ∈ m) : mapFind m k = some v := by
  induction m with
  | nil => cases h
  | cons e rest ih =>
    obtain ⟨k', v'⟩ := e
    rw [List.map_cons, List.nodup_cons] at hnd
    rcases List.mem_cons.mp h with h | h
    · cases h
      simp [mapFind, List.find?]
    · have hne : k' ≠ k := by
        intro hk
        exact hnd.1 (hk ▸ List.mem_map.mpr ⟨(k, v), h, rfl⟩)
      have := ih hnd.2 h
      unfold mapFind at this ⊢
      rw [List.find?_cons_of_neg _ (by simpa using hne)]
      exact this

theorem mapFind_foldl (p : Str) : ∀ (es : List (Str × Str)) (init : FileMap),
    mapFind (es.foldl (fun files e => mapSet e.1 e.2 files) init) p =
      match es.reverse.find? (fun e => e.1 = p) with
      | some e => some e.2
      | none => mapFind init p := by
  intro es
  induction es with
  | nil => intro init; rfl
  | cons e rest ih =>
    intro init
    rw [List.foldl_cons, ih, List.reverse_cons, List.find?_append]
    cases hf : rest.reverse.find? (fun e => decide (e.1 = p)) with
    | some e' => rfl
    | none =>
      simp only [Option.none_or, mapFind_mapSet]
      by_cases hp : p = e.1
      · have : decide (e.1 = p) = true := by simp [hp]
        simp [List.find?, hp]
      · have : decide (e.1 = p) = false := by simpa using Ne.symm hp
        simp [List.find?, hp, this]

theorem loadFiles_eq (commits : Files) (hash : Str) :
    loadFiles commits hash =
      (commitEntries commits hash).foldl (fun files e => mapSet e.1 e.2 files) [] := rfl

/-- The map that `loadFiles` builds holds for each path the fingerprint of its last
entry in the commit file. -/
theorem mapGet_loadFiles (commits : Files) (hash p : Str) :
    mapGet (loadFiles commits hash) p = lastEntry (commitEntries commits hash) p := by
  unfold mapGet lastEntry
  rw [loadFiles_eq, mapFind_foldl]
  cases (commitEntries commits hash).reverse.find? (fun e => decide (e.1 = p)) with
  | some e => rfl
  | none => rfl

theorem mapFind_loadFiles (commits : Files) (hash p l : Str)
    (h : mapFind (loadFiles commits hash) p = some l) :
    p ∈ (commitEntries commits hash).map Prod.fst ∧
      l = lastEntry (commitEntries commits hash) p := by
  rw [loadFiles_eq, mapFind_foldl] at h
  unfold lastEntry
  cases hf : (commitEntries commits hash).reverse.find? (fun e => decide (e.1 = p)) with
  | none => rw [hf] at h; cases h
  | some e =>
    rw [hf] at h
    simp only [Option.some.injEq] at h
    have h1 : e.1 = p := by simpa using List.find?_some hf
    have h2 := List.mem_reverse.mp (List.mem_of_find?_eq_some hf)
    exact ⟨h1 ▸ List.mem_map_of_mem Prod.fst h2, by simp [h]⟩

theorem lastEntry_mem (entries : List (Str × Str)) (p : Str) :
    lastEntry entries p = [] ∨ ∃ e ∈ entries, e.1 = p ∧ e.2 = lastEntry entries p := by
  unfold lastEntry
  cases hf : entries.reverse.find? (fun e => decide (e.1 = p)) with
  | none => exact Or.inl rfl
  | some e =>
    exact Or.inr ⟨e, List.mem_reverse.mp (List.mem_of_find?_eq_some hf),
      by simpa using List.find?_some hf, rfl⟩

theorem lastEntry_plain (entries : List (Str × Str)) (p : Str) (h : PlainEntries entries) :
    lastEntry entries p = [] ∨ IsName (lastEntry entries p) := by
  rcases lastEntry_mem entries p with h0 | ⟨e, he, _, h2⟩
  · exact Or.inl h0
  · rw [← h2]
    exact (h e he).2

theorem appliedFile_eq (blob : Option Str) : appliedFile blob = blob.getD [] := by
  unfold appliedFile OStream.writeBuf OStream.opened
  cases blob with
  | none => simp
  | some c => cases c <;> simp

theorem blobStream_name (objects : Files) (k : Str) (h : k ≠ []) :
    blobStream objects k = objects k := by
  rw [blobStream, if_neg h]

theorem mergeBranch_found (fuel : Nat) (tb : Str) (s : Repo)
    (currentBranch currentHash targetHash lca : Str)
    (hbase : mergeBase fuel tb s = .ok (.found currentBranch currentHash targetHash lca)) :
    mergeBranch fuel tb s =
      .ok ((mergeFiles (loadFiles s.commits currentHash) (loadFiles s.commits targetHash) tb
              (loadFiles s.commits lca) s).1,
        ("Merging branch '".toList ++ tb ++ "' into '".toList ++ currentBranch ++
            "'\n".toList) ::
        ("Lowest Common Ancestor: ".toList ++ lca ++ "\n".toList) ::
        ((mergeFiles (loadFiles s.commits currentHash) (loadFiles s.commits targetHash) tb
            (loadFiles s.commits lca) s).2 ++
          ["Merge complete. Please resolve conflicts and commit the result.\n".toList])) := by
  simp only [mergeBranch, hbase, bind, Except.bind, pure, Except.pure]

/-- The maps of three commits with plain entries meet the conditions of
`mergeFiles_names`. -/
theorem plain_maps (commits : Files) (lca currentHash targetHash : Str)
    (hL : PlainEntries (commitEntries commits lca))
    (hC : PlainEntries (commitEntries commits currentHash))
    (hT : PlainEntries (commitEntries commits targetHash)) :
    ∀ e ∈ loadFiles commits lca, IsWorkName e.1 ∧
      (mapGet (loadFiles commits currentHash) e.1 = [] ∨
        IsName (mapGet (loadFiles commits currentHash) e.1)) ∧
      (mapGet (loadFiles commits targetHash) e.1 = [] ∨
        IsName (mapGet (loadFiles commits targetHash) e.1)) := by
  intro e he
  have hk : e.1 ∈ (commitEntries commits lca).map Prod.fst := by
    have hnd := loadFiles_nodup commits lca
    have hf := mapFind_of_mem (loadFiles commits lca) hnd e.1 e.2 he
    exact (mapFind_loadFiles commits lca e.1 e.2 hf).1
  obtain ⟨e', he', hp⟩ := List.mem_map.mp hk
  refine ⟨hp ▸ (hL e' he').1, ?_, ?_⟩
  · rw [mapGet_loadFiles]
    exact lastEntry_plain _ _ hC
  · rw [mapGet_loadFiles]
    exact lastEntry_plain _ _ hT

/-- With plain entries in the three commits, `mergeBranch` changes the files of the
working directory only. -/
theorem mergeBranch_names (fuel : Nat) (tb : Str) (s : Repo)
    (currentBranch currentHash targetHash lca : Str)
    (hbase : mergeBase fuel tb s = .ok (.found currentBranch currentHash targetHash lca))
    (hinit : s.initialized = true)
    (hL : PlainEntries (commitEntries s.commits lca))
    (hC : PlainEntries (commitEntries s.commits currentHash))
    (hT : PlainEntries (commitEntries s.commits targetHash)) :
    mergeBranch fuel tb s =
      .ok ({ s with
              files := (mergeNames s.objects (loadFiles s.commits currentHash)
                (loadFiles s.commits targetHash) tb (loadFiles s.commits lca) s.files).1 },
        ("Merging branch '".toList ++ tb ++ "' into '".toList ++ currentBranch ++
            "'\n".toList) ::
        ("Lowest Common Ancestor: ".toList ++ lca ++ "\n".toList) ::
        ((mergeNames s.objects (loadFiles s.commits currentHash)
            (loadFiles s.commits targetHash) tb (loadFiles s.commits lca) s.files).2 ++
          ["Merge complete. Please resolve conflicts and commit the result.\n".toList])) := by
  rw [mergeBranch_found fuel tb s currentBranch currentHash targetHash lca hbase,
    mergeFiles_names _ _ tb _ s hinit (plain_maps s.commits lca currentHash targetHash hL hC hT)]

theorem count_conflictLine_report (p a b : Str) (out : List Str) :
    (("Merging branch '".toList ++ a) :: ("Lowest Common Ancestor: ".toList ++ b) ::
      (out ++ ["Merge complete. Please resolve conflicts and commit the result.\n".toList])).count
        (conflictLine p) = out.count (conflictLine p) := by
  have h1 : conflictLine p ≠ "Merging branch '".toList ++ a := by simp [conflictLine]
  have h2 : conflictLine p ≠ "Lowest Common Ancestor: ".toList ++ b := by simp [conflictLine]
  have h3 : conflictLine p ≠
      "Merge complete. Please resolve conflicts and commit the result.\n".toList := by
    simp [conflictLine]
  rw [List.count_cons_of_ne h1, List.count_cons_of_ne h2, List.count_append,
    List.count_cons_of_ne h3]
  rfl

theorem count_mergedLine_report (tb p a b : Str) (out : List Str) :
    (("Merging branch '".toList ++ a) :: ("Lowest Common Ancestor: ".toList ++ b) ::
      (out ++ ["Merge complete. Please resolve conflicts and commit the result.\n".toList])).count
        (mergedLine tb p) = out.count (mergedLine tb p) := by
  have h1 : mergedLine tb p ≠ "Merging branch '".toList ++ a := by simp [mergedLine]
  have h2 : mergedLine tb p ≠ "Lowest Common Ancestor: ".toList ++ b := by simp [mergedLine]
  have h3 : mergedLine tb p ≠
      "Merge complete. Please resolve conflicts and commit the result.\n".toList := by
    simp [mergedLine]
  rw [List.count_cons_of_ne h1, List.count_cons_of_ne h2, List.count_append,
    List.count_cons_of_ne h3]
  rfl

theorem mergeBranch_entry (fuel : Nat) (tb : Str) (s : Repo)
    (currentBranch currentHash targetHash lca : Str)
    (hbase : mergeBase fuel tb s = .ok (.found currentBranch currentHash targetHash lca))
    (hinit : s.initialized = true)
    (hL : PlainEntries (commitEntries s.commits lca))
    (hC : PlainEntries (commitEntries s.commits currentHash))
    (hT : PlainEntries (commitEntries s.commits targetHash)) :
    ∃ s' out, mergeBranch fuel tb s = .ok (s', out) ∧
      s'.initialized = s.initialized ∧ s'.objects = s.objects ∧ s'.commits = s.commits ∧
      s'.branches = s.branches ∧ s'.head = s.head ∧ s'.index = s.index ∧
      ∀ p l, mapFind (loadFiles s.commits lca) p = some l →
        (mapGet (loadFiles s.commits currentHash) p = mapGet (loadFiles s.commits targetHash) p ∨
            mapGet (loadFiles s.commits targetHash) p = [] →
          s'.work p = s.work p ∧ out.count (conflictLine p) = 0 ∧
            out.count (mergedLine tb p) = 0) ∧
        (¬ (mapGet (loadFiles s.commits currentHash) p =
              mapGet (loadFiles s.commits targetHash) p ∨
            mapGet (loadFiles s.commits targetHash) p = []) →
          mapGet (loadFiles s.commits currentHash) p ≠ l ∧
            mapGet (loadFiles s.commits targetHash) p ≠ l →
          s'.work p = some (conflictFile
            (blobStream s.objects (mapGet (loadFiles s.commits currentHash) p))
            (blobStream s.objects (mapGet (loadFiles s.commits targetHash) p)) tb) ∧
          out.count (conflictLine p) = 1 ∧ out.count (mergedLine tb p) = 0) ∧
        (¬ (mapGet (loadFiles s.commits currentHash) p =
              mapGet (loadFiles s.commits targetHash) p ∨
            mapGet (loadFiles s.commits targetHash) p = []) →
          ¬ (mapGet (loadFiles s.commits currentHash) p ≠ l ∧
            mapGet (loadFiles s.commits targetHash) p ≠ l) →
          s'.work p =
            some (appliedFile (blobStream s.objects (mapGet (loadFiles s.commits targetHash) p))) ∧
          out.count (conflictLine p) = 0 ∧ out.count (mergedLine tb p) = 1) := by
  refine ⟨_, _, mergeBranch_names fuel tb s currentBranch currentHash targetHash lca hbase
    hinit hL hC hT, rfl, rfl, rfl, rfl, rfl, rfl, ?_⟩
  intro p l hl
  have hmem := mapFind_mem _ p l hl
  have hp : IsWorkName p :=
    (plain_maps s.commits lca currentHash targetHash hL hC hT (p, l) hmem).1
  have he := mergeNames_entry s.objects (loadFiles s.commits currentHash)
    (loadFiles s.commits targetHash) tb p l (loadFiles s.commits lca) s.files
    (loadFiles_nodup s.commits lca) hmem
  simp only [List.append_assoc, count_conflictLine_report, count_mergedLine_report]
  rw [work_name _ p hp, work_name _ p hp]
  exact he

theorem getlines_eq_nil (s : Str) (h : getlines s = []) : s = [] := by
  cases s with
  | nil => rfl
  | cons c cs =>
    by_cases hc : c = '\n'
    · simp [getlines, hc] at h
    · rw [getlines_cons _ _ hc] at h
      cases hg : getlines cs <;> simp [hg] at h

theorem getlines_nl (cs : Str) : getlines ('\n' :: cs) = [] :: getlines cs := by
  simp [getlines]

theorem getlines_append (a b : Str) :
    getlines (a ++ '\n' :: b) = getlines (a ++ ['\n']) ++ getlines b := by
  induction a with
  | nil => simp [getlines]
  | cons c a ih =>
    by_cases hc : c = '\n'
    · subst hc
      rw [List.cons_append, List.cons_append, getlines_nl, getlines_nl, ih]
      rfl
    · rw [List.cons_append, List.cons_append, getlines_cons _ _ hc, getlines_cons _ _ hc, ih]
      cases hg : getlines (a ++ ['\n']) with
      | nil => exact absurd (getlines_eq_nil _ hg) (by simp)
      | cons l ls => rfl

theorem parseFiles_cons (b : Bool) (l : Str) (rest : List Str) :
    parseFiles b (l :: rest) =
      if l = "Files:".toList then parseFiles true rest
      else if (b && !l.isEmpty) = true then parseEntry l :: parseFiles b rest
      else parseFiles b rest := by
  simp only [parseFiles]

theorem parseFiles_append_files (b : Bool) (l1 l2 : List Str) :
    parseFiles b (l1 ++ "Files:".toList :: l2) = parseFiles b l1 ++ parseFiles true l2 := by
  induction l1 generalizing b with
  | nil =>
    rw [List.nil_append, parseFiles_cons, if_pos rfl]
    rfl
  | cons l rest ih =>
    rw [List.cons_append, parseFiles_cons, parseFiles_cons]
    by_cases h1 : l = "Files:".toList
    · rw [if_pos h1, if_pos h1]
      exact ih true
    · rw [if_neg h1, if_neg h1]
      by_cases h2 : (b && !l.isEmpty) = true
      · rw [if_pos h2, if_pos h2, ih b]
        rfl
      · rw [if_neg h2, if_neg h2]
        exact ih b

theorem isSpace_space : isSpace ' ' = true := by decide

theorem isSpace_newline : isSpace '\n' = true := by decide

theorem IsWord.no_newline {w : Str} (h : IsWord w) : ∀ c ∈ w, c ≠ '\n' := by
  intro c hc e
  have := h.2 c hc
  rw [e, isSpace_newline] at this
  cases this

theorem simpleHash_isWord (s : Str) : IsWord (simpleHash s) :=
  ⟨simpleHash_ne_nil s, fun c hc => hex_not_space c (simpleHash_hex s c hc)⟩

theorem takeWhile_word (w rest : Str) (hw : ∀ c ∈ w, isSpace c = false)
    (hr : rest = [] ∨ ∃ c cs, rest = c :: cs ∧ isSpace c = true) :
    (w ++ rest).takeWhile (fun c => !isSpace c) = w ∧
      (w ++ rest).dropWhile (fun c => !isSpace c) = rest := by
  induction w with
  | nil =>
    rcases hr with rfl | ⟨c, cs, rfl, hc⟩
    · simp
    · simp [List.takeWhile, List.dropWhile, hc]
  | cons d ds ih =>
    have hd : isSpace d = false := hw d (by simp)
    have := ih (fun c hc => hw c (by simp [hc]))
    simp [List.takeWhile, List.dropWhile, hd, this.1, this.2]

theorem dropWhile_space_word (w rest : Str) (hw : IsWord w) :
    (w ++ rest).dropWhile isSpace = w ++ rest := by
  obtain ⟨hne, hsp⟩ := hw
  cases w with
  | nil => exact absurd rfl hne
  | cons d ds =>
    have hd : isSpace d = false := hsp d (by simp)
    simp [List.dropWhile, hd]

theorem extractWord_word (w rest : Str) (hw : IsWord w)
    (hr : rest = [] ∨ ∃ c cs, rest = c :: cs ∧ isSpace c = true) :
    extractWord (w ++ rest) = (w, rest) := by
  unfold extractWord
  simp only [dropWhile_space_word w rest hw]
  have := takeWhile_word w rest hw.2 hr
  rw [this.1, this.2]

theorem parseEntry_words (p h rest : Str) (hp : IsWord p) (hh : IsWord h)
    (hr : rest = [] ∨ ∃ c cs, rest = c :: cs ∧ isSpace c = true) :
    parseEntry (p ++ " ".toList ++ h ++ rest) = (p, h) := by
  have e : p ++ " ".toList ++ h ++ rest = p ++ (' ' :: (h ++ rest)) := by simp
  have e1 := extractWord_word p (' ' :: (h ++ rest)) hp (Or.inr ⟨' ', _, rfl, isSpace_space⟩)
  have e2 : extractWord (' ' :: (h ++ rest)) = (h, rest) := by
    have := extractWord_word h rest hh hr
    unfold extractWord at this ⊢
    have hd : (' ' :: (h ++ rest)).dropWhile isSpace = (h ++ rest).dropWhile isSpace := by
      simp [List.dropWhile, isSpace_space]
    rw [hd]
    exact this
  unfold parseEntry
  simp only [e, e1, e2]

theorem entry_line_ne_files (p h : Str) :
    p ++ " ".toList ++ h ≠ "Files:".toList := by
  intro e
  have hmem : (' ' : Char) ∈ p ++ " ".toList ++ h := by simp
  rw [e] at hmem
  exact absurd hmem (by decide)

theorem parseFiles_indexText : ∀ (es : List (Str × Str)),
    (∀ e ∈ es, IsWord e.1 ∧ IsWord e.2) →
    parseFiles true (getlines (indexText es)) = es := by
  intro es
  induction es with
  | nil => intro _; rfl
  | cons e rest ih =>
    intro h
    obtain ⟨p, k⟩ := e
    obtain ⟨hp, hk⟩ := h (p, k) (by simp)
    have hline : ∀ c ∈ p ++ " ".toList ++ k, c ≠ '\n' :=
      append_no_newline _ _ (append_no_newline _ _ hp.no_newline (by decide)) hk.no_newline
    have e1 : indexText ((p, k) :: rest) = (p ++ " ".toList ++ k) ++ '\n' :: indexText rest := by
      simp [indexText]
    rw [e1, getlines_line _ _ hline, parseFiles_cons, if_neg (entry_line_ne_files p k)]
    have hne : ((true && !(p ++ " ".toList ++ k).isEmpty) = true) := by
      simp
    rw [if_pos hne, ih (fun e he => h e (by simp [he]))]
    have := parseEntry_words p k [] hp hk (Or.inl rfl)
    rw [List.append_nil] at this
    rw [this]

theorem commitText_split (k p timestamp message staged : Str) :
    commitText k p timestamp message staged =
      ("Commit: ".toList ++ k ++ "\n".toList ++ "Parent: ".toList ++ p ++ "\n".toList ++
        "Date: ".toList ++ timestamp ++ "Message: ".toList ++ message) ++
        '\n' :: ("Files:".toList ++ '\n' :: staged) := by
  simp [commitText]

theorem parseFiles_commitText (k p timestamp message staged : Str) :
    parseFiles false (getlines (commitText k p timestamp message staged)) =
      parseFiles false (getlines ("Commit: ".toList ++ k ++ "\n".toList ++ "Parent: ".toList ++
        p ++ "\n".toList ++ "Date: ".toList ++ timestamp ++ "Message: ".toList ++ message ++
        ['\n'])) ++ parseFiles true (getlines staged) := by
  rw [commitText_split, getlines_append, getlines_line "Files:".toList staged (by decide),
    parseFiles_append_files]

set_option maxRecDepth 1000000 in
theorem hash_x :
    simpleHash "x".toList = "11f6ad8ec52a2984abaafd7c3b516503785c2072".toList := by
  decide

set_option maxRecDepth 1000000 in
theorem hash_empty :
    simpleHash [] = "da39a3ee5e6b4b0d3255bfef95601890afd80709".toList := by
  decide

set_option maxRecDepth 1000000 in
theorem hash_z :
    simpleHash "z".toList = "395df8f7c51f007019cb30201c49e884b46b92fa".toList := by
  decide

set_option maxRecDepth 1000000 in
theorem demoId_value : demoId = "0e8522e34c6bd7ac2b760887e1a722f86aaadc0a".toList := by
  unfold demoId demoStaged
  rw [hash_x]
  decide

set_option maxRecDepth 1000000 in
theorem forkId_value : forkId = "65ab0e262724f096d6d287b16251ad6b297f0cac".toList := by
  unfold forkId forkStaged
  rw [hash_empty]
  decide

set_option maxRecDepth 1000000 in
theorem sideId_value : sideId = "9b9eb904d09bf2d92def94ffda695981bbf3f3fb".toList := by
  unfold sideId sideStaged
  rw [hash_z]
  decide

theorem hash_empty_ne_x : simpleHash [] ≠ simpleHash "x".toList := by
  rw [hash_empty, hash_x]
  decide

theorem hash_z_ne_x : simpleHash "z".toList ≠ simpleHash "x".toList := by
  rw [hash_z, hash_x]
  decide

theorem hash_z_ne_empty : simpleHash "z".toList ≠ simpleHash [] := by
  rw [hash_z, hash_empty]
  decide

theorem forkId_ne_demoId : forkId ≠ demoId := by
  rw [forkId_value, demoId_value]
  decide

theorem sideId_ne_demoId : sideId ≠ demoId := by
  rw [sideId_value, demoId_value]
  decide

theorem sideId_ne_forkId : sideId ≠ forkId := by
  rw [sideId_value, forkId_value]
  decide

theorem parseFiles_header (k p d m : Str) (hk : ∀ c ∈ k, c ≠ '\n') (hp : ∀ c ∈ p, c ≠ '\n')
    (hd : ∀ c ∈ d, c ≠ '\n') (hm : ∀ c ∈ m, c ≠ '\n') :
    parseFiles false (getlines ("Commit: ".toList ++ k ++ "\n".toList ++ "Parent: ".toList ++
      p ++ "\n".toList ++ "Date: ".toList ++ (d ++ "\n".toList) ++ "Message: ".toList ++ m ++
      ['\n'])) = [] := by
  have e : "Commit: ".toList ++ k ++ "\n".toList ++ "Parent: ".toList ++
      p ++ "\n".toList ++ "Date: ".toList ++ (d ++ "\n".toList) ++ "Message: ".toList ++ m ++
      ['\n'] =
      ("Commit: ".toList ++ k) ++ '\n' :: (("Parent: ".toList ++ p) ++ '\n' ::
        (("Date: ".toList ++ d) ++ '\n' :: (("Message: ".toList ++ m) ++ '\n' :: []))) := by
    simp
  have n1 : "Commit: ".toList ++ k ≠ "Files:".toList := by simp
  have n2 : "Parent: ".toList ++ p ≠ "Files:".toList := by simp
  have n3 : "Date: ".toList ++ d ≠ "Files:".toList := by simp
  have n4 : "Message: ".toList ++ m ≠ "Files:".toList := by simp
  rw [e, getlines_line _ _ (append_no_newline _ _ (by decide) hk),
    getlines_line _ _ (append_no_newline _ _ (by decide) hp),
    getlines_line _ _ (append_no_newline _ _ (by decide) hd),
    getlines_line _ _ (append_no_newline _ _ (by decide) hm)]
  rw [parseFiles_cons, if_neg n1, parseFiles_cons, if_neg n2, parseFiles_cons, if_neg n3,
    parseFiles_cons, if_neg n4]
  rfl

theorem parseFiles_single (k p d m f h : Str) (hk : ∀ c ∈ k, c ≠ '\n')
    (hp : ∀ c ∈ p, c ≠ '\n') (hd : ∀ c ∈ d, c ≠ '\n') (hm : ∀ c ∈ m, c ≠ '\n')
    (hf : IsWord f) (hh : IsWord h) :
    parseFiles false (getlines (commitText k p (d ++ "\n".toList) m
      (f ++ " ".toList ++ h ++ "\n".toList))) = [(f, h)] := by
  have e : f ++ " ".toList ++ h ++ "\n".toList = indexText [(f, h)] := by
    simp [indexText]
  rw [parseFiles_commitText, parseFiles_header k p d m hk hp hd hm, e,
    parseFiles_indexText [(f, h)] (by simpa using ⟨hf, hh⟩)]
  rfl

theorem loadFiles_single (commits : Files) (k' k p d m f h : Str)
    (hc : commits k' = some (commitText k p (d ++ "\n".toList) m
      (f ++ " ".toList ++ h ++ "\n".toList)))
    (hk : ∀ c ∈ k, c ≠ '\n') (hp : ∀ c ∈ p, c ≠ '\n') (hd : ∀ c ∈ d, c ≠ '\n')
    (hm : ∀ c ∈ m, c ≠ '\n') (hf : IsWord f) (hh : IsWord h) :
    loadFiles commits k' = [(f, h)] := by
  unfold loadFiles
  rw [hc, Option.getD_some, parseFiles_single k p d m f h hk hp hd hm hf hh]
  rfl

theorem commitEntries_single (commits : Files) (k' k p d m f h : Str)
    (hc : commits k' = some (commitText k p (d ++ "\n".toList) m
      (f ++ " ".toList ++ h ++ "\n".toList)))
    (hk : ∀ c ∈ k, c ≠ '\n') (hp : ∀ c ∈ p, c ≠ '\n') (hd : ∀ c ∈ d, c ≠ '\n')
    (hm : ∀ c ∈ m, c ≠ '\n') (hf : IsWord f) (hh : IsWord h) :
    commitEntries commits k' = [(f, h)] := by
  unfold commitEntries
  rw [hc, Option.getD_some, parseFiles_single k p d m f h hk hp hd hm hf hh]

theorem plainEntries_single (f h : Str) (hf : IsWorkName f) (hh : IsName h) :
    PlainEntries [(f, h)] := by
  intro e he
  rw [List.mem_singleton] at he
  subst he
  exact ⟨hf, Or.inr hh⟩

theorem mapGet_single (f h : Str) : mapGet [(f, h)] f = h := by
  simp [mapGet, mapFind]

theorem mapFind_single (f h : Str) : mapFind [(f, h)] f = some h := by
  simp [mapFind]

theorem saveBlob_preserves (objects : Files) (x h c : Str) (ho : objects h = some c) :
    saveBlob objects x h = some c := by
  unfold saveBlob
  split
  · rename_i hn
    have : h ≠ simpleHash x := by
      rintro rfl
      rw [hn] at ho
      cases ho
    rw [writeFile_other _ _ _ _ this, ho]
  · exact ho

theorem saveBlob_fresh (objects : Files) (x : Str) (hn : objects (simpleHash x) = none) :
    saveBlob objects x (simpleHash x) = some x :=
  saveBlob_self objects x (fun c hc => by rw [hn] at hc; cases hc)

theorem saveBlob_none (objects : Files) (x h : Str) (hn : objects h = none)
    (hne : h ≠ simpleHash x) : saveBlob objects x h = none := by
  unfold saveBlob
  split
  · rw [writeFile_other _ _ _ _ hne, hn]
  · exact hn

theorem hex_no_slash (k : Str) (h : ∀ c ∈ k, isHexChar c = true) : '/' ∉ k := by
  intro hm
  have := h '/' hm
  revert this
  decide

theorem simpleHash_no_slash (x : Str) : '/' ∉ simpleHash x :=
  hex_no_slash _ (simpleHash_hex x)

theorem hex_isName (k : Str) (h0 : k ≠ []) (h : ∀ c ∈ k, isHexChar c = true) : IsName k := by
  refine ⟨h0, hex_no_slash k h, ?_, ?_⟩
  · intro e
    have := h '.' (by rw [e]; decide)
    revert this
    decide
  · intro e
    have := h '.' (by rw [e]; decide)
    revert this
    decide

theorem simpleHash_isName (x : Str) : IsName (simpleHash x) :=
  hex_isName _ (simpleHash_ne_nil x) (simpleHash_hex x)

theorem createBranch_symbolic (branchName cur b : Str) (s : Repo) (headText : Str)
    (hi : s.initialized = true) (hn : '/' ∉ branchName) (hc : '/' ∉ cur)
    (hh : s.head = some headText)
    (hfree : s.branches branchName = none)
    (hsym : startsWith "ref:".toList (getline (some headText) []) = true)
    (hcur : substr (getline (some headText) []) 5 = .ok cur)
    (hb : s.branches cur = some b) :
    createBranch branchName s =
      .ok ({ s with
              branches := writeFile s.branches branchName
                (getline (some b) [] ++ "\n".toList) },
            ["Created new branch '".toList ++ branchName ++ "' at commit: ".toList ++
              getline (some b) [] ++ "\n".toList]) := by
  unfold createBranch
  simp only [hh, pathExists_branch s _ hi hn, pathExists_branch s _ hi hc,
    readPath_branch s _ hi hc, writePath_branch s _ _ hi hn, hfree, Option.isSome_none,
    Bool.false_eq_true, if_false, hsym, if_true, hcur, bind, Except.bind, hb, pure,
    Except.pure, Option.isSome_some, Bool.not_true]

theorem checkoutTarget_branch (target b text : Str) (s : Repo)
    (hi : s.initialized = true) (hn : '/' ∉ target) (hk : '/' ∉ getline (some b) target)
    (hb : s.branches target = some b)
    (hc : s.commits (getline (some b) target) = some text)
    (hp : PlainEntries (parseFiles false (getlines text))) :
    (checkoutTarget target s).1 =
      { s with
        files := (restoreNames s.objects (parseFiles false (getlines text)) s.files).1
        head := some ("ref: ".toList ++ target ++ "\n".toList) } := by
  unfold checkoutTarget
  simp only [pathExists_branch s _ hi hn, readPath_branch s _ hi hn, hb, Option.isSome_some,
    if_true, pathExists_commit s _ hi hk, readPath_commit s _ hi hk, hc, Bool.not_true,
    Bool.false_eq_true, if_false, Option.getD_some, restoreFiles_names _ s hi hp]

theorem mergeBase_found (fuel : Nat) (tb headText cur cb tt lca : Str) (s : Repo)
    (hh : s.head = some headText)
    (hsym : startsWith "ref:".toList (getline (some headText) []) = true)
    (hcur : substr (getline (some headText) []) 5 = .ok cur)
    (hcb : s.branches cur = some cb) (htb : s.branches tb = some tt)
    (hl : lowestCommonAncestor s.commits fuel (getline (some cb) []) (getline (some tt) []) =
      .ok lca)
    (hnn : lca ≠ "null".toList) :
    mergeBase fuel tb s =
      .ok (.found cur (getline (some cb) []) (getline (some tt) []) lca) := by
  unfold mergeBase
  simp only [hh, hsym, Bool.not_true, Bool.false_eq_true, if_false, hcur, bind, Except.bind,
    hcb, htb, hl, if_neg hnn, pure, Except.pure]

theorem lca_of_parent (commits : Files) (k0 k1 : Str) (h0 : k0 ≠ "null".toList)
    (h1 : k1 ≠ "null".toList) (hp1 : parentOf commits k1 = .ok k0)
    (hp0 : parentOf commits k0 = .ok "null".toList) :
    lowestCommonAncestor commits 3 k1 k0 = .ok k0 := by
  have hw : ancestorWalk commits 3 k1 = .ok [k1, k0] := by
    simp only [ancestorWalk, if_neg h1, hp1, bind, Except.bind, if_neg h0, hp0, if_true, pure,
      Except.pure]
  have hmem : k0 ∈ [k1, k0] := by simp
  simp only [lowestCommonAncestor, hw, bind, Except.bind, findLca, if_neg h0, if_pos hmem]
  rfl

theorem lca_of_siblings (commits : Files) (k0 k1 k2 : Str) (h0 : k0 ≠ "null".toList)
    (h1 : k1 ≠ "null".toList) (h2 : k2 ≠ "null".toList) (h12 : k1 ≠ k2) (h10 : k1 ≠ k0)
    (hp2 : parentOf commits k2 = .ok k0) (hp1 : parentOf commits k1 = .ok k0)
    (hp0 : parentOf commits k0 = .ok "null".toList) :
    lowestCommonAncestor commits 3 k2 k1 = .ok k0 := by
  have hw : ancestorWalk commits 3 k2 = .ok [k2, k0] := by
    simp only [ancestorWalk, if_neg h2, hp2, bind, Except.bind, if_neg h0, hp0, if_true, pure,
      Except.pure]
  have hmem : k0 ∈ [k2, k0] := by simp
  have hnot : k1 ∉ [k2, k0] := by simp [h12, h10]
  simp only [lowestCommonAncestor, hw, bind, Except.bind, findLca, if_neg h1, if_neg hnot, hp1,
    if_neg h0, if_pos hmem]
  rfl

theorem isWord_f : IsWord "f".toList := ⟨by decide, by decide⟩

theorem demoMessage_no_newline : ∀ c ∈ demoMessage, c ≠ '\n' := by decide

theorem date_no_newline_0 : ∀ c ∈ "Sun Nov  1 00:00:00 2026".toList, c ≠ '\n' := by decide

theorem date_no_newline_1 : ∀ c ∈ "Sun Nov  1 00:00:01 2026".toList, c ≠ '\n' := by decide

theorem date_no_newline_2 : ∀ c ∈ "Sun Nov  1 00:00:02 2026".toList, c ≠ '\n' := by decide

theorem demoRepo1_eq : demoRepo1 = baseRepo := rfl

theorem refs1_main : refs1 "main".toList = some (demoId ++ "\n".toList) :=
  writeFile_same _ _ _

theorem refs1_feature : refs1 "feature".toList = none :=
  writeFile_other _ _ _ _ (by decide)

theorem refs2_main : refs2 "main".toList = some (demoId ++ "\n".toList) :=
  (writeFile_other _ _ _ _ (by decide)).trans refs1_main

theorem refs2_feature : refs2 "feature".toList = some (demoId ++ "\n".toList) :=
  writeFile_same _ _ _

theorem refs3_main : refs3 "main".toList = some (forkId ++ "\n".toList) :=
  writeFile_same _ _ _

theorem refs3_feature : refs3 "feature".toList = some (demoId ++ "\n".toList) :=
  (writeFile_other _ _ _ _ (by decide)).trans refs2_feature

theorem refs4_main : refs4 "main".toList = some (forkId ++ "\n".toList) :=
  (writeFile_other _ _ _ _ (by decide)).trans refs3_main

theorem refs4_feature : refs4 "feature".toList = some (sideId ++ "\n".toList) :=
  writeFile_same _ _ _

theorem forkRepo1_branch :
    createBranch "feature".toList baseRepo =
      .ok (forkRepo1, ["Created new branch '".toList ++ "feature".toList ++
        "' at commit: ".toList ++ demoId ++ "\n".toList]) := by
  rw [createBranch_symbolic "feature".toList "main".toList (demoId ++ "\n".toList) baseRepo
    "ref: main\n".toList rfl (by decide) (by decide) rfl refs1_feature rfl rfl refs1_main,
    getline_hash_file demoId [] (simpleHash_no_newline _)]
  rfl

theorem forkRepo3_add :
    addFileToStaging "f".toList forkRepo2 =
      (forkRepo3, ["Added '".toList ++ "f".toList ++ "' to staging area.\n".toList]) := by
  rw [addFileToStaging_eq forkRepo2 "f".toList [] rfl rfl]
  rfl

theorem commitChanges_at (message timestamp staged b p k : Str) (s : Repo)
    (hinit : s.initialized = true) (hidx : s.index = some staged) (hst : staged ≠ [])
    (hsym : startsWith "ref:".toList (getline s.head []) = true)
    (hb : substr (getline s.head []) 5 = .ok b)
    (hp : s.branches b = some (p ++ "\n".toList)) (hpn : ∀ c ∈ p, c ≠ '\n')
    (hk : k = simpleHash (message ++ timestamp ++ staged)) :
    commitChanges message timestamp s =
      .ok ({ initialized := s.initialized, objects := s.objects
             commits := writeFile s.commits k (commitText k p timestamp message staged)
             branches := writeFile s.branches b (k ++ "\n".toList)
             head := s.head, index := some [], files := s.files, other := s.other },
            ["Committed with hash: ".toList ++ k ++ "\n".toList]) := by
  subst hk
  exact commitChanges_symbolic message timestamp staged b p s hinit hidx hst hsym hb
    (by rw [hp, getline_hash_file p _ hpn])

theorem forkRepo4_commit :
    commitChanges demoMessage forkTimestamp forkRepo3 =
      .ok (forkRepo4, ["Committed with hash: ".toList ++ forkId ++ "\n".toList]) := by
  have h := commitChanges_at demoMessage forkTimestamp forkStaged "main".toList demoId forkId
    forkRepo3 rfl rfl (append_newline_ne_nil _) rfl rfl refs2_main (simpleHash_no_newline _)
    rfl
  simp only [forkRepo3] at h ⊢
  simp only [forkRepo4, records2, refs3]
  exact h

theorem forkRepo4_reachable : Reachable forkRepo4 :=
  .commit demoMessage forkTimestamp forkRepo3 forkRepo4 _
    (.add "f".toList forkRepo2
      (.edit (writeFile demoWork "f".toList []) forkRepo1
        (.branch "feature".toList baseRepo forkRepo1 _
          (.commit demoMessage demoTimestamp demoRepo baseRepo _
            (.add "f".toList _ (.init demoWork)) demoRepo_commit)
          forkRepo1_branch)))
    forkRepo4_commit

theorem records1_demo :
    records1 demoId =
      some (commitText demoId "null".toList demoTimestamp demoMessage demoStaged) :=
  writeFile_same _ _ _

theorem records2_fork :
    records2 forkId =
      some (commitText forkId demoId forkTimestamp demoMessage forkStaged) :=
  writeFile_same _ _ _

theorem records2_demo :
    records2 demoId =
      some (commitText demoId "null".toList demoTimestamp demoMessage demoStaged) :=
  (writeFile_other _ _ _ _ forkId_ne_demoId.symm).trans records1_demo

theorem records3_side :
    records3 sideId =
      some (commitText sideId demoId sideTimestamp demoMessage sideStaged) :=
  writeFile_same _ _ _

theorem records3_fork :
    records3 forkId =
      some (commitText forkId demoId forkTimestamp demoMessage forkStaged) :=
  (writeFile_other _ _ _ _ sideId_ne_forkId.symm).trans records2_fork

theorem records3_demo :
    records3 demoId =
      some (commitText demoId "null".toList demoTimestamp demoMessage demoStaged) :=
  (writeFile_other _ _ _ _ sideId_ne_demoId.symm).trans records2_demo

theorem parent_demo (commits : Files)
    (h : commits demoId =
      some (commitText demoId "null".toList demoTimestamp demoMessage demoStaged)) :
    parentOf commits demoId = .ok "null".toList :=
  parentOf_commitText _ demoId demoId "null".toList demoTimestamp demoMessage demoStaged h
    (simpleHash_no_newline _) (by decide)

theorem parent_fork (commits : Files)
    (h : commits forkId =
      some (commitText forkId demoId forkTimestamp demoMessage forkStaged)) :
    parentOf commits forkId = .ok demoId :=
  parentOf_commitText _ forkId forkId demoId forkTimestamp demoMessage forkStaged h
    (simpleHash_no_newline _) (simpleHash_no_newline _)

theorem parent_side (commits : Files)
    (h : commits sideId =
      some (commitText sideId demoId sideTimestamp demoMessage sideStaged)) :
    parentOf commits sideId = .ok demoId :=
  parentOf_commitText _ sideId sideId demoId sideTimestamp demoMessage sideStaged h
    (simpleHash_no_newline _) (simpleHash_no_newline _)

theorem files_demo (commits : Files)
    (h : commits demoId =
      some (commitText demoId "null".toList demoTimestamp demoMessage demoStaged)) :
    loadFiles commits demoId = [("f".toList, simpleHash "x".toList)] :=
  loadFiles_single _ demoId demoId "null".toList "Sun Nov  1 00:00:00 2026".toList demoMessage
    "f".toList (simpleHash "x".toList) h (simpleHash_no_newline _)
    (by decide) date_no_newline_0 demoMessage_no_newline isWord_f (simpleHash_isWord _)

theorem files_fork (commits : Files)
    (h : commits forkId =
      some (commitText forkId demoId forkTimestamp demoMessage forkStaged)) :
    loadFiles commits forkId = [("f".toList, simpleHash [])] :=
  loadFiles_single _ forkId forkId demoId "Sun Nov  1 00:00:01 2026".toList demoMessage
    "f".toList (simpleHash []) h (simpleHash_no_newline _)
    (simpleHash_no_newline _) date_no_newline_1 demoMessage_no_newline isWord_f
    (simpleHash_isWord _)

theorem files_side (commits : Files)
    (h : commits sideId =
      some (commitText sideId demoId sideTimestamp demoMessage sideStaged)) :
    loadFiles commits sideId = [("f".toList, simpleHash "z".toList)] :=
  loadFiles_single _ sideId sideId demoId "Sun Nov  1 00:00:02 2026".toList demoMessage
    "f".toList (simpleHash "z".toList) h (simpleHash_no_newline _)
    (simpleHash_no_newline _) date_no_newline_2 demoMessage_no_newline isWord_f
    (simpleHash_isWord _)

theorem entries_demo (commits : Files)
    (h : commits demoId =
      some (commitText demoId "null".toList demoTimestamp demoMessage demoStaged)) :
    commitEntries commits demoId = [("f".toList, simpleHash "x".toList)] :=
  commitEntries_single _ demoId demoId "null".toList "Sun Nov  1 00:00:00 2026".toList
    demoMessage "f".toList (simpleHash "x".toList) h (simpleHash_no_newline _)
    (by decide) date_no_newline_0 demoMessage_no_newline isWord_f (simpleHash_isWord _)

theorem entries_fork (commits : Files)
    (h : commits forkId =
      some (commitText forkId demoId forkTimestamp demoMessage forkStaged)) :
    commitEntries commits forkId = [("f".toList, simpleHash [])] :=
  commitEntries_single _ forkId forkId demoId "Sun Nov  1 00:00:01 2026".toList demoMessage
    "f".toList (simpleHash []) h (simpleHash_no_newline _)
    (simpleHash_no_newline _) date_no_newline_1 demoMessage_no_newline isWord_f
    (simpleHash_isWord _)

theorem entries_side (commits : Files)
    (h : commits sideId =
      some (commitText sideId demoId sideTimestamp demoMessage sideStaged)) :
    commitEntries commits sideId = [("f".toList, simpleHash "z".toList)] :=
  commitEntries_single _ sideId sideId demoId "Sun Nov  1 00:00:02 2026".toList demoMessage
    "f".toList (simpleHash "z".toList) h (simpleHash_no_newline _)
    (simpleHash_no_newline _) date_no_newline_2 demoMessage_no_newline isWord_f
    (simpleHash_isWord _)

theorem plain_demo (commits : Files)
    (h : commits demoId =
      some (commitText demoId "null".toList demoTimestamp demoMessage demoStaged)) :
    PlainEntries (commitEntries commits demoId) := by
  rw [entries_demo commits h]
  exact plainEntries_single _ _ isWorkName_f (simpleHash_isName _)

theorem plain_fork (commits : Files)
    (h : commits forkId =
      some (commitText forkId demoId forkTimestamp demoMessage forkStaged)) :
    PlainEntries (commitEntries commits forkId) := by
  rw [entries_fork commits h]
  exact plainEntries_single _ _ isWorkName_f (simpleHash_isName _)

theorem plain_side (commits : Files)
    (h : commits sideId =
      some (commitText sideId demoId sideTimestamp demoMessage sideStaged)) :
    PlainEntries (commitEntries commits sideId) := by
  rw [entries_side commits h]
  exact plainEntries_single _ _ isWorkName_f (simpleHash_isName _)

theorem blobs1_x : blobs1 (simpleHash "x".toList) = some "x".toList :=
  saveBlob_fresh _ _ rfl

theorem blobs2_x : blobs2 (simpleHash "x".toList) = some "x".toList :=
  saveBlob_preserves _ _ _ _ blobs1_x

theorem blobs2_empty : blobs2 (simpleHash []) = some [] :=
  saveBlob_fresh _ _ (saveBlob_none _ _ _ rfl hash_empty_ne_x)

theorem blobs3_empty : blobs3 (simpleHash []) = some [] :=
  saveBlob_preserves _ _ _ _ blobs2_empty

theorem blobs3_z : blobs3 (simpleHash "z".toList) = some "z".toList :=
  saveBlob_fresh _ _
    (saveBlob_none _ _ _ (saveBlob_none _ _ _ rfl hash_z_ne_x) hash_z_ne_empty)

theorem forkRepo4_commits : forkRepo4.commits = records2 := by
  simp only [forkRepo4]

theorem forkRepo4_objects : forkRepo4.objects = blobs2 := by
  simp only [forkRepo4]

theorem forkRepo4_record_fork :
    forkRepo4.commits forkId =
      some (commitText forkId demoId forkTimestamp demoMessage forkStaged) := by
  rw [forkRepo4_commits]
  exact records2_fork

theorem forkRepo4_record_demo :
    forkRepo4.commits demoId =
      some (commitText demoId "null".toList demoTimestamp demoMessage demoStaged) := by
  rw [forkRepo4_commits]
  exact records2_demo

theorem forkRepo4_work : forkRepo4.work "f".toList = some [] := by
  rw [work_name _ _ isWorkName_f]
  simp only [forkRepo4, writeFile_same]

theorem forkRepo4_base :
    mergeBase 3 "feature".toList forkRepo4 =
      .ok (.found "main".toList forkId demoId demoId) := by
  have h := mergeBase_found 3 "feature".toList "ref: main\n".toList "main".toList
    (forkId ++ "\n".toList) (demoId ++ "\n".toList) demoId forkRepo4 rfl rfl rfl
    refs3_main refs3_feature
    (by
      rw [getline_hash_file forkId _ (simpleHash_no_newline _),
        getline_hash_file demoId _ (simpleHash_no_newline _)]
      exact lca_of_parent _ demoId forkId (simpleHash_ne_null _) (simpleHash_ne_null _)
        (parent_fork _ forkRepo4_record_fork) (parent_demo _ forkRepo4_record_demo))
    (simpleHash_ne_null _)
  rw [getline_hash_file forkId _ (simpleHash_no_newline _),
    getline_hash_file demoId _ (simpleHash_no_newline _)] at h
  exact h

/-- C3 (code at the failing input): `main` has committed a change of `f` (the file is
now empty), `feature` still has the version of the common ancestor.  `merge feature`
does not skip `f`: it reports a merged change and writes the ancestor's content `x`
over the file, so the change that only the current side made is lost. -/
theorem merge_reverts_current_change :
    Reachable forkRepo4 ∧
      mergeBase 3 "feature".toList forkRepo4 =
        .ok (.found "main".toList forkId demoId demoId) ∧
      mapFind (loadFiles forkRepo4.commits demoId) "f".toList =
        some (simpleHash "x".toList) ∧
      mapGet (loadFiles forkRepo4.commits forkId) "f".toList = simpleHash [] ∧
      mapGet (loadFiles forkRepo4.commits demoId) "f".toList = simpleHash "x".toList ∧
      simpleHash [] ≠ simpleHash "x".toList ∧
      forkRepo4.work "f".toList = some [] ∧
      ∃ s' out, mergeBranch 3 "feature".toList forkRepo4 = .ok (s', out) ∧
        s'.work "f".toList = some "x".toList ∧
        out.count (mergedLine "feature".toList "f".toList) = 1 ∧
        out.count (conflictLine "f".toList) = 0 := by
  have hL : mapFind (loadFiles forkRepo4.commits demoId) "f".toList =
      some (simpleHash "x".toList) := by
    rw [files_demo forkRepo4.commits forkRepo4_record_demo]
    exact mapFind_single _ _
  have hC : mapGet (loadFiles forkRepo4.commits forkId) "f".toList = simpleHash [] := by
    rw [files_fork forkRepo4.commits forkRepo4_record_fork]
    exact mapGet_single _ _
  have hT : mapGet (loadFiles forkRepo4.commits demoId) "f".toList =
      simpleHash "x".toList := by
    rw [files_demo forkRepo4.commits forkRepo4_record_demo]
    exact mapGet_single _ _
  refine ⟨forkRepo4_reachable, forkRepo4_base, hL, hC, hT, hash_empty_ne_x,
    forkRepo4_work, ?_⟩
  obtain ⟨s', out, hrun, _, _, _, _, _, _, hall⟩ :=
    mergeBranch_entry 3 "feature".toList forkRepo4 "main".toList forkId demoId demoId
      forkRepo4_base rfl (plain_demo _ forkRepo4_record_demo)
      (plain_fork _ forkRepo4_record_fork) (plain_demo _ forkRepo4_record_demo)
  obtain ⟨_, _, h3⟩ := hall "f".toList (simpleHash "x".toList) hL
  rw [hC, hT] at h3
  have := h3 (by
      rintro (h | h)
      · exact hash_empty_ne_x h
      · exact simpleHash_ne_nil _ h)
    (fun hc => hc.2 rfl)
  rw [appliedFile_eq, blobStream_name _ _ (simpleHash_ne_nil _), forkRepo4_objects,
    blobs2_x] at this
  exact ⟨s', out, hrun, this.1, this.2.2, this.2.1⟩

theorem forkRepo4_feature :
    forkRepo4.branches "feature".toList = some (demoId ++ "\n".toList) := by
  simp only [forkRepo4]
  exact refs3_feature

theorem restoreNames_single (objects work : Files) (f h c : Str) (hn : h ≠ [])
    (ho : objects h = some c) :
    (restoreNames objects [(f, h)] work).1 = writeFile work f c := by
  simp only [restoreNames, blobStream, if_neg hn, ho]

theorem sideRepo1_checkout : (checkoutTarget "feature".toList forkRepo4).1 = sideRepo1 := by
  have hc : forkRepo4.commits (getline (some (demoId ++ "\n".toList)) "feature".toList) =
      some (commitText demoId "null".toList demoTimestamp demoMessage demoStaged) := by
    rw [getline_hash_file demoId _ (simpleHash_no_newline _), forkRepo4_record_demo]
  have hp : parseFiles false (getlines
      (commitText demoId "null".toList demoTimestamp demoMessage demoStaged)) =
      [("f".toList, simpleHash "x".toList)] :=
    parseFiles_single demoId "null".toList "Sun Nov  1 00:00:00 2026".toList demoMessage
      "f".toList (simpleHash "x".toList) (simpleHash_no_newline _) (by decide)
      date_no_newline_0 demoMessage_no_newline isWord_f (simpleHash_isWord _)
  rw [checkoutTarget_branch "feature".toList (demoId ++ "\n".toList) _ forkRepo4 rfl
    (by decide)
    (by rw [getline_hash_file demoId _ (simpleHash_no_newline _)]; exact simpleHash_no_slash _)
    forkRepo4_feature hc
    (by rw [hp]; exact plainEntries_single _ _ isWorkName_f (simpleHash_isName _))]
  have hhead : "ref: ".toList ++ "feature".toList ++ "\n".toList = "ref: feature\n".toList :=
    rfl
  rw [hp, hhead, restoreNames_single _ _ _ _ "x".toList (simpleHash_ne_nil _)
    (by rw [forkRepo4_objects]; exact blobs2_x)]
  simp only [forkRepo4, sideRepo1]

theorem sideRepo3_add :
    addFileToStaging "f".toList sideRepo2 =
      (sideRepo3, ["Added '".toList ++ "f".toList ++ "' to staging area.\n".toList]) := by
  have hw : sideRepo2.work "f".toList = some "z".toList := by
    rw [work_name _ _ isWorkName_f]
    simp only [sideRepo2, writeFile_same]
  rw [addFileToStaging_eq sideRepo2 "f".toList "z".toList rfl hw]
  simp only [sideRepo2, sideRepo3, blobs3, sideStaged, Option.getD_some, List.nil_append]

theorem sideRepo4_commit :
    commitChanges demoMessage sideTimestamp sideRepo3 =
      .ok (sideRepo4, ["Committed with hash: ".toList ++ sideId ++ "\n".toList]) := by
  have hb : sideRepo3.branches "feature".toList = some (demoId ++ "\n".toList) := by
    simp only [sideRepo3]
    exact refs3_feature
  have h := commitChanges_at demoMessage sideTimestamp sideStaged "feature".toList demoId
    sideId sideRepo3 rfl rfl (append_newline_ne_nil _) rfl rfl hb (simpleHash_no_newline _)
    rfl
  simp only [sideRepo3] at h ⊢
  simp only [sideRepo4, records3, refs4]
  exact h

theorem sideRepo1_reachable : Reachable sideRepo1 := by
  have h := Reachable.checkout "feature".toList forkRepo4 forkRepo4_reachable
  rw [sideRepo1_checkout] at h
  exact h

theorem sideRepo2_reachable : Reachable sideRepo2 := by
  have h := Reachable.edit
    (writeFile (writeFile (writeFile demoWork "f".toList []) "f".toList "x".toList)
      "f".toList "z".toList) sideRepo1 sideRepo1_reachable
  have e : { sideRepo1 with
      files := writeFile (writeFile (writeFile demoWork "f".toList []) "f".toList "x".toList)
        "f".toList "z".toList } = sideRepo2 := by
    simp only [sideRepo1, sideRepo2]
  rw [e] at h
  exact h

theorem sideRepo3_reachable : Reachable sideRepo3 := by
  have h := Reachable.add "f".toList sideRepo2 sideRepo2_reachable
  rw [sideRepo3_add] at h
  exact h

theorem sideRepo4_reachable : Reachable sideRepo4 :=
  .commit demoMessage sideTimestamp sideRepo3 sideRepo4 _ sideRepo3_reachable sideRepo4_commit

theorem sideRepo4_commits : sideRepo4.commits = records3 := by
  simp only [sideRepo4]

theorem sideRepo4_objects : sideRepo4.objects = blobs3 := by
  simp only [sideRepo4]

theorem sideRepo4_base :
    mergeBase 3 "main".toList sideRepo4 =
      .ok (.found "feature".toList sideId forkId demoId) := by
  have hf : sideRepo4.branches "feature".toList = some (sideId ++ "\n".toList) := by
    simp only [sideRepo4]
    exact refs4_feature
  have hm : sideRepo4.branches "main".toList = some (forkId ++ "\n".toList) := by
    simp only [sideRepo4]
    exact refs4_main
  have h := mergeBase_found 3 "main".toList "ref: feature\n".toList "feature".toList
    (sideId ++ "\n".toList) (forkId ++ "\n".toList) demoId sideRepo4 rfl rfl rfl hf hm
    (by
      rw [getline_hash_file sideId _ (simpleHash_no_newline _),
        getline_hash_file forkId _ (simpleHash_no_newline _), sideRepo4_commits]
      exact lca_of_siblings _ demoId forkId sideId (simpleHash_ne_null _)
        (simpleHash_ne_null _) (simpleHash_ne_null _) sideId_ne_forkId.symm forkId_ne_demoId
        (parent_side _ records3_side) (parent_fork _ records3_fork)
        (parent_demo _ records3_demo))
    (simpleHash_ne_null _)
  rw [getline_hash_file sideId _ (simpleHash_no_newline _),
    getline_hash_file forkId _ (simpleHash_no_newline _)] at h
  exact h

theorem conflictFile_empty_target (tb : Str) (c : Char) (cs : Str) :
    conflictFile (some (c :: cs)) (some []) tb =
      "<<<<<<< current\n".toList ++ (c :: cs) ++ "\n=======\n".toList := by
  simp [conflictFile, OStream.write, OStream.writeBuf, OStream.opened]

/-- C4 (code at the failing input): `feature` has committed `f` with content `z`,
`main` has committed `f` empty, the common ancestor has `x`; the three fingerprints
are pairwise distinct and not empty.  `merge main` on `feature` reports one conflict
for `f`, but the file it writes ends after the separator line: the empty target
content puts the output stream into the failed state, so the closing marker line of
the template is missing. -/
theorem conflict_file_truncated :
    Reachable sideRepo4 ∧
      mergeBase 3 "main".toList sideRepo4 =
        .ok (.found "feature".toList sideId forkId demoId) ∧
      mapFind (loadFiles sideRepo4.commits demoId) "f".toList =
        some (simpleHash "x".toList) ∧
      mapGet (loadFiles sideRepo4.commits sideId) "f".toList = simpleHash "z".toList ∧
      mapGet (loadFiles sideRepo4.commits forkId) "f".toList = simpleHash [] ∧
      simpleHash "z".toList ≠ simpleHash "x".toList ∧
      simpleHash [] ≠ simpleHash "x".toList ∧
      simpleHash "z".toList ≠ simpleHash [] ∧
      sideRepo4.objects (simpleHash "z".toList) = some "z".toList ∧
      sideRepo4.objects (simpleHash []) = some [] ∧
      ∃ s' out, mergeBranch 3 "main".toList sideRepo4 = .ok (s', out) ∧
        out.count (conflictLine "f".toList) = 1 ∧
        s'.work "f".toList = some "<<<<<<< current\nz\n=======\n".toList ∧
        s'.work "f".toList ≠
          some ("<<<<<<< current\n".toList ++ "z".toList ++ "\n=======\n".toList ++ [] ++
            "\n>>>>>>> ".toList ++ "main".toList ++ "\n".toList) := by
  have hL : mapFind (loadFiles sideRepo4.commits demoId) "f".toList =
      some (simpleHash "x".toList) := by
    rw [sideRepo4_commits, files_demo records3 records3_demo]
    exact mapFind_single _ _
  have hC : mapGet (loadFiles sideRepo4.commits sideId) "f".toList =
      simpleHash "z".toList := by
    rw [sideRepo4_commits, files_side records3 records3_side]
    exact mapGet_single _ _
  have hT : mapGet (loadFiles sideRepo4.commits forkId) "f".toList = simpleHash [] := by
    rw [sideRepo4_commits, files_fork records3 records3_fork]
    exact mapGet_single _ _
  have hz : sideRepo4.objects (simpleHash "z".toList) = some "z".toList := by
    rw [sideRepo4_objects]
    exact blobs3_z
  have he : sideRepo4.objects (simpleHash []) = some [] := by
    rw [sideRepo4_objects]
    exact blobs3_empty
  refine ⟨sideRepo4_reachable, sideRepo4_base, hL, hC, hT, hash_z_ne_x, hash_empty_ne_x,
    hash_z_ne_empty, hz, he, ?_⟩
  obtain ⟨s', out, hrun, _, _, _, _, _, _, hall⟩ :=
    mergeBranch_entry 3 "main".toList sideRepo4 "feature".toList sideId forkId demoId
      sideRepo4_base rfl
      (plain_demo _ (by rw [sideRepo4_commits]; exact records3_demo))
      (plain_side _ (by rw [sideRepo4_commits]; exact records3_side))
      (plain_fork _ (by rw [sideRepo4_commits]; exact records3_fork))
  obtain ⟨_, h2, _⟩ := hall "f".toList (simpleHash "x".toList) hL
  rw [hC, hT] at h2
  have := h2 (by
      rintro (h | h)
      · exact hash_z_ne_empty h
      · exact simpleHash_ne_nil _ h)
    ⟨hash_z_ne_x, hash_empty_ne_x⟩
  rw [blobStream_name _ _ (simpleHash_ne_nil _), blobStream_name _ _ (simpleHash_ne_nil _),
    hz, he, show conflictFile (some "z".toList) (some []) "main".toList = _ from
      conflictFile_empty_target "main".toList 'z' []] at this
  refine ⟨s', out, hrun, this.2.1, this.1, ?_⟩
  rw [this.1]
  decide

theorem getline_some (text a b : Str) : getline (some text) a = getline (some text) b := rfl

/-- The case of `checkoutTarget` for a target without `/` whose commit id has no `/`
and whose commit holds plain entries. -/
theorem checkoutTarget_plain (target k : Str) (s : Repo) (hi : s.initialized = true)
    (hn : '/' ∉ target) (hk : getline (s.branches target) target = k) (hks : '/' ∉ k)
    (hp : PlainEntries (commitEntries s.commits k)) :
    checkoutTarget target s =
      match s.commits k with
      | none => (s, ["Commit not found for: ".toList ++ target ++ "\n".toList])
      | some text =>
          ({ s with
              files := (restoreNames s.objects (parseFiles false (getlines text)) s.files).1
              head := some (if (s.branches target).isSome then
                  "ref: ".toList ++ target ++ "\n".toList
                else k ++ "\n".toList) },
           (restoreNames s.objects (parseFiles false (getlines text)) s.files).2 ++
             ["Checked out ".toList ++
               (if (s.branches target).isSome then "branch".toList else "commit".toList) ++
               ": ".toList ++ target ++ "\n".toList]) := by
  have hk' : (if (s.branches target).isSome = true then getline (s.branches target) target
      else target) = k := by
    cases hb : s.branches target with
    | none => rw [hb] at hk; simpa [getline] using hk
    | some t => rw [hb] at hk; simpa using hk
  unfold checkoutTarget
  simp only [pathExists_branch s _ hi hn, readPath_branch s _ hi hn, hk',
    pathExists_commit s _ hi hks, readPath_commit s _ hi hks]
  cases hc : s.commits k with
  | none => simp
  | some text =>
    have hp' : PlainEntries (parseFiles false (getlines text)) := by
      unfold commitEntries at hp
      rw [hc] at hp
      exact hp
    simp only [Option.isSome_some, Bool.not_true, Bool.false_eq_true, if_false,
      Option.getD_some, restoreFiles_names _ s hi hp']

theorem commitChanges_frame (message timestamp staged parent : Str) (s : Repo)
    (hinit : s.initialized = true) (hidx : s.index = some staged) (hst : staged ≠ [])
    (hres : resolveHead s = .ok parent) :
    ∃ s' out, commitChanges message timestamp s = .ok (s', out) ∧
      s'.objects = s.objects ∧ s'.files = s.files ∧
      s'.commits = writeFile s.commits (simpleHash (message ++ timestamp ++ staged))
        (commitText (simpleHash (message ++ timestamp ++ staged)) parent timestamp message
          staged) ∧
      (s'.branches (simpleHash (message ++ timestamp ++ staged)) =
          s.branches (simpleHash (message ++ timestamp ++ staged)) ∨
        s'.branches (simpleHash (message ++ timestamp ++ staged)) =
          some (simpleHash (message ++ timestamp ++ staged) ++ "\n".toList)) ∧
      s'.initialized = true ∧
      ∀ x, s'.branches x = s.branches x ∨
        s'.branches x = some (simpleHash (message ++ timestamp ++ staged) ++ "\n".toList) := by
  cases hsym : startsWith "ref:".toList (getline s.head []) with
  | true =>
    have hr := resolveHead_symbolic s hsym
    rw [hres] at hr
    cases hb : substr (getline s.head []) 5 with
    | error e => simp [hb, bind, Except.bind] at hr
    | ok b =>
      simp only [hb, bind, Except.bind, pure, Except.pure, Except.ok.injEq] at hr
      have hx : ∀ x, writeFile s.branches b
          (simpleHash (message ++ timestamp ++ staged) ++ "\n".toList) x = s.branches x ∨
          writeFile s.branches b
            (simpleHash (message ++ timestamp ++ staged) ++ "\n".toList) x =
            some (simpleHash (message ++ timestamp ++ staged) ++ "\n".toList) := by
        intro x
        by_cases hbk : x = b
        · right
          rw [hbk, writeFile_same]
        · left
          rw [writeFile_other _ _ _ _ hbk]
      exact ⟨_, _, commitChanges_symbolic message timestamp staged b parent s hinit hidx hst
        hsym hb hr, rfl, rfl, rfl, hx _, hinit, hx⟩
  | false =>
    have hr := resolveHead_detached s hsym
    rw [hres] at hr
    simp only [Except.ok.injEq] at hr
    refine ⟨_, _, commitChanges_detached message timestamp staged s hinit hidx hst hsym,
      rfl, rfl, ?_, Or.inl rfl, hinit, fun _ => Or.inl rfl⟩
    rw [← hr]

theorem commitEntries_none (commits : Files) (k : Str) (h : commits k = none) :
    commitEntries commits k = [] := by
  unfold commitEntries
  rw [h]
  rfl

theorem plainEntries_nil : PlainEntries [] := by
  intro e he
  cases he

theorem commitEntries_commitText (commits : Files) (k' k p d m : Str) (es : List (Str × Str))
    (hc : commits k' = some (commitText k p (d ++ "\n".toList) m (indexText es)))
    (hk : ∀ c ∈ k, c ≠ '\n') (hp : ∀ c ∈ p, c ≠ '\n') (hd : ∀ c ∈ d, c ≠ '\n')
    (hm : ∀ c ∈ m, c ≠ '\n') (hes : ∀ e ∈ es, IsWord e.1 ∧ IsWord e.2) :
    commitEntries commits k' = es := by
  unfold commitEntries
  rw [hc, Option.getD_some, parseFiles_commitText, parseFiles_header k p d m hk hp hd hm,
    parseFiles_indexText es hes]
  rfl

theorem sideStaged_eq : indexText [("f".toList, simpleHash "z".toList)] = sideStaged := by
  simp only [indexText, sideStaged, List.append_nil]

theorem Repo.eq_of_fields (a b : Repo) (h1 : a.initialized = b.initialized)
    (h2 : a.objects = b.objects) (h3 : a.commits = b.commits) (h4 : a.branches = b.branches)
    (h5 : a.head = b.head) (h6 : a.index = b.index) (h7 : a.files = b.files)
    (h8 : a.other = b.other) : a = b := by
  cases a
  cases b
  simp only at h1 h2 h3 h4 h5 h6 h7 h8
  subst h1 h2 h3 h4 h5 h6 h7 h8
  rfl

theorem saveBlob_present (objects : Files) (x : Str) :
    ∃ c, saveBlob objects x (simpleHash x) = some c := by
  unfold saveBlob
  split
  · exact ⟨x, writeFile_same _ _ _⟩
  · rename_i h
    cases ho : objects (simpleHash x) with
    | none => exact absurd ho h
    | some c => exact ⟨c, rfl⟩

theorem headD_getlines_cons (c : Char) (cs : Str) (hc : c ≠ '\n') :
    (getlines (c :: cs)).headD [] = c :: (getlines cs).headD [] := by
  rw [getlines_cons c cs hc]
  cases getlines cs <;> rfl

theorem getline_ref (rest : Str) :
    getline (some ("ref: ".toList ++ rest)) [] = "ref: ".toList ++ (getlines rest).headD [] := by
  show (getlines ('r' :: 'e' :: 'f' :: ':' :: ' ' :: rest)).headD [] = _
  rw [headD_getlines_cons _ _ (by decide), headD_getlines_cons _ _ (by decide),
    headD_getlines_cons _ _ (by decide), headD_getlines_cons _ _ (by decide),
    headD_getlines_cons _ _ (by decide)]
  rfl

theorem startsWith_ref (b : Str) : startsWith "ref:".toList ("ref: ".toList ++ b) = true := by
  show List.isPrefixOf ['r', 'e', 'f', ':'] ('r' :: 'e' :: 'f' :: ':' :: ' ' :: b) = true
  simp [List.isPrefixOf]

theorem substr_ref (b : Str) : substr ("ref: ".toList ++ b) 5 = .ok b := by
  show substr ('r' :: 'e' :: 'f' :: ':' :: ' ' :: b) 5 = .ok b
  simp [substr]

theorem getlineOk_ref (rest : Str) : getlineOk (some ("ref: ".toList ++ rest)) = true := by
  show (!(getlines ('r' :: 'e' :: 'f' :: ':' :: ' ' :: rest)).isEmpty) = true
  cases h : getlines ('r' :: 'e' :: 'f' :: ':' :: ' ' :: rest) with
  | nil => exact absurd (getlines_eq_nil _ h) (by simp)
  | cons l ls => rfl

theorem hex_no_newline (k : Str) (hk : ∀ c ∈ k, isHexChar c = true) : ∀ c ∈ k, c ≠ '\n' :=
  fun c hc => hex_ne_newline c (hk c hc)

theorem Consistent.key_no_newline {s : Repo} (hs : Consistent s) (k : Str)
    (hk : (s.commits k).isSome = true) : ∀ c ∈ k, c ≠ '\n' :=
  hex_no_newline k (hs.2.1 k hk)

theorem commitChanges_staged (message timestamp staged : Str) (s s' : Repo) (out : List Str)
    (hinit : s.initialized = true) (hidx : s.index = some staged) (hst : staged ≠ [])
    (h : commitChanges message timestamp s = .ok (s', out)) :
    ∃ p, resolveHead s = .ok p ∧
      out = ["Committed with hash: ".toList ++ simpleHash (message ++ timestamp ++ staged) ++
        "\n".toList] ∧
      s'.initialized = s.initialized ∧ s'.objects = s.objects ∧ s'.files = s.files ∧
      s'.index = some [] ∧
      s'.commits = writeFile s.commits (simpleHash (message ++ timestamp ++ staged))
        (commitText (simpleHash (message ++ timestamp ++ staged)) p timestamp message staged) ∧
      ((startsWith "ref:".toList (getline s.head []) = true ∧
          ∃ b, substr (getline s.head []) 5 = .ok b ∧ s'.head = s.head ∧
            s'.branches = writeFile s.branches b
              (simpleHash (message ++ timestamp ++ staged) ++ "\n".toList)) ∨
        (startsWith "ref:".toList (getline s.head []) = false ∧
          s'.head = some (simpleHash (message ++ timestamp ++ staged) ++ "\n".toList) ∧
          s'.branches = s.branches)) := by
  cases hsym : startsWith "ref:".toList (getline s.head []) with
  | true =>
    cases hb : substr (getline s.head []) 5 with
    | error e =>
      exfalso
      have hr := resolveHead_symbolic s hsym
      rw [hb] at hr
      unfold commitChanges at h
      simp only [hinit, hidx, hst, if_false, hr, bind, Except.bind] at h
      cases h
    | ok b =>
      have hc := commitChanges_symbolic message timestamp staged b _ s hinit hidx hst hsym hb rfl
      rw [hc] at h
      simp only [Except.ok.injEq, Prod.mk.injEq] at h
      obtain ⟨rfl, rfl⟩ := h
      refine ⟨getline (s.branches b) "null".toList, ?_, rfl, rfl, rfl, rfl, rfl, rfl,
        Or.inl ⟨rfl, b, rfl, rfl, rfl⟩⟩
      rw [resolveHead_symbolic s hsym, hb]
      rfl
  | false =>
    have hc := commitChanges_detached message timestamp staged s hinit hidx hst hsym
    rw [hc] at h
    simp only [Except.ok.injEq, Prod.mk.injEq] at h
    obtain ⟨rfl, rfl⟩ := h
    exact ⟨_, resolveHead_detached s hsym, rfl, rfl, rfl, rfl, rfl, rfl, Or.inr ⟨rfl, rfl, rfl⟩⟩

theorem commitChanges_absent (message timestamp : Str) (s : Repo)
    (h : s.initialized = false ∨ s.index = none) :
    commitChanges message timestamp s =
      .ok (s, ["Nothing to commit. Stage files first using './minigit add <file>'.\n".toList]) := by
  unfold commitChanges
  rcases h with h | h
  · rw [h]
    rfl
  · rw [h]
    cases s.initialized <;> rfl

theorem commitChanges_empty (message timestamp : Str) (s : Repo)
    (hinit : s.initialized = true) (hidx : s.index = some []) :
    commitChanges message timestamp s = .ok (s, ["No files staged for commit.\n".toList]) := by
  unfold commitChanges
  rw [hinit, hidx]
  rfl

theorem createBranch_exists (branchName headText : Str) (s : Repo)
    (hi : s.initialized = true) (hn : '/' ∉ branchName) (hh : s.head = some headText)
    (hb : (s.branches branchName).isSome = true) :
    createBranch branchName s =
      .ok (s, ["Branch '".toList ++ branchName ++ "' already exists.\n".toList]) := by
  unfold createBranch
  simp only [hh, pathExists_branch s _ hi hn, hb, if_true]
  rfl

theorem createBranch_unborn (branchName cur headText : Str) (s : Repo)
    (hi : s.initialized = true) (hn : '/' ∉ branchName) (hc : '/' ∉ cur)
    (hh : s.head = some headText) (hfree : s.branches branchName = none)
    (hsym : startsWith "ref:".toList (getline (some headText) []) = true)
    (hcur : substr (getline (some headText) []) 5 = .ok cur)
    (hb : s.branches cur = none) :
    createBranch branchName s =
      .ok (s, ["Error: Cannot create branch before first commit on current branch '".toList
        ++ cur ++ "'.\n".toList]) := by
  unfold createBranch
  simp only [hh, pathExists_branch s _ hi hn, pathExists_branch s _ hi hc, hfree,
    Option.isSome_none, Bool.false_eq_true, if_false, hsym, if_true, hcur,
    bind, Except.bind, hb, pure, Except.pure, Bool.not_false]

theorem createBranch_detached (branchName headText : Str) (s : Repo)
    (hi : s.initialized = true) (hn : '/' ∉ branchName)
    (hh : s.head = some headText) (hfree : s.branches branchName = none)
    (hdet : startsWith "ref:".toList (getline (some headText) []) = false) :
    createBranch branchName s =
      .ok ({ s with
              branches := writeFile s.branches branchName
                (getline (some headText) [] ++ "\n".toList) },
            ["Created new branch '".toList ++ branchName ++ "' at commit: ".toList ++
              getline (some headText) [] ++ "\n".toList]) := by
  unfold createBranch
  simp only [hh, pathExists_branch s _ hi hn, writePath_branch s _ _ hi hn, hfree,
    Option.isSome_none, Bool.false_eq_true, if_false, hdet, pure, Except.pure]

theorem mergeBranch_frame (fuel : Nat) (tb : Str) (s s' : Repo) (out : List Str)
    (hinit : s.initialized = true) (hplain : ∀ k, PlainEntries (commitEntries s.commits k))
    (h : mergeBranch fuel tb s = .ok (s', out)) :
    s'.initialized = s.initialized ∧ s'.objects = s.objects ∧ s'.commits = s.commits ∧
      s'.branches = s.branches ∧ s'.head = s.head ∧ s'.index = s.index ∧
      s'.other = s.other := by
  cases hb : mergeBase fuel tb s with
  | error e =>
    unfold mergeBranch at h
    simp only [hb, bind, Except.bind] at h
    cases h
  | ok mb =>
    cases mb with
    | found cur ch th lca =>
      rw [mergeBranch_names fuel tb s cur ch th lca hb hinit (hplain lca) (hplain ch)
        (hplain th)] at h
      simp only [Except.ok.injEq, Prod.mk.injEq] at h
      obtain ⟨rfl, -⟩ := h
      exact ⟨rfl, rfl, rfl, rfl, rfl, rfl, rfl⟩
    | _ =>
      unfold mergeBranch at h
      simp only [hb, bind, Except.bind, pure, Except.pure, Except.ok.injEq, Prod.mk.injEq] at h
      obtain ⟨rfl, -⟩ := h
      exact ⟨rfl, rfl, rfl, rfl, rfl, rfl, rfl⟩

theorem Consistent.of_frame {s s' : Repo} (hs : Consistent s)
    (h1 : s'.initialized = s.initialized) (h2 : s'.commits = s.commits)
    (h3 : s'.branches = s.branches) (h4 : s'.head = s.head) : Consistent s' := by
  unfold Consistent at hs ⊢
  rw [h1, h2, h3, h4]
  exact hs

theorem addFileToStaging_frame (filename : Str) (s : Repo) :
    (addFileToStaging filename s).1.initialized = s.initialized ∧
      (addFileToStaging filename s).1.commits = s.commits ∧
      (addFileToStaging filename s).1.branches = s.branches ∧
      (addFileToStaging filename s).1.head = s.head ∧
      (addFileToStaging filename s).1.files = s.files := by
  unfold addFileToStaging
  split
  · exact ⟨rfl, rfl, rfl, rfl, rfl⟩
  · split <;> exact ⟨rfl, rfl, rfl, rfl, rfl⟩

theorem writeFile_isSome (dir : Files) (path content q : Str) (h : (dir q).isSome = true) :
    (writeFile dir path content q).isSome = true := by
  by_cases hq : q = path
  · rw [hq, writeFile_same]
    rfl
  · rw [writeFile_other _ _ _ _ hq]
    exact h

theorem Consistent.commit {s s' : Repo} (hs : Consistent s) (k text : Str)
    (hk : ∀ c ∈ k, isHexChar c = true)
    (h1 : s'.initialized = s.initialized) (h2 : s'.commits = writeFile s.commits k text)
    (h3 : (∃ b, s'.head = s.head ∧ s'.branches = writeFile s.branches b (k ++ "\n".toList)) ∨
      (s'.head = some (k ++ "\n".toList) ∧ s'.branches = s.branches)) : Consistent s' := by
  obtain ⟨hi, hc, hb, text0, hh, hshape⟩ := hs
  have hmono : ∀ h, (s.commits h).isSome = true → (s'.commits h).isSome = true := by
    intro h hh'
    rw [h2]
    exact writeFile_isSome _ _ _ _ hh'
  have hknew : (s'.commits k).isSome = true := by
    rw [h2, writeFile_same]
    rfl
  have hold : ∀ b text, s.branches b = some text →
      ∃ h, text = h ++ "\n".toList ∧ (s'.commits h).isSome = true := by
    intro b text hbt
    obtain ⟨h, rfl, hh'⟩ := hb b text hbt
    exact ⟨h, rfl, hmono h hh'⟩
  refine ⟨h1.trans hi, ?_, ?_, ?_⟩
  · intro k' hk'
    rw [h2] at hk'
    by_cases hkk : k' = k
    · rw [hkk]
      exact hk
    · rw [writeFile_other _ _ _ _ hkk] at hk'
      exact hc k' hk'
  · intro b text hbt
    rcases h3 with ⟨b0, -, hbr⟩ | ⟨-, hbr⟩
    · rw [hbr] at hbt
      by_cases hbb : b = b0
      · rw [hbb, writeFile_same] at hbt
        cases hbt
        exact ⟨k, rfl, hknew⟩
      · rw [writeFile_other _ _ _ _ hbb] at hbt
        exact hold b text hbt
    · rw [hbr] at hbt
      exact hold b text hbt
  · rcases h3 with ⟨b0, hhd, -⟩ | ⟨hhd, -⟩
    · refine ⟨text0, hhd.trans hh, ?_⟩
      rcases hshape with hl | ⟨h, rfl, hh'⟩
      · exact Or.inl hl
      · exact Or.inr ⟨h, rfl, hmono h hh'⟩
    · exact ⟨_, hhd, Or.inr ⟨k, rfl, hknew⟩⟩

theorem Consistent.branch {s s' : Repo} (hs : Consistent s) (name h : Str)
    (hh : (s.commits h).isSome = true)
    (h1 : s'.initialized = s.initialized) (h2 : s'.commits = s.commits)
    (h3 : s'.branches = writeFile s.branches name (h ++ "\n".toList))
    (h4 : s'.head = s.head) : Consistent s' := by
  obtain ⟨hi, hc, hb, hhead⟩ := hs
  refine ⟨h1.trans hi, ?_, ?_, ?_⟩
  · rw [h2]
    exact hc
  · intro b text hbt
    rw [h2]
    rw [h3] at hbt
    by_cases hbb : b = name
    · rw [hbb, writeFile_same] at hbt
      cases hbt
      exact ⟨h, rfl, hh⟩
    · rw [writeFile_other _ _ _ _ hbb] at hbt
      exact hb b text hbt
  · rw [h2, h4]
    exact hhead

theorem Consistent.checkout {s s' : Repo} (hs : Consistent s) (text : Str)
    (h1 : s'.initialized = s.initialized) (h2 : s'.commits = s.commits)
    (h3 : s'.branches = s.branches) (h4 : s'.head = some text)
    (h5 : (∃ rest, text = "ref: ".toList ++ rest) ∨
      (∃ h, text = h ++ "\n".toList ∧ (s.commits h).isSome = true)) : Consistent s' := by
  obtain ⟨hi, hc, hb, -⟩ := hs
  refine ⟨h1.trans hi, ?_, ?_, text, h4, ?_⟩
  · rw [h2]
    exact hc
  · rw [h2, h3]
    exact hb
  · rw [h2]
    exact h5

theorem Consistent.head_cases {s : Repo} (hs : Consistent s) :
    ∃ text, s.head = some text ∧ getlineOk s.head = true ∧
      ((∃ b, startsWith "ref:".toList (getline s.head []) = true ∧
          substr (getline s.head []) 5 = .ok b) ∨
        (∃ h, (s.commits h).isSome = true ∧ getline s.head [] = h ∧
          startsWith "ref:".toList (getline s.head []) = false)) := by
  obtain ⟨-, hc, -, text, hh, hshape⟩ := hs
  refine ⟨text, hh, ?_⟩
  rw [hh]
  rcases hshape with ⟨rest, rfl⟩ | ⟨h, rfl, hex⟩
  · refine ⟨getlineOk_ref rest, Or.inl ⟨(getlines rest).headD [], ?_, ?_⟩⟩
    · rw [getline_ref]
      exact startsWith_ref _
    · rw [getline_ref]
      exact substr_ref _
  · have hn := hex_no_newline h (hc h hex)
    refine ⟨getlineOk_hash_file h hn, Or.inr ⟨h, hex, getline_hash_file h [] hn, ?_⟩⟩
    rw [getline_hash_file h [] hn]
    exact startsWith_ref_hex h (hc h hex)

theorem Consistent.branch_tip {s : Repo} (hs : Consistent s) (b text : Str)
    (hb : s.branches b = some text) :
    ∃ h, text = h ++ "\n".toList ∧ (s.commits h).isSome = true ∧
      (∀ fallback, getline (some text) fallback = h) ∧ ∀ c ∈ h, isHexChar c = true := by
  obtain ⟨h, rfl, hex⟩ := hs.2.2.1 b text hb
  exact ⟨h, rfl, hex, fun fb => getline_hash_file h fb (hs.key_no_newline h hex), hs.2.1 h hex⟩

theorem baseRepo_reachable : Reachable baseRepo :=
  .commit demoMessage demoTimestamp demoRepo baseRepo _ (.add "f".toList _ (.init demoWork))
    demoRepo_commit

theorem Consistent.resolveHead_ok {s : Repo} (hs : Consistent s) : ∃ p, resolveHead s = .ok p := by
  obtain ⟨text, -, -, hcase⟩ := hs.head_cases
  rcases hcase with ⟨b, hsym, hsub⟩ | ⟨h, -, -, hdet⟩
  · rw [resolveHead_symbolic s hsym, hsub]
    exact ⟨_, rfl⟩
  · rw [resolveHead_detached s hdet]
    exact ⟨_, rfl⟩

theorem committed_ne_nothing (k : Str) :
    ["Committed with hash: ".toList ++ k ++ "\n".toList] ≠
      ["Nothing to commit. Stage files first using './minigit add <file>'.\n".toList] := by
  intro h
  have h2 := congrArg (fun l => l.head?.bind List.head?) h
  have h3 : some 'C' = some 'N' := h2
  exact absurd h3 (by decide)

theorem committed_ne_empty (k : Str) :
    ["Committed with hash: ".toList ++ k ++ "\n".toList] ≠
      ["No files staged for commit.\n".toList] := by
  intro h
  have h2 := congrArg (fun l => l.head?.bind List.head?) h
  have h3 : some 'C' = some 'N' := h2
  exact absurd h3 (by decide)

theorem resolveHead_of_ne (s : Repo) (hhead : getline s.head [] ≠ "ref:".toList) :
    ∃ p, resolveHead s = .ok p := by
  cases hsym : startsWith "ref:".toList (getline s.head []) with
  | true =>
    rw [resolveHead_symbolic s hsym]
    have hpre : "ref:".toList <+: getline s.head [] := List.isPrefixOf_iff_prefix.mp hsym
    obtain ⟨t, ht⟩ := hpre
    have hlen : 5 ≤ (getline s.head []).length := by
      rw [← ht]
      cases t with
      | nil => rw [← ht] at hhead; simp at hhead
      | cons c cs => simp
    simp only [substr, if_pos hlen]
    exact ⟨_, rfl⟩
  | false =>
    rw [resolveHead_detached s hsym]
    exact ⟨_, rfl⟩

/-- With a staged entry and a `HEAD.txt` whose line is `ref:` alone, `substr(5)` throws
in `commitChanges`. -/
theorem commitChanges_short_ref (message timestamp staged : Str) (s : Repo)
    (hinit : s.initialized = true) (hidx : s.index = some staged) (hst : staged ≠ [])
    (hhead : getline s.head [] = "ref:".toList) :
    commitChanges message timestamp s = .error .outOfRange := by
  have hsym : startsWith "ref:".toList (getline s.head []) = true := by
    rw [hhead]
    decide
  have hr := resolveHead_symbolic s hsym
  rw [hhead] at hr
  unfold commitChanges
  simp only [hinit, hidx, hst, if_false, hr, bind, Except.bind]
  rfl

/-- C13: in every initialised state, unless `HEAD.txt` holds the line `ref:` alone
while an entry is staged, `commitChanges` returns; it reports that nothing is staged
exactly when `index.txt` is absent or empty, and then the whole state, with commits,
branches, HEAD and the staging log, is as before; with a non-empty staging log it
reports the new id and leaves the staging log empty.  (In the excluded states
`substr(5)` throws, `commitChanges_short_ref`, and the commands can produce such a
state, `commit_throws_reachable`.) -/
theorem commit_nothing_staged (message timestamp : Str) (s : Repo)
    (hinit : s.initialized = true)
    (hhead : getline s.head [] = "ref:".toList → s.index = none ∨ s.index = some []) :
    ∃ s' out, commitChanges message timestamp s = .ok (s', out) ∧
      ((out = ["Nothing to commit. Stage files first using './minigit add <file>'.\n".toList] ∨
          out = ["No files staged for commit.\n".toList]) ↔
        (s.index = none ∨ s.index = some [])) ∧
      (s.index = none ∨ s.index = some [] → s' = s) ∧
      (∀ staged, s.index = some staged → staged ≠ [] →
        out = ["Committed with hash: ".toList ++ simpleHash (message ++ timestamp ++ staged) ++
          "\n".toList] ∧ s'.index = some []) := by
  cases hidx : s.index with
  | none =>
    refine ⟨s, _, commitChanges_absent message timestamp s (Or.inr hidx), ?_, fun _ => rfl, ?_⟩
    · exact ⟨fun _ => Or.inl rfl, fun _ => Or.inl rfl⟩
    · intro staged h
      cases h
  | some staged =>
    by_cases hst : staged = []
    · subst hst
      refine ⟨s, _, commitChanges_empty message timestamp s hinit hidx, ?_, fun _ => rfl, ?_⟩
      · exact ⟨fun _ => Or.inr rfl, fun _ => Or.inr rfl⟩
      · intro staged h hne
        cases h
        exact absurd rfl hne
    · obtain ⟨p, hp⟩ := resolveHead_of_ne s (fun e => by
        rcases hhead e with h | h
        · rw [hidx] at h
          cases h
        · rw [hidx] at h
          exact hst (Option.some.inj h))
      obtain ⟨s', out, hcc, -⟩ := commitChanges_frame message timestamp staged p s hinit hidx hst hp
      obtain ⟨-, -, hout, -, -, -, hi, -⟩ :=
        commitChanges_staged message timestamp staged s s' out hinit hidx hst hcc
      refine ⟨s', out, hcc, ?_, ?_, ?_⟩
      · constructor
        · intro h
          rw [hout] at h
          rcases h with h | h
          · exact absurd h (committed_ne_nothing _)
          · exact absurd h (committed_ne_empty _)
        · intro h
          rcases h with h | h
          · cases h
          · cases h
            exact absurd rfl hst
      · intro h
        rcases h with h | h
        · cases h
        · cases h
          exact absurd rfl hst
      · intro staged' h _
        cases h
        exact ⟨hout, hi⟩

theorem commit_nothing_staged_witness :
    baseRepo.initialized = true ∧
      (getline baseRepo.head [] = "ref:".toList →
        baseRepo.index = none ∨ baseRepo.index = some []) ∧
      ∃ s' out, commitChanges demoMessage demoTimestamp baseRepo = .ok (s', out) ∧
        (baseRepo.index = none ∨ baseRepo.index = some [] → s' = baseRepo) :=
  ⟨rfl, fun _ => Or.inr rfl,
    let ⟨s', out, h1, _, h3, _⟩ :=
      commit_nothing_staged demoMessage demoTimestamp baseRepo rfl (fun _ => Or.inr rfl)
    ⟨s', out, h1, h3⟩⟩

theorem mergeBranch_detached (fuel : Nat) (tb : Str) (s : Repo)
    (hdet : startsWith "ref:".toList (getline s.head []) = false) :
    mergeBranch fuel tb s =
      .ok (s, ["You must be on a branch to perform a merge (not detached).\n".toList]) := by
  unfold mergeBranch mergeBase
  simp only [hdet, Bool.not_false, if_true, bind, Except.bind, pure, Except.pure]

theorem mergeBranch_noAncestor (fuel : Nat) (tb cur cb tt : Str) (s : Repo)
    (hsym : startsWith "ref:".toList (getline s.head []) = true)
    (hcur : substr (getline s.head []) 5 = .ok cur)
    (hcb : s.branches cur = some cb) (htb : s.branches tb = some tt)
    (hl : lowestCommonAncestor s.commits fuel (getline (some cb) []) (getline (some tt) []) =
      .ok "null".toList) :
    mergeBranch fuel tb s = .ok (s, ["No common ancestor. Cannot merge.\n".toList]) := by
  unfold mergeBranch mergeBase
  simp only [hsym, Bool.not_true, Bool.false_eq_true, if_false, hcur, bind, Except.bind, hcb,
    htb, hl, if_true, pure, Except.pure]

/-- C14: `mergeBranch` with a HEAD that is not a symbolic reference reports that HEAD is
detached, and `mergeBranch` whose search for the common ancestor of the two tips ends
with `null` reports that there is no common ancestor; both return the state as it was,
working files included. -/
theorem merge_early_failures (fuel : Nat) (targetBranch : Str) (s : Repo) :
    (startsWith "ref:".toList (getline s.head []) = false →
      mergeBranch fuel targetBranch s =
        .ok (s, ["You must be on a branch to perform a merge (not detached).\n".toList])) ∧
    (∀ cur cb tt, startsWith "ref:".toList (getline s.head []) = true →
      substr (getline s.head []) 5 = .ok cur →
      s.branches cur = some cb → s.branches targetBranch = some tt →
      lowestCommonAncestor s.commits fuel (getline (some cb) []) (getline (some tt) []) =
        .ok "null".toList →
      mergeBranch fuel targetBranch s = .ok (s, ["No common ancestor. Cannot merge.\n".toList])) :=
  ⟨mergeBranch_detached fuel targetBranch s,
    fun cur cb tt hsym hcur hcb htb hl =>
      mergeBranch_noAncestor fuel targetBranch cur cb tt s hsym hcur hcb htb hl⟩

theorem merge_early_failures_witness :
    mergeBranch 3 "other".toList islandDetached =
        .ok (islandDetached,
          ["You must be on a branch to perform a merge (not detached).\n".toList]) ∧
      mergeBranch 3 "other".toList islandRepo =
        .ok (islandRepo, ["No common ancestor. Cannot merge.\n".toList]) :=
  ⟨(merge_early_failures 3 "other".toList islandDetached).1 (by decide),
    (merge_early_failures 3 "other".toList islandRepo).2 "main".toList "P\n".toList
      "Q\n".toList (by decide) rfl rfl rfl rfl⟩

theorem mergeFiles_same (C : FileMap) (tb : Str) :
    ∀ (entries : List (Str × Str)) (s : Repo), mergeFiles C C tb entries s = (s, []) := by
  intro entries
  induction entries with
  | nil => intro s; rfl
  | cons e rest ih =>
    intro s
    obtain ⟨p, l⟩ := e
    have hc : (decide (mapGet C p = mapGet C p) || (mapGet C p).isEmpty) = true := by simp
    simp only [mergeFiles, hc, if_true]
    exact ih s

theorem lca_same_tip (commits : Files) (fuel : Nat) (tip : Str) (visited : List Str)
    (hw : ancestorWalk commits fuel tip = .ok visited) (hn : tip ≠ "null".toList) :
    lowestCommonAncestor commits fuel tip tip = .ok tip := by
  rcases ancestorWalk_inv commits fuel tip visited hw with ⟨h, -⟩ | ⟨-, m, p, rest, rfl, -, -, rfl⟩
  · exact absurd h hn
  · unfold lowestCommonAncestor
    simp only [hw, bind, Except.bind, findLca, if_neg hn, List.mem_cons, true_or, if_true]
    rfl

theorem noAncestor_ne_conflictLine (p : Str) :
    "No common ancestor. Cannot merge.\n".toList ≠ conflictLine p := by
  intro h
  have h2 : some 'N' = some 'C' := congrArg List.head? h
  exact absurd h2 (by decide)

theorem noAncestor_ne_mergedLine (tb p : Str) :
    "No common ancestor. Cannot merge.\n".toList ≠ mergedLine tb p := by
  intro h
  have h2 : some 'N' = some 'M' := congrArg List.head? h
  exact absurd h2 (by decide)

/-- C16: with HEAD on a branch, merging a branch whose tip is the tip of the current
branch (the branch itself, for one) never reports a conflict or an applied change and
returns the state as it was, working files included; when the walk over the history
of the tip ends within the fuel, the merge returns, with that tip as the common
ancestor. -/
theorem merge_same_tip (fuel : Nat) (targetBranch : Str) (s : Repo) (cur cb tt : Str)
    (hsym : startsWith "ref:".toList (getline s.head []) = true)
    (hcur : substr (getline s.head []) 5 = .ok cur)
    (hcb : s.branches cur = some cb) (htb : s.branches targetBranch = some tt)
    (htip : getline (some tt) [] = getline (some cb) []) :
    (∀ s' out, mergeBranch fuel targetBranch s = .ok (s', out) →
      s' = s ∧ ∀ p, out.count (conflictLine p) = 0 ∧
        out.count (mergedLine targetBranch p) = 0) ∧
    (∀ visited, ancestorWalk s.commits fuel (getline (some cb) []) = .ok visited →
      getline (some cb) [] ≠ "null".toList →
      mergeBranch fuel targetBranch s =
        .ok (s, [
          "Merging branch '".toList ++ targetBranch ++ "' into '".toList ++ cur ++ "'\n".toList,
          "Lowest Common Ancestor: ".toList ++ getline (some cb) [] ++ "\n".toList,
          "Merge complete. Please resolve conflicts and commit the result.\n".toList])) := by
  have hhead : ∃ headText, s.head = some headText := by
    cases hh : s.head with
    | none =>
      rw [hh] at hsym
      cases hsym
    | some t => exact ⟨t, rfl⟩
  obtain ⟨headText, hh⟩ := hhead
  have hfound : ∀ lca, lowestCommonAncestor s.commits fuel (getline (some cb) [])
      (getline (some tt) []) = .ok lca → lca ≠ "null".toList →
      mergeBranch fuel targetBranch s =
        .ok (s, [
          "Merging branch '".toList ++ targetBranch ++ "' into '".toList ++ cur ++ "'\n".toList,
          "Lowest Common Ancestor: ".toList ++ lca ++ "\n".toList,
          "Merge complete. Please resolve conflicts and commit the result.\n".toList]) := by
    intro lca hl hn
    rw [hh] at hsym hcur
    rw [mergeBranch_found fuel targetBranch s cur _ _ lca
      (mergeBase_found fuel targetBranch headText cur cb tt lca s hh hsym hcur hcb htb hl hn),
      htip, mergeFiles_same]
    rfl
  constructor
  · intro s' out h
    cases hl : lowestCommonAncestor s.commits fuel (getline (some cb) [])
        (getline (some tt) []) with
    | error e =>
      unfold mergeBranch mergeBase at h
      simp only [hsym, Bool.not_true, Bool.false_eq_true, if_false, hcur, bind, Except.bind, hcb,
        htb, hl] at h
      cases h
    | ok lca =>
      by_cases hn : lca = "null".toList
      · rw [hn] at hl
        rw [mergeBranch_noAncestor fuel targetBranch cur cb tt s hsym hcur hcb htb hl] at h
        simp only [Except.ok.injEq, Prod.mk.injEq] at h
        obtain ⟨rfl, rfl⟩ := h
        refine ⟨rfl, fun p => ⟨?_, ?_⟩⟩
        · exact List.count_eq_zero.mpr (by
            simpa using (noAncestor_ne_conflictLine p).symm)
        · exact List.count_eq_zero.mpr (by
            simpa using (noAncestor_ne_mergedLine targetBranch p).symm)
      · rw [hfound lca hl hn] at h
        simp only [Except.ok.injEq, Prod.mk.injEq] at h
        obtain ⟨rfl, rfl⟩ := h
        refine ⟨rfl, fun p => ⟨?_, ?_⟩⟩
        · exact count_conflictLine_report p _ _ []
        · exact count_mergedLine_report targetBranch p _ _ []
  · intro visited hw hn
    refine hfound _ ?_ hn
    rw [htip]
    exact lca_same_tip s.commits fuel _ visited hw hn

theorem baseRepo_commits : baseRepo.commits = records1 := by
  simp only [baseRepo]

theorem ancestorWalk_root (commits : Files) (k : Str) (hk : k ≠ "null".toList)
    (hp : parentOf commits k = .ok "null".toList) :
    ancestorWalk commits 2 k = .ok [k] := by
  simp only [ancestorWalk, if_neg hk, hp, bind, Except.bind, if_true, pure, Except.pure]

theorem baseRepo_walk :
    ancestorWalk baseRepo.commits 2 (getline (some (demoId ++ "\n".toList)) []) =
      .ok [demoId] := by
  rw [getline_hash_file demoId _ (simpleHash_no_newline _), baseRepo_commits]
  exact ancestorWalk_root records1 demoId (simpleHash_ne_null _) (parent_demo _ records1_demo)

theorem merge_same_tip_witness :
    mergeBranch 2 "main".toList baseRepo =
      .ok (baseRepo, [
        "Merging branch '".toList ++ "main".toList ++ "' into '".toList ++ "main".toList ++
          "'\n".toList,
        "Lowest Common Ancestor: ".toList ++ getline (some (demoId ++ "\n".toList)) [] ++
          "\n".toList,
        "Merge complete. Please resolve conflicts and commit the result.\n".toList]) :=
  (merge_same_tip 2 "main".toList baseRepo "main".toList (demoId ++ "\n".toList)
    (demoId ++ "\n".toList) rfl rfl refs1_main refs1_main rfl).2 [demoId] baseRepo_walk
    (by
      rw [getline_hash_file demoId _ (simpleHash_no_newline _)]
      exact simpleHash_ne_null _)

theorem diffLoadFiles_fst (commits : Files) (hash : Str) :
    (diffLoadFiles commits hash).1 = loadFiles commits hash := by
  unfold diffLoadFiles loadFiles
  cases commits hash <;> rfl

theorem diffLine_self (lines : List Str) (i : Nat) : diffLine lines lines i = [] := by
  simp [diffLine]

theorem diffLines_self (lines : List Str) : diffLines lines lines = [] := by
  unfold diffLines
  rw [List.flatMap_eq_nil_iff]
  intro i _
  exact diffLine_self lines i

theorem diffEntry_same (objects : Files) (files2 : FileMap) (filename blob1 blob2 : Str)
    (h2 : mapFind files2 filename = some blob2) (hsame : objects blob1 = objects blob2) :
    diffEntry objects files2 filename blob1 =
      ["Diff: ".toList ++ filename ++ "\n".toList, "--------------------------\n".toList] := by
  unfold diffEntry
  simp only [h2, hsame, diffLines_self]
  rfl

theorem mem_split_nodup (m : FileMap) (hnd : (m.map Prod.fst).Nodup) (k v : Str)
    (h : (k, v) ∈ m) :
    ∃ before after, m = before ++ (k, v) :: after ∧
      k ∉ before.map Prod.fst ∧ k ∉ after.map Prod.fst := by
  obtain ⟨before, after, rfl⟩ := List.append_of_mem h
  refine ⟨before, after, rfl, ?_, ?_⟩
  · intro hk
    rw [List.map_append, List.map_cons, List.nodup_append] at hnd
    exact hnd.2.2 hk (List.mem_cons_self _ _)
  · intro hk
    rw [List.map_append, List.map_cons, List.nodup_append, List.nodup_cons] at hnd
    exact hnd.2.1.1 hk

/-- C18: for a path that both commits hold with objects of the same content (also
no object on either side), the output of `diffCommits` holds for that path the heading
and the closing rule and nothing between them, so no removed and no added line; a
commit compared with itself gives the heading and the closing rule for each of its
paths and nothing else. -/
theorem diff_identical (hash1 hash2 : Str) (s : Repo) :
    (∀ filename blob1 blob2,
      mapFind (diffLoadFiles s.commits hash1).1 filename = some blob1 →
      mapFind (diffLoadFiles s.commits hash2).1 filename = some blob2 →
      s.objects blob1 = s.objects blob2 →
      ∃ before after,
        (diffLoadFiles s.commits hash1).1 = before ++ (filename, blob1) :: after ∧
        filename ∉ before.map Prod.fst ∧ filename ∉ after.map Prod.fst ∧
        diffCommits hash1 hash2 s =
          (diffLoadFiles s.commits hash1).2 ++ (diffLoadFiles s.commits hash2).2 ++
            (before.flatMap
                (fun e => diffEntry s.objects (diffLoadFiles s.commits hash2).1 e.1 e.2) ++
              ["Diff: ".toList ++ filename ++ "\n".toList,
                "--------------------------\n".toList] ++
              after.flatMap
                (fun e => diffEntry s.objects (diffLoadFiles s.commits hash2).1 e.1 e.2))) ∧
    diffCommits hash1 hash1 s =
      (diffLoadFiles s.commits hash1).2 ++ (diffLoadFiles s.commits hash1).2 ++
        (diffLoadFiles s.commits hash1).1.flatMap
          (fun e => ["Diff: ".toList ++ e.1 ++ "\n".toList,
            "--------------------------\n".toList]) := by
  have hnd : ((diffLoadFiles s.commits hash1).1.map Prod.fst).Nodup := by
    rw [diffLoadFiles_fst]
    exact loadFiles_nodup _ _
  constructor
  · intro filename blob1 blob2 h1 h2 hsame
    obtain ⟨before, after, hsplit, hb, ha⟩ :=
      mem_split_nodup _ hnd filename blob1 (mapFind_mem _ _ _ h1)
    refine ⟨before, after, hsplit, hb, ha, ?_⟩
    unfold diffCommits
    simp only
    rw [hsplit, List.flatMap_append, List.flatMap_cons,
      diffEntry_same s.objects _ filename blob1 blob2 h2 hsame]
    simp only [List.append_assoc]
  · unfold diffCommits
    simp only
    congr 1
    apply List.flatMap_congr
    intro e he
    exact diffEntry_same s.objects _ e.1 e.2 e.2 (mapFind_of_mem _ hnd e.1 e.2 he) rfl

theorem diff_identical_witness :
    ∃ before after,
      (diffLoadFiles baseRepo.commits demoId).1 =
        before ++ ("f".toList, simpleHash "x".toList) :: after ∧
      "f".toList ∉ before.map Prod.fst ∧ "f".toList ∉ after.map Prod.fst ∧
      diffCommits demoId demoId baseRepo =
        (diffLoadFiles baseRepo.commits demoId).2 ++ (diffLoadFiles baseRepo.commits demoId).2 ++
          (before.flatMap
              (fun e => diffEntry baseRepo.objects (diffLoadFiles baseRepo.commits demoId).1
                e.1 e.2) ++
            ["Diff: ".toList ++ "f".toList ++ "\n".toList,
              "--------------------------\n".toList] ++
            after.flatMap
              (fun e => diffEntry baseRepo.objects (diffLoadFiles baseRepo.commits demoId).1
                e.1 e.2)) :=
  have hf : mapFind (diffLoadFiles baseRepo.commits demoId).1 "f".toList =
      some (simpleHash "x".toList) := by
    rw [diffLoadFiles_fst, baseRepo_commits, files_demo records1 records1_demo]
    exact mapFind_single _ _
  (diff_identical demoId demoId baseRepo).1 "f".toList (simpleHash "x".toList)
    (simpleHash "x".toList) hf hf rfl

set_option maxRecDepth 1000000 in
theorem hash_line :
    simpleHash "\n".toList = "adc83b19e793491b1c6ea0fd8b46cd9f32e592fc".toList := by
  decide

set_option maxRecDepth 1000000 in
theorem lineId_value : lineId = "1725a04b8d6dc85f4d54a0c53be19df2ea20db3e".toList := by
  unfold lineId lineStaged
  rw [hash_line]
  decide

theorem hash_line_ne_x : simpleHash "\n".toList ≠ simpleHash "x".toList := by
  rw [hash_line, hash_x]
  decide

theorem hash_line_ne_empty : simpleHash "\n".toList ≠ simpleHash [] := by
  rw [hash_line, hash_empty]
  decide

theorem forkId_ne_lineId : forkId ≠ lineId := by
  rw [forkId_value, lineId_value]
  decide

theorem blobsL_empty : blobsL (simpleHash []) = some [] :=
  saveBlob_preserves _ _ _ _ blobs2_empty

theorem blobsL_line : blobsL (simpleHash "\n".toList) = some "\n".toList :=
  saveBlob_fresh _ _
    (saveBlob_none _ _ _ (saveBlob_none _ _ _ rfl hash_line_ne_x) hash_line_ne_empty)

theorem recordsL_line :
    recordsL lineId =
      some (commitText lineId forkId sideTimestamp demoMessage lineStaged) :=
  writeFile_same _ _ _

theorem recordsL_fork :
    recordsL forkId =
      some (commitText forkId demoId forkTimestamp demoMessage forkStaged) := by
  unfold recordsL
  rw [writeFile_other _ _ _ _ forkId_ne_lineId]
  exact records2_fork

theorem files_line (commits : Files)
    (h : commits lineId =
      some (commitText lineId forkId sideTimestamp demoMessage lineStaged)) :
    loadFiles commits lineId = [("f".toList, simpleHash "\n".toList)] :=
  loadFiles_single _ lineId lineId forkId "Sun Nov  1 00:00:02 2026".toList demoMessage
    "f".toList (simpleHash "\n".toList) h (simpleHash_no_newline _)
    (simpleHash_no_newline _) date_no_newline_2 demoMessage_no_newline isWord_f
    (simpleHash_isWord _)

theorem lineRepo1_reachable : Reachable lineRepo1 := by
  have h := Reachable.edit
    (writeFile (writeFile demoWork "f".toList []) "f".toList "\n".toList) forkRepo4
    forkRepo4_reachable
  have e : { forkRepo4 with
      files := writeFile (writeFile demoWork "f".toList []) "f".toList "\n".toList } =
      lineRepo1 := by
    simp only [forkRepo4, lineRepo1]
  rw [e] at h
  exact h

theorem lineRepo2_add :
    addFileToStaging "f".toList lineRepo1 =
      (lineRepo2, ["Added '".toList ++ "f".toList ++ "' to staging area.\n".toList]) := by
  have hw : lineRepo1.work "f".toList = some "\n".toList := by
    rw [work_name _ _ isWorkName_f]
    simp only [lineRepo1, writeFile_same]
  rw [addFileToStaging_eq lineRepo1 "f".toList "\n".toList rfl hw]
  simp only [lineRepo1, lineRepo2, blobsL, lineStaged, Option.getD_some, List.nil_append]

theorem lineRepo3_commit :
    commitChanges demoMessage sideTimestamp lineRepo2 =
      .ok (lineRepo3, ["Committed with hash: ".toList ++ lineId ++ "\n".toList]) := by
  have hb : lineRepo2.branches "main".toList = some (forkId ++ "\n".toList) := by
    simp only [lineRepo2]
    exact refs3_main
  have h := commitChanges_at demoMessage sideTimestamp lineStaged "main".toList forkId
    lineId lineRepo2 rfl rfl (append_newline_ne_nil _) rfl rfl hb (simpleHash_no_newline _)
    rfl
  simp only [lineRepo2] at h ⊢
  simp only [lineRepo3, recordsL, refsL]
  exact h

theorem lineRepo3_reachable : Reachable lineRepo3 := by
  have h := Reachable.add "f".toList lineRepo1 lineRepo1_reachable
  rw [lineRepo2_add] at h
  exact .commit demoMessage sideTimestamp lineRepo2 lineRepo3 _ h lineRepo3_commit

theorem diffLoadFiles_found (commits : Files) (hash text : Str) (hc : commits hash = some text) :
    diffLoadFiles commits hash = (loadFiles commits hash, []) := by
  unfold diffLoadFiles loadFiles
  rw [hc]
  rfl

theorem diffCommits_single (s : Repo) (hash1 hash2 f b1 b2 text1 text2 : Str)
    (hc1 : s.commits hash1 = some text1) (hc2 : s.commits hash2 = some text2)
    (hf1 : loadFiles s.commits hash1 = [(f, b1)])
    (hf2 : loadFiles s.commits hash2 = [(f, b2)]) :
    diffCommits hash1 hash2 s =
      ("Diff: ".toList ++ f ++ "\n".toList) ::
        (diffLines (readLines (s.objects b1)) (readLines (s.objects b2)) ++
          ["--------------------------\n".toList]) := by
  unfold diffCommits
  simp only [diffLoadFiles_found _ _ _ hc1, diffLoadFiles_found _ _ _ hc2, hf1, hf2,
    List.flatMap_cons, List.flatMap_nil, diffEntry, mapFind_single, List.nil_append,
    List.append_nil]

theorem diffLine_eq_spec (lines1 lines2 : List Str) (i : Nat)
    (h1 : ∀ l ∈ lines1, l ≠ []) (h2 : ∀ l ∈ lines2, l ≠ []) :
    diffLine lines1 lines2 i = specDiffLine lines1 lines2 i := by
  unfold diffLine specDiffLine
  by_cases hi1 : i < lines1.length <;> by_cases hi2 : i < lines2.length
  · have a1 := h1 _ (List.getElem_mem hi1)
    have a2 := h2 _ (List.getElem_mem hi2)
    simp [hi1, hi2, List.getElem?_eq_getElem, a1, a2]
  · have a1 := h1 _ (List.getElem_mem hi1)
    simp [hi1, hi2, List.getElem?_eq_getElem, List.getElem?_eq_none (Nat.le_of_not_lt hi2), a1]
  · have a2 := h2 _ (List.getElem_mem hi2)
    simp [hi1, hi2, List.getElem?_eq_getElem, List.getElem?_eq_none (Nat.le_of_not_lt hi1), a2]
  · simp [hi1, hi2, List.getElem?_eq_none (Nat.le_of_not_lt hi1),
      List.getElem?_eq_none (Nat.le_of_not_lt hi2)]

theorem diffLines_eq_spec (lines1 lines2 : List Str)
    (h1 : ∀ l ∈ lines1, l ≠ []) (h2 : ∀ l ∈ lines2, l ≠ []) :
    diffLines lines1 lines2 =
      (List.range (max lines1.length lines2.length)).flatMap (specDiffLine lines1 lines2) := by
  unfold diffLines
  exact List.flatMap_congr (fun i _ => diffLine_eq_spec lines1 lines2 i h1 h2)

theorem lineRepo3_commits : lineRepo3.commits = recordsL := by
  simp only [lineRepo3]

theorem lineRepo3_objects : lineRepo3.objects = blobsL := by
  simp only [lineRepo3]

/-- C17 (code at the failing input): after `init`, `add f` and `commit` with `f` holding
`x`, `branch feature`, then `add f` and `commit` with `f` empty and again with `f`
holding one empty line, the last two commits hold `f` with the line sequences `[]` and
`[""]`.  The specification asks for the line at index 0 of the second file to be reported
as added; `diffCommits` reads the missing line as the empty string, finds the two equal
and prints only the heading and the closing rule.  The files `a` and `b` of the
specification give one removed and one added line. -/
theorem diff_skips_empty_line :
    Reachable lineRepo3 ∧
      mapFind (diffLoadFiles lineRepo3.commits forkId).1 "f".toList = some (simpleHash []) ∧
      mapFind (diffLoadFiles lineRepo3.commits lineId).1 "f".toList =
        some (simpleHash "\n".toList) ∧
      readLines (lineRepo3.objects (simpleHash [])) = [] ∧
      readLines (lineRepo3.objects (simpleHash "\n".toList)) = [[]] ∧
      specDiffLine [] [[]] 0 = ["+ \n".toList] ∧
      diffCommits forkId lineId lineRepo3 =
        ["Diff: f\n".toList, "--------------------------\n".toList] ∧
      diffLines (readLines (some "a".toList)) (readLines (some "b".toList)) =
        ["- a\n".toList, "+ b\n".toList] := by
  have hf1 : loadFiles lineRepo3.commits forkId = [("f".toList, simpleHash [])] := by
    rw [lineRepo3_commits]
    exact files_fork recordsL recordsL_fork
  have hf2 : loadFiles lineRepo3.commits lineId = [("f".toList, simpleHash "\n".toList)] := by
    rw [lineRepo3_commits]
    exact files_line recordsL recordsL_line
  have ho1 : readLines (lineRepo3.objects (simpleHash [])) = [] := by
    rw [lineRepo3_objects, blobsL_empty]
    rfl
  have ho2 : readLines (lineRepo3.objects (simpleHash "\n".toList)) = [[]] := by
    rw [lineRepo3_objects, blobsL_line]
    rfl
  refine ⟨lineRepo3_reachable, ?_, ?_, ho1, ho2, by decide, ?_, by decide⟩
  · rw [diffLoadFiles_fst, hf1]
    exact mapFind_single _ _
  · rw [diffLoadFiles_fst, hf2]
    exact mapFind_single _ _
  · rw [diffCommits_single lineRepo3 forkId lineId "f".toList (simpleHash [])
      (simpleHash "\n".toList) _ _ (by rw [lineRepo3_commits]; exact recordsL_fork)
      (by rw [lineRepo3_commits]; exact recordsL_line) hf1 hf2, ho1, ho2]
    decide

theorem commitText_parent_inj (k p1 p2 timestamp message staged : Str)
    (hk : ∀ c ∈ k, c ≠ '\n') (h1 : ∀ c ∈ p1, c ≠ '\n') (h2 : ∀ c ∈ p2, c ≠ '\n')
    (h : commitText k p1 timestamp message staged = commitText k p2 timestamp message staged) :
    p1 = p2 := by
  have e1 := parentOf_commitText (fun _ => some (commitText k p1 timestamp message staged))
    k k p1 timestamp message staged rfl hk h1
  have e2 := parentOf_commitText (fun _ => some (commitText k p1 timestamp message staged))
    k k p2 timestamp message staged (by rw [h]) hk h2
  rw [e1] at e2
  cases e2
  rfl

/-- C19: two commits of the same message, clock reading and staged text in two states
whose HEADs resolve to the parents `p1` and `p2` both return, both report the id
`simpleHash (message ++ timestamp ++ staged)` and both write their record under that
id; the two records name the parents `p1` and `p2`, and they differ when the parents
differ. -/
theorem commit_id_ignores_parent (message timestamp staged p1 p2 : Str) (s1 s2 : Repo)
    (hi1 : s1.initialized = true) (hi2 : s2.initialized = true)
    (hx1 : s1.index = some staged) (hx2 : s2.index = some staged) (hst : staged ≠ [])
    (hp1 : resolveHead s1 = .ok p1) (hp2 : resolveHead s2 = .ok p2) :
    ∃ s1' s2',
      commitChanges message timestamp s1 =
        .ok (s1', ["Committed with hash: ".toList ++
          simpleHash (message ++ timestamp ++ staged) ++ "\n".toList]) ∧
      commitChanges message timestamp s2 =
        .ok (s2', ["Committed with hash: ".toList ++
          simpleHash (message ++ timestamp ++ staged) ++ "\n".toList]) ∧
      s1'.commits (simpleHash (message ++ timestamp ++ staged)) =
        some (commitText (simpleHash (message ++ timestamp ++ staged)) p1 timestamp message
          staged) ∧
      s2'.commits (simpleHash (message ++ timestamp ++ staged)) =
        some (commitText (simpleHash (message ++ timestamp ++ staged)) p2 timestamp message
          staged) ∧
      (p1 ≠ p2 →
        s1'.commits (simpleHash (message ++ timestamp ++ staged)) ≠
          s2'.commits (simpleHash (message ++ timestamp ++ staged))) := by
  obtain ⟨s1', out1, hc1, -, -, hk1, -⟩ :=
    commitChanges_frame message timestamp staged p1 s1 hi1 hx1 hst hp1
  obtain ⟨s2', out2, hc2, -, -, hk2, -⟩ :=
    commitChanges_frame message timestamp staged p2 s2 hi2 hx2 hst hp2
  obtain ⟨-, -, ho1, -⟩ := commitChanges_staged message timestamp staged s1 s1' out1 hi1 hx1 hst hc1
  obtain ⟨-, -, ho2, -⟩ := commitChanges_staged message timestamp staged s2 s2' out2 hi2 hx2 hst hc2
  subst ho1 ho2
  have hr1 : s1'.commits (simpleHash (message ++ timestamp ++ staged)) =
      some (commitText (simpleHash (message ++ timestamp ++ staged)) p1 timestamp message
        staged) := by
    rw [hk1, writeFile_same]
  have hr2 : s2'.commits (simpleHash (message ++ timestamp ++ staged)) =
      some (commitText (simpleHash (message ++ timestamp ++ staged)) p2 timestamp message
        staged) := by
    rw [hk2, writeFile_same]
  refine ⟨s1', s2', hc1, hc2, hr1, hr2, ?_⟩
  intro hne heq
  rw [hr1, hr2] at heq
  exact hne (commitText_parent_inj _ p1 p2 timestamp message staged (simpleHash_no_newline _)
    (resolveHead_no_newline s1 p1 hp1) (resolveHead_no_newline s2 p2 hp2)
    (Option.some.inj heq))

theorem demoRepo2_resolveHead : resolveHead demoRepo2 = .ok demoId := by
  rw [resolveHead_symbolic demoRepo2 rfl]
  show Except.ok (getline (some (demoId ++ "\n".toList)) "null".toList) = _
  rw [getline_hash_file demoId _ (simpleHash_no_newline _)]

theorem commit_id_ignores_parent_witness :
    ∃ s1' s2',
      commitChanges demoMessage demoTimestamp demoRepo =
        .ok (s1', ["Committed with hash: ".toList ++
          simpleHash (demoMessage ++ demoTimestamp ++ demoStaged) ++ "\n".toList]) ∧
      commitChanges demoMessage demoTimestamp demoRepo2 =
        .ok (s2', ["Committed with hash: ".toList ++
          simpleHash (demoMessage ++ demoTimestamp ++ demoStaged) ++ "\n".toList]) ∧
      s1'.commits (simpleHash (demoMessage ++ demoTimestamp ++ demoStaged)) ≠
        s2'.commits (simpleHash (demoMessage ++ demoTimestamp ++ demoStaged)) :=
  let ⟨s1', s2', h1, h2, _, _, h5⟩ :=
    commit_id_ignores_parent demoMessage demoTimestamp demoStaged "null".toList demoId
      demoRepo demoRepo2 rfl rfl rfl demoRepo2_index (append_newline_ne_nil _) rfl
      demoRepo2_resolveHead
  ⟨s1', s2', h1, h2, h5 (fun h => simpleHash_ne_null _ h.symm)⟩

theorem hex8_length (n : Nat) (h : n < 2 ^ 32) : (hex8 n).length = 8 := by
  have hl : (Nat.toDigits 16 n).length ≤ 8 :=
    Nat.toDigitsCore_length 16 (by decide) (n + 1) n 8 (by norm_num at h ⊢; exact h)
      (by decide)
  simp only [hex8, List.length_append, List.length_replicate]
  omega

theorem processBlock_lt (dg : Digest) (block : List Nat) :
    (processBlock dg block).h0 < 2 ^ 32 ∧ (processBlock dg block).h1 < 2 ^ 32 ∧
      (processBlock dg block).h2 < 2 ^ 32 ∧ (processBlock dg block).h3 < 2 ^ 32 ∧
      (processBlock dg block).h4 < 2 ^ 32 := by
  simp only [processBlock]
  exact ⟨Nat.mod_lt _ (by decide), Nat.mod_lt _ (by decide), Nat.mod_lt _ (by decide),
    Nat.mod_lt _ (by decide), Nat.mod_lt _ (by decide)⟩

theorem sha1_digest (s : Str) :
    ∃ dg : Digest, dg.h0 < 2 ^ 32 ∧ dg.h1 < 2 ^ 32 ∧ dg.h2 < 2 ^ 32 ∧ dg.h3 < 2 ^ 32 ∧
      dg.h4 < 2 ^ 32 ∧
      sha1 s = hex8 dg.h0 ++ hex8 dg.h1 ++ hex8 dg.h2 ++ hex8 dg.h3 ++ hex8 dg.h4 := by
  simp only [sha1, SHA1.final]
  exact ⟨_, (processBlock_lt _ _).1, (processBlock_lt _ _).2.1, (processBlock_lt _ _).2.2.1,
    (processBlock_lt _ _).2.2.2.1, (processBlock_lt _ _).2.2.2.2, rfl⟩

theorem hexDigitValue_digitChar : ∀ d, d < 16 → hexDigitValue (Nat.digitChar d) = d := by
  decide

theorem hexValue_toDigitsCore (fuel : Nat) : ∀ (n : Nat) (ds : Str), n < fuel →
    (Nat.toDigitsCore 16 fuel n ds).foldl (fun acc c => 16 * acc + hexDigitValue c) 0 =
      ds.foldl (fun acc c => 16 * acc + hexDigitValue c) n := by
  induction fuel with
  | zero => intro n ds h; omega
  | succ fuel ih =>
    intro n ds h
    simp only [Nat.toDigitsCore]
    have hd := hexDigitValue_digitChar (n % 16) (Nat.mod_lt _ (by decide))
    split
    · rename_i h0
      simp only [List.foldl_cons, hd]
      congr 1
      omega
    · rename_i h0
      rw [ih (n / 16) _ (by omega)]
      simp only [List.foldl_cons, hd]
      congr 1
      omega

theorem hexValue_replicate_zero (k : Nat) (ds : Str) :
    hexValue (List.replicate k '0' ++ ds) = hexValue ds := by
  unfold hexValue
  induction k with
  | zero => rfl
  | succ k ih =>
    rw [List.replicate_succ, List.cons_append, List.foldl_cons]
    exact ih

theorem hexValue_hex8 (n : Nat) : hexValue (hex8 n) = n := by
  unfold hex8
  simp only []
  rw [hexValue_replicate_zero]
  exact hexValue_toDigitsCore (n + 1) n [] (Nat.lt_succ_self n)

/-- C20: for every input, `sha1` is the five digest words, each below `2^32` and printed
as 8 zero-padded hexadecimal digits that denote the word, so 40 characters, each one
of `0-9` or `a-f`; it is never empty and never the sentinel `null`, and `simpleHash`,
which names the objects and the commits, is `sha1`. -/
theorem sha1_fixed_hex (s : Str) :
    (sha1 s).length = 40 ∧ (∀ c ∈ sha1 s, isHexChar c = true) ∧
      sha1 s ≠ [] ∧ sha1 s ≠ "null".toList ∧ simpleHash s = sha1 s ∧
      ∃ dg : Digest, dg.h0 < 2 ^ 32 ∧ dg.h1 < 2 ^ 32 ∧ dg.h2 < 2 ^ 32 ∧ dg.h3 < 2 ^ 32 ∧
        dg.h4 < 2 ^ 32 ∧
        sha1 s = hex8 dg.h0 ++ hex8 dg.h1 ++ hex8 dg.h2 ++ hex8 dg.h3 ++ hex8 dg.h4 ∧
        (hex8 dg.h0).length = 8 ∧ (hex8 dg.h1).length = 8 ∧ (hex8 dg.h2).length = 8 ∧
        (hex8 dg.h3).length = 8 ∧ (hex8 dg.h4).length = 8 ∧
        hexValue (hex8 dg.h0) = dg.h0 ∧ hexValue (hex8 dg.h1) = dg.h1 ∧
        hexValue (hex8 dg.h2) = dg.h2 ∧ hexValue (hex8 dg.h3) = dg.h3 ∧
        hexValue (hex8 dg.h4) = dg.h4 := by
  obtain ⟨dg, h0, h1, h2, h3, h4, hs⟩ := sha1_digest s
  have l0 := hex8_length dg.h0 h0
  have l1 := hex8_length dg.h1 h1
  have l2 := hex8_length dg.h2 h2
  have l3 := hex8_length dg.h3 h3
  have l4 := hex8_length dg.h4 h4
  refine ⟨?_, sha1_hex s, sha1_ne_nil s, simpleHash_ne_null s, rfl,
    dg, h0, h1, h2, h3, h4, hs, l0, l1, l2, l3, l4, hexValue_hex8 _, hexValue_hex8 _,
    hexValue_hex8 _, hexValue_hex8 _, hexValue_hex8 _⟩
  rw [hs]
  simp only [List.length_append, l0, l1, l2, l3, l4]

theorem indexText_append (es : List (Str × Str)) (f h : Str) :
    indexText (es ++ [(f, h)]) = indexText es ++ (f ++ " ".toList ++ h ++ "\n".toList) := by
  induction es with
  | nil => simp [indexText]
  | cons e rest ih =>
    obtain ⟨a, b⟩ := e
    have e1 : indexText ((a, b) :: rest ++ [(f, h)]) =
        (a ++ " ".toList ++ b ++ "\n".toList) ++ indexText (rest ++ [(f, h)]) := rfl
    have e2 : indexText ((a, b) :: rest) =
        (a ++ " ".toList ++ b ++ "\n".toList) ++ indexText rest := rfl
    rw [e1, e2, ih]
    simp only [List.append_assoc]

theorem saveBlob_isSome (objects : Files) (x h : Str) (ho : (objects h).isSome = true) :
    (saveBlob objects x h).isSome = true := by
  obtain ⟨c, hc⟩ := Option.isSome_iff_exists.mp ho
  rw [saveBlob_preserves objects x h c hc]
  rfl

theorem parentOf_congr (commits commits' : Files) (k : Str) (h : commits' k = commits k) :
    parentOf commits' k = parentOf commits k := by
  unfold parentOf
  rw [h]

theorem Consistent.resolveHead_valid {s : Repo} (hs : Consistent s) (p : Str)
    (hp : resolveHead s = .ok p) : p = "null".toList ∨ (s.commits p).isSome = true := by
  obtain ⟨text, -, hok, hcase⟩ := hs.head_cases
  rcases hcase with ⟨b, hsym, hsub⟩ | ⟨h, hex, hline, hdet⟩
  · rw [resolveHead_symbolic s hsym, hsub] at hp
    have hp' : getline (s.branches b) "null".toList = p := by
      cases hp
      rfl
    cases hb : s.branches b with
    | none =>
      rw [hb] at hp'
      exact Or.inl hp'.symm
    | some t =>
      obtain ⟨h, -, hex, hline, -⟩ := hs.branch_tip b t hb
      rw [hb, hline] at hp'
      rw [← hp']
      exact Or.inr hex
  · rw [resolveHead_detached s hdet, hok, if_pos rfl, hline] at hp
    cases hp
    exact Or.inr hex

theorem getlines_mem : ∀ (text l : Str), l ∈ getlines text → ∀ c ∈ l, c ∈ text := by
  intro text
  induction text with
  | nil =>
    intro l hl
    cases hl
  | cons a as ih =>
    intro l hl c hc
    by_cases ha : a = '\n'
    · subst ha
      rw [getlines_nl] at hl
      rcases List.mem_cons.mp hl with rfl | hl
      · cases hc
      · exact List.mem_cons_of_mem _ (ih l hl c hc)
    · rw [getlines_cons _ _ ha] at hl
      cases hg : getlines as with
      | nil =>
        simp only [hg, List.mem_singleton] at hl
        subst hl
        rw [List.mem_singleton] at hc
        subst hc
        exact List.mem_cons_self _ _
      | cons l0 ls =>
        simp only [hg] at hl
        rcases List.mem_cons.mp hl with rfl | hl
        · rcases List.mem_cons.mp hc with rfl | hc
          · exact List.mem_cons_self _ _
          · exact List.mem_cons_of_mem _
              (ih l0 (by rw [hg]; exact List.mem_cons_self _ _) c hc)
        · exact List.mem_cons_of_mem _
            (ih l (by rw [hg]; exact List.mem_cons_of_mem _ hl) c hc)

theorem getline_mem (text fallback : Str) (c : Char)
    (hc : c ∈ getline (some text) fallback) : c ∈ text := by
  have hc' : c ∈ (getlines text).headD [] := hc
  cases hg : getlines text with
  | nil =>
    rw [hg] at hc'
    cases hc'
  | cons l ls =>
    rw [hg] at hc'
    exact getlines_mem text l (by rw [hg]; exact List.mem_cons_self _ _) c hc'

theorem cur_no_slash (s : Repo) (text b : Str) (hh : s.head = some text)
    (hslash : '/' ∉ text) (hsub : substr (getline s.head []) 5 = .ok b) : '/' ∉ b := by
  intro hb
  unfold substr at hsub
  split at hsub
  · have e : (getline s.head []).drop 5 = b := by
      cases hsub
      rfl
    rw [← e] at hb
    have hm := List.mem_of_mem_drop hb
    rw [hh] at hm
    exact hslash (getline_mem text [] _ hm)
  · cases hsub

theorem isPrefixOf_word (pre : Str) (hpre : ' ' ∉ pre) : ∀ (f r : Str),
    pre.isPrefixOf (f ++ ' ' :: r) = true → pre.isPrefixOf f = true := by
  induction pre with
  | nil =>
    intro f r _
    cases f <;> rfl
  | cons a as ih =>
    intro f r h
    have ha : a ≠ ' ' := fun e => hpre (by rw [e]; exact List.mem_cons_self _ _)
    have has : ' ' ∉ as := fun e => hpre (List.mem_cons_of_mem _ e)
    cases f with
    | nil =>
      simp only [List.nil_append, List.isPrefixOf, Bool.and_eq_true, beq_iff_eq] at h
      exact absurd h.1 ha
    | cons b bs =>
      simp only [List.cons_append, List.isPrefixOf, Bool.and_eq_true, beq_iff_eq] at h ⊢
      exact ⟨h.1, ih has bs r h.2⟩

theorem startsWith_entry (f h : Str) (hf : startsWith "Parent:".toList f = false) :
    startsWith "Parent:".toList (f ++ " ".toList ++ h) = false := by
  cases hs : startsWith "Parent:".toList (f ++ " ".toList ++ h) with
  | false => rfl
  | true =>
    have e : f ++ " ".toList ++ h = f ++ ' ' :: h := by simp
    rw [e] at hs
    have := isPrefixOf_word "Parent:".toList (by decide) f h hs
    unfold startsWith at hf
    rw [hf] at this
    cases this

theorem getlines_indexText : ∀ (es : List (Str × Str)),
    (∀ e ∈ es, IsWord e.1 ∧ IsWord e.2) →
    getlines (indexText es) = es.map (fun e => e.1 ++ " ".toList ++ e.2) := by
  intro es
  induction es with
  | nil => intro _; rfl
  | cons e rest ih =>
    intro h
    obtain ⟨p, k⟩ := e
    obtain ⟨hp, hk⟩ := h (p, k) (by simp)
    have hline : ∀ c ∈ p ++ " ".toList ++ k, c ≠ '\n' :=
      append_no_newline _ _ (append_no_newline _ _ hp.no_newline (by decide)) hk.no_newline
    have e1 : indexText ((p, k) :: rest) = (p ++ " ".toList ++ k) ++ '\n' :: indexText rest := by
      simp [indexText]
    rw [e1, getlines_line _ _ hline, ih (fun x hx => h x (List.mem_cons_of_mem _ hx))]
    rfl

/-- The last `Parent:` line of a commit file that `commitChanges` writes from staged
entries whose paths are words that do not start with `Parent:` is the header line. -/
theorem logParent_entries (k p d m : Str) (es : List (Str × Str))
    (hk : ∀ c ∈ k, c ≠ '\n') (hp : ∀ c ∈ p, c ≠ '\n') (hd : ∀ c ∈ d, c ≠ '\n')
    (hm : ∀ c ∈ m, c ≠ '\n')
    (hes : ∀ e ∈ es, (IsWord e.1 ∧ startsWith "Parent:".toList e.1 = false) ∧ IsWord e.2) :
    logParent (getlines (commitText k p (d ++ "\n".toList) m (indexText es)))
      "null".toList = .ok p := by
  have e : commitText k p (d ++ "\n".toList) m (indexText es) =
      ("Commit: ".toList ++ k) ++ '\n' :: (("Parent: ".toList ++ p) ++ '\n' ::
        (("Date: ".toList ++ d) ++ '\n' :: (("Message: ".toList ++ m) ++ '\n' ::
          ("Files:".toList ++ '\n' :: indexText es)))) := by
    simp [commitText]
  rw [e, getlines_line _ _ (append_no_newline _ _ (by decide) hk),
    getlines_line _ _ (append_no_newline _ _ (by decide) hp),
    getlines_line _ _ (append_no_newline _ _ (by decide) hd),
    getlines_line _ _ (append_no_newline _ _ (by decide) hm),
    getlines_line "Files:".toList _ (by decide),
    getlines_indexText es (fun x hx => ⟨(hes x hx).1.1, (hes x hx).2⟩)]
  have h1 : startsWith "Parent:".toList ("Commit: ".toList ++ k) = false := by
    simp [startsWith, List.isPrefixOf]
  have h2 : startsWith "Parent:".toList ("Parent: ".toList ++ p) = true := by
    simp [startsWith, List.isPrefixOf]
  have h3 : substr ("Parent: ".toList ++ p) 8 = .ok p := by
    simp [substr]
  simp only [logParent, h1, h2, h3, Bool.false_eq_true, if_false, if_true, bind, Except.bind]
  apply logParent_skip
  intro l hl
  obtain ⟨x, hx, hxl⟩ := List.mem_map.mp hl
  rw [← hxl]
  exact startsWith_entry _ _ (hes x hx).1.2

theorem Consistent.step_commit {s s' : Repo} (hs : Consistent s) (message timestamp : Str)
    (out : List Str) (hc : commitChanges message timestamp s = .ok (s', out)) :
    Consistent s' := by
  cases hidx : s.index with
  | none =>
    rw [commitChanges_absent message timestamp s (Or.inr hidx)] at hc
    simp only [Except.ok.injEq, Prod.mk.injEq] at hc
    rw [← hc.1]
    exact hs
  | some staged =>
    by_cases hst : staged = []
    · rw [hst] at hidx
      rw [commitChanges_empty message timestamp s hs.1 hidx] at hc
      simp only [Except.ok.injEq, Prod.mk.injEq] at hc
      rw [← hc.1]
      exact hs
    · obtain ⟨p, -, -, h1, -, -, -, h2, h3⟩ :=
        commitChanges_staged message timestamp staged s s' out hs.1 hidx hst hc
      refine hs.commit _ _ (simpleHash_hex _) h1 h2 ?_
      rcases h3 with ⟨-, b, -, hh, hb⟩ | ⟨-, hh, hb⟩
      · exact Or.inl ⟨b, hh, hb⟩
      · exact Or.inr ⟨hh, hb⟩

theorem Consistent.createBranch_cases {s s' : Repo} (hs : Consistent s)
    (hslash : ∀ text, s.head = some text → '/' ∉ text) (branchName : Str)
    (hn : '/' ∉ branchName) (out : List Str)
    (hc : createBranch branchName s = .ok (s', out)) :
    s' = s ∨ ∃ h, (s.commits h).isSome = true ∧
      s' = { s with branches := writeFile s.branches branchName (h ++ "\n".toList) } := by
  obtain ⟨text, hh, -, hcase⟩ := hs.head_cases
  cases hfree : s.branches branchName with
  | some t =>
    rw [createBranch_exists branchName text s hs.1 hn hh (by rw [hfree]; rfl)] at hc
    simp only [Except.ok.injEq, Prod.mk.injEq] at hc
    exact Or.inl hc.1.symm
  | none =>
    rcases hcase with ⟨b, hsym, hsub⟩ | ⟨h, hex, hline, hdet⟩
    · have hb0 := cur_no_slash s text b hh (hslash text hh) hsub
      rw [hh] at hsym hsub
      cases hb : s.branches b with
      | none =>
        rw [createBranch_unborn branchName b text s hs.1 hn hb0 hh hfree hsym hsub hb] at hc
        simp only [Except.ok.injEq, Prod.mk.injEq] at hc
        exact Or.inl hc.1.symm
      | some t =>
        rw [createBranch_symbolic branchName b t s text hs.1 hn hb0 hh hfree hsym hsub hb] at hc
        simp only [Except.ok.injEq, Prod.mk.injEq] at hc
        obtain ⟨h, -, hex, hline, -⟩ := hs.branch_tip b t hb
        rw [hline []] at hc
        exact Or.inr ⟨h, hex, hc.1.symm⟩
    · rw [hh] at hline hdet
      rw [createBranch_detached branchName text s hs.1 hn hh hfree hdet] at hc
      simp only [Except.ok.injEq, Prod.mk.injEq] at hc
      rw [hline] at hc
      exact Or.inr ⟨h, hex, hc.1.symm⟩

theorem Consistent.tip_no_slash {s : Repo} (hs : Consistent s) (target : Str)
    (hn : '/' ∉ target) : '/' ∉ getline (s.branches target) target := by
  cases hb : s.branches target with
  | none => exact hn
  | some t =>
    obtain ⟨h, -, -, hline, hhex⟩ := hs.branch_tip target t hb
    rw [hline]
    exact hex_no_slash h hhex

/-- The two outcomes of `checkoutTarget` for a target without `/` in a repository whose
commits hold plain entries: nothing changes, or the files of the working directory and
HEAD change. -/
theorem Consistent.checkout_cases {s : Repo} (hs : Consistent s)
    (hplain : ∀ k, PlainEntries (commitEntries s.commits k)) (target : Str)
    (hn : '/' ∉ target) :
    (s.commits (getline (s.branches target) target) = none ∧
      checkoutTarget target s =
        (s, ["Commit not found for: ".toList ++ target ++ "\n".toList])) ∨
    ∃ text, s.commits (getline (s.branches target) target) = some text ∧
      checkoutTarget target s =
        ({ s with
            files := (restoreNames s.objects (parseFiles false (getlines text)) s.files).1
            head := some (if (s.branches target).isSome then
                "ref: ".toList ++ target ++ "\n".toList
              else getline (s.branches target) target ++ "\n".toList) },
         (restoreNames s.objects (parseFiles false (getlines text)) s.files).2 ++
           ["Checked out ".toList ++
             (if (s.branches target).isSome then "branch".toList else "commit".toList) ++
             ": ".toList ++ target ++ "\n".toList]) := by
  have e := checkoutTarget_plain target _ s hs.1 hn rfl (hs.tip_no_slash target hn) (hplain _)
  cases hc : s.commits (getline (s.branches target) target) with
  | none =>
    rw [hc] at e
    exact Or.inl ⟨rfl, e⟩
  | some text =>
    rw [hc] at e
    exact Or.inr ⟨text, rfl, e⟩

theorem Consistent.step_checkout {s : Repo} (hs : Consistent s)
    (hplain : ∀ k, PlainEntries (commitEntries s.commits k)) (target : Str)
    (hn : '/' ∉ target) :
    Consistent (checkoutTarget target s).1 ∧
      (checkoutTarget target s).1.objects = s.objects ∧
      (checkoutTarget target s).1.commits = s.commits ∧
      (checkoutTarget target s).1.index = s.index ∧
      ((checkoutTarget target s).1.head = s.head ∨
        ∃ text, (checkoutTarget target s).1.head = some text ∧ '/' ∉ text) := by
  rcases hs.checkout_cases hplain target hn with ⟨-, e⟩ | ⟨text, hc, e⟩
  · rw [e]
    exact ⟨hs, rfl, rfl, rfl, Or.inl rfl⟩
  · rw [e]
    refine ⟨hs.checkout _ rfl rfl rfl rfl ?_, rfl, rfl, rfl, Or.inr ⟨_, rfl, ?_⟩⟩
    · cases hb : s.branches target with
      | none =>
        rw [hb] at hc
        refine Or.inr ⟨target, ?_, ?_⟩
        · simp only [Option.isSome_none, Bool.false_eq_true, if_false, getline]
        · rw [show getline none target = target from rfl] at hc
          rw [hc]
          rfl
      | some t =>
        refine Or.inl ⟨target ++ "\n".toList, ?_⟩
        simp only [Option.isSome_some, if_true, List.append_assoc]
    · have hks := hs.tip_no_slash target hn
      split
      · intro hm
        simp only [List.mem_append] at hm
        rcases hm with (hm | hm) | hm
        · exact absurd hm (by decide)
        · exact hn hm
        · exact absurd hm (by decide)
      · intro hm
        rcases List.mem_append.mp hm with hm | hm
        · exact hks hm
        · exact absurd hm (by decide)

theorem Sound.of_same {s s' : Repo} (hs : Sound s) (hc : Consistent s')
    (hh : ∀ text, s'.head = some text → '/' ∉ text)
    (h2 : s'.objects = s.objects) (h3 : s'.commits = s.commits) (h4 : s'.index = s.index) :
    Sound s' := by
  unfold Sound at hs ⊢
  rw [h2, h3, h4]
  exact ⟨hc, hh, hs.2.2⟩

theorem consistent_init (work : Files) : Consistent (initMiniGit (Repo.bare work)).1 := by
  refine ⟨rfl, ?_, ?_, "ref: main\n".toList, rfl, Or.inl ⟨"main\n".toList, rfl⟩⟩
  · intro k hk
    cases hk
  · intro b text hb
    cases hb

theorem sound_init (work : Files) : Sound (initMiniGit (Repo.bare work)).1 := by
  refine ⟨consistent_init work, ?_, ⟨[], rfl, ?_⟩, ?_, ?_, ?_, ?_⟩
  · intro text h
    have e : "ref: main\n".toList = text := Option.some.inj h
    rw [← e]
    decide
  · intro e he
    cases he
  · intro k hk
    cases hk
  · intro k text hk
    cases hk
  · intro k
    rw [commitEntries_none _ _ rfl]
    exact plainEntries_nil
  · intro k text hk
    cases hk

theorem Sound.after_add {s : Repo} (hs : Sound s) (filename : Str) (hf : IsWord filename)
    (hname : IsWorkName filename) (hpar : startsWith "Parent:".toList filename = false) :
    Sound (addFileToStaging filename s).1 := by
  obtain ⟨hc, hh, ⟨es, hes, hall⟩, hp, hd, hpl, hlog⟩ := hs
  rw [addFileToStaging_name filename s hname]
  simp only [hc.1, Bool.not_true, Bool.false_eq_true, if_false]
  cases hw : s.files filename with
  | none => exact ⟨hc, hh, ⟨es, hes, hall⟩, hp, hd, hpl, hlog⟩
  | some content =>
    show Sound { initialized := true, objects := saveBlob s.objects content
                 commits := s.commits, branches := s.branches, head := s.head
                 index := some (s.index.getD [] ++
                   (filename ++ " ".toList ++ simpleHash content ++ "\n".toList))
                 files := s.files, other := s.other }
    refine ⟨hc.of_frame hc.1.symm rfl rfl rfl, hh,
      ⟨es ++ [(filename, simpleHash content)], ?_, ?_⟩, hp, ?_, hpl, hlog⟩
    · show s.index.getD [] ++ _ = _
      rw [indexText_append, hes]
    · intro x hx
      rcases List.mem_append.mp hx with hx | hx
      · obtain ⟨h1, h2, h3, h4⟩ := hall x hx
        exact ⟨h1, h2, h3, saveBlob_isSome _ _ _ h4⟩
      · rw [List.mem_singleton] at hx
        subst hx
        obtain ⟨c, hcc⟩ := saveBlob_present s.objects content
        refine ⟨⟨hf, hname, hpar⟩, simpleHash_isWord _, simpleHash_isName _, ?_⟩
        show (saveBlob s.objects content (simpleHash content)).isSome = true
        rw [hcc]
        rfl
    · intro k text hk x hx
      exact saveBlob_isSome _ _ _ (hd k text hk x hx)

theorem Sound.after_commit {s s' : Repo} (hs : Sound s) (message timestamp : Str)
    (out : List Str) (hm : ∀ c ∈ message, c ≠ '\n') (ht : IsClockLine timestamp)
    (hc : commitChanges message timestamp s = .ok (s', out)) : Sound s' := by
  have hcons' := hs.1.step_commit message timestamp out hc
  obtain ⟨hcons, hh, ⟨es, hes, hall⟩, hp, hd, hpl, hlog⟩ := hs
  cases hidx : s.index with
  | none =>
    rw [commitChanges_absent message timestamp s (Or.inr hidx)] at hc
    simp only [Except.ok.injEq, Prod.mk.injEq] at hc
    rw [← hc.1]
    exact ⟨hcons, hh, ⟨es, hes, hall⟩, hp, hd, hpl, hlog⟩
  | some staged =>
    by_cases hst : staged = []
    · rw [hst] at hidx
      rw [commitChanges_empty message timestamp s hcons.1 hidx] at hc
      simp only [Except.ok.injEq, Prod.mk.injEq] at hc
      rw [← hc.1]
      exact ⟨hcons, hh, ⟨es, hes, hall⟩, hp, hd, hpl, hlog⟩
    · obtain ⟨p, hres, -, -, hobj, -, hi, hcom, hhead⟩ :=
        commitChanges_staged message timestamp staged s s' out hcons.1 hidx hst hc
      obtain ⟨d, rfl, hdn⟩ := ht
      have hstaged : staged = indexText es := by
        rw [hidx] at hes
        exact hes
      have hpn := resolveHead_no_newline s p hres
      have hkn := simpleHash_no_newline (message ++ (d ++ "\n".toList) ++ staged)
      have hmono : ∀ h, (s.commits h).isSome = true → (s'.commits h).isSome = true := by
        intro h hh'
        rw [hcom]
        exact writeFile_isSome _ _ _ _ hh'
      have hnew : s'.commits (simpleHash (message ++ (d ++ "\n".toList) ++ staged)) =
          some (commitText (simpleHash (message ++ (d ++ "\n".toList) ++ staged)) p
            (d ++ "\n".toList) message (indexText es)) := by
        rw [hcom, writeFile_same, ← hstaged]
      have hother : ∀ k, k ≠ simpleHash (message ++ (d ++ "\n".toList) ++ staged) →
          s'.commits k = s.commits k := by
        intro k hk
        rw [hcom]
        exact writeFile_other _ _ _ _ hk
      refine ⟨hcons', ?_, ⟨[], ?_, ?_⟩, ?_, ?_, ?_, ?_⟩
      · intro text h
        rcases hhead with ⟨-, b, -, hsame, -⟩ | ⟨-, hnewh, -⟩
        · rw [hsame] at h
          exact hh text h
        · rw [hnewh] at h
          have e := Option.some.inj h
          rw [← e]
          intro hmem
          rcases List.mem_append.mp hmem with hmem | hmem
          · exact simpleHash_no_slash _ hmem
          · exact absurd hmem (by decide)
      · rw [hi]
        rfl
      · intro e he
        cases he
      · intro k hk
        by_cases hkk : k = simpleHash (message ++ (d ++ "\n".toList) ++ staged)
        · refine ⟨p, ?_, ?_⟩
          · rw [hkk]
            exact parentOf_commitText s'.commits _ _ p (d ++ "\n".toList) message _
              hnew hkn hpn
          · rcases hcons.resolveHead_valid p hres with h | h
            · exact Or.inl h
            · exact Or.inr (hmono p h)
        · have hsame := hother k hkk
          rw [hsame] at hk
          obtain ⟨q, hq, hv⟩ := hp k hk
          refine ⟨q, ?_, ?_⟩
          · rw [parentOf_congr s.commits s'.commits k hsame]
            exact hq
          · rcases hv with h | h
            · exact Or.inl h
            · exact Or.inr (hmono q h)
      · intro k text hk e he
        rw [hobj]
        by_cases hkk : k = simpleHash (message ++ (d ++ "\n".toList) ++ staged)
        · rw [hkk, hnew] at hk
          have e0 := Option.some.inj hk
          rw [← e0, parseFiles_commitText,
            parseFiles_header _ p d message hkn hpn hdn hm,
            parseFiles_indexText es (fun x hx => ⟨(hall x hx).1.1, (hall x hx).2.1⟩),
            List.nil_append] at he
          exact (hall e he).2.2.2
        · rw [hother k hkk] at hk
          exact hd k text hk e he
      · intro k
        by_cases hkk : k = simpleHash (message ++ (d ++ "\n".toList) ++ staged)
        · rw [hkk, commitEntries_commitText s'.commits _ _ p d message es hnew hkn hpn hdn hm
            (fun x hx => ⟨(hall x hx).1.1, (hall x hx).2.1⟩)]
          intro e he
          exact ⟨(hall e he).1.2.1, Or.inr (hall e he).2.2.1⟩
        · have e : commitEntries s'.commits k = commitEntries s.commits k := by
            unfold commitEntries
            rw [hother k hkk]
          rw [e]
          exact hpl k
      · intro k text hk
        by_cases hkk : k = simpleHash (message ++ (d ++ "\n".toList) ++ staged)
        · rw [hkk]
          rw [hkk, hnew] at hk
          have e0 := Option.some.inj hk
          rw [← e0, logParent_entries _ p d message es hkn hpn hdn hm
            (fun x hx => ⟨⟨(hall x hx).1.1, (hall x hx).1.2.2⟩, (hall x hx).2.1⟩)]
          exact (parentOf_commitText s'.commits _ _ p (d ++ "\n".toList) message _
            hnew hkn hpn).symm
        · rw [parentOf_congr s.commits s'.commits k (hother k hkk)]
          rw [hother k hkk] at hk
          exact hlog k text hk

theorem Sound.after_branch {s s' : Repo} (hs : Sound s) (branchName : Str)
    (hn : '/' ∉ branchName) (out : List Str)
    (hc : createBranch branchName s = .ok (s', out)) : Sound s' := by
  rcases hs.1.createBranch_cases hs.2.1 branchName hn out hc with rfl | ⟨h, hex, rfl⟩
  · exact hs
  · exact hs.of_same (hs.1.branch branchName h hex rfl rfl rfl rfl) hs.2.1 rfl rfl rfl

theorem Sound.after_checkout {s : Repo} (hs : Sound s) (target : Str) (hn : '/' ∉ target) :
    Sound (checkoutTarget target s).1 := by
  obtain ⟨h1, h2, h3, h4, h5⟩ := hs.1.step_checkout hs.2.2.2.2.2.1 target hn
  refine hs.of_same h1 ?_ h2 h3 h4
  intro text ht
  rcases h5 with h | ⟨t, h, hs'⟩
  · rw [h] at ht
    exact hs.2.1 text ht
  · rw [h] at ht
    have e := Option.some.inj ht
    rw [← e]
    exact hs'

theorem Sound.after_merge {s s' : Repo} (hs : Sound s) (fuel : Nat) (targetBranch : Str)
    (out : List Str) (hm : mergeBranch fuel targetBranch s = .ok (s', out)) : Sound s' := by
  have hf := mergeBranch_frame fuel targetBranch s s' out hs.1.1 hs.2.2.2.2.2.1 hm
  refine hs.of_same (hs.1.of_frame hf.1 hf.2.2.1 hf.2.2.2.1 hf.2.2.2.2.1) ?_ hf.2.1 hf.2.2.1
    hf.2.2.2.2.2.1
  rw [hf.2.2.2.2.1]
  exact hs.2.1

theorem Sound.after_edit {s : Repo} (hs : Sound s) (work : Files) :
    Sound { s with files := work } :=
  hs.of_same (hs.1.of_frame rfl rfl rfl rfl) hs.2.1 rfl rfl rfl

theorem reachablePlain_sound (s : Repo) (hs : ReachablePlain s) : Sound s := by
  induction hs with
  | init work => exact sound_init work
  | add filename s hf hname hpar _ ih => exact ih.after_add filename hf hname hpar
  | commit message timestamp s s' out hm ht _ hc ih =>
    exact ih.after_commit message timestamp out hm ht hc
  | branch branchName s s' out hn _ hc ih => exact ih.after_branch branchName hn out hc
  | checkout target s hn _ ih => exact ih.after_checkout target hn
  | edit work s _ ih => exact ih.after_edit work
  | merge fuel targetBranch s s' out _ _ hm ih =>
    exact ih.after_merge fuel targetBranch out hm

/-- The commit file of a staged file named `Parent:x`: `showCommitLog` takes the entry
line for a parent line, so the parent that it follows is the blank and the fingerprint
of the entry, and not the parent `p` of the header. -/
theorem logParent_parentPath (k p d m h : Str)
    (hk : ∀ c ∈ k, c ≠ '\n') (hp : ∀ c ∈ p, c ≠ '\n') (hd : ∀ c ∈ d, c ≠ '\n')
    (hm : ∀ c ∈ m, c ≠ '\n') (hh : IsWord h) :
    logParent (getlines (commitText k p (d ++ "\n".toList) m
      (indexText [("Parent:x".toList, h)]))) "null".toList = .ok (' ' :: h) := by
  have e : commitText k p (d ++ "\n".toList) m (indexText [("Parent:x".toList, h)]) =
      ("Commit: ".toList ++ k) ++ '\n' :: (("Parent: ".toList ++ p) ++ '\n' ::
        (("Date: ".toList ++ d) ++ '\n' :: (("Message: ".toList ++ m) ++ '\n' ::
          ("Files:".toList ++ '\n' :: indexText [("Parent:x".toList, h)])))) := by
    simp [commitText]
  rw [e, getlines_line _ _ (append_no_newline _ _ (by decide) hk),
    getlines_line _ _ (append_no_newline _ _ (by decide) hp),
    getlines_line _ _ (append_no_newline _ _ (by decide) hd),
    getlines_line _ _ (append_no_newline _ _ (by decide) hm),
    getlines_line "Files:".toList _ (by decide),
    getlines_indexText [("Parent:x".toList, h)] (by
      intro x hx
      rw [List.mem_singleton] at hx
      rw [hx]
      exact ⟨(⟨by decide, by decide⟩ : IsWord "Parent:x".toList), hh⟩)]
  have h1 : startsWith "Parent:".toList ("Commit: ".toList ++ k) = false := by
    simp [startsWith, List.isPrefixOf]
  have h2 : startsWith "Parent:".toList ("Parent: ".toList ++ p) = true := by
    simp [startsWith, List.isPrefixOf]
  have h3 : substr ("Parent: ".toList ++ p) 8 = .ok p := by
    simp [substr]
  have h4 : startsWith "Parent:".toList ("Date: ".toList ++ d) = false := by
    simp [startsWith, List.isPrefixOf]
  have h5 : startsWith "Parent:".toList ("Message: ".toList ++ m) = false := by
    simp [startsWith, List.isPrefixOf]
  have h6 : startsWith "Parent:".toList "Files:".toList = false := by decide
  have h7 : startsWith "Parent:".toList ("Parent:x".toList ++ " ".toList ++ h) = true := by
    simp [startsWith, List.isPrefixOf]
  have h8 : substr ("Parent:x".toList ++ " ".toList ++ h) 8 = .ok (' ' :: h) := by
    simp [substr]
  simp only [List.map, logParent, h1, h2, h3, h4, h5, h6, h7, h8, Bool.false_eq_true, if_false,
    if_true, bind, Except.bind]
  rfl

theorem Consistent.head_ne_short {s : Repo} (hs : Consistent s) :
    getline s.head [] ≠ "ref:".toList := by
  intro e
  obtain ⟨text, -, -, hcase⟩ := hs.head_cases
  rcases hcase with ⟨b, -, hsub⟩ | ⟨h, -, -, hdet⟩
  · rw [e] at hsub
    cases hsub
  · rw [e] at hdet
    cases hdet

/-- In the states that the commands produce from plain arguments the repository
exists and `HEAD.txt` does not hold the line `ref:` alone, so `commitChanges` does not
throw. -/
theorem reachablePlain_head (s : Repo) (hs : ReachablePlain s) :
    s.initialized = true ∧ getline s.head [] ≠ "ref:".toList :=
  ⟨(reachablePlain_sound s hs).1.1, (reachablePlain_sound s hs).1.head_ne_short⟩

theorem checkoutTarget_keys (target k : Str) (s : Repo) (hi : s.initialized = true)
    (hn : '/' ∉ target) (hk : getline (s.branches target) target = k) (hks : '/' ∉ k) :
    checkoutTarget target s =
      match s.commits k with
      | none => (s, ["Commit not found for: ".toList ++ target ++ "\n".toList])
      | some text =>
          ({ (restoreFiles (parseFiles false (getlines text)) s).1 with
              head := some (if (s.branches target).isSome then
                  "ref: ".toList ++ target ++ "\n".toList
                else k ++ "\n".toList) },
           (restoreFiles (parseFiles false (getlines text)) s).2 ++
             ["Checked out ".toList ++
               (if (s.branches target).isSome then "branch".toList else "commit".toList) ++
               ": ".toList ++ target ++ "\n".toList]) := by
  have hk' : (if (s.branches target).isSome = true then getline (s.branches target) target
      else target) = k := by
    cases hb : s.branches target with
    | none => rw [hb] at hk; simpa [getline] using hk
    | some t => rw [hb] at hk; simpa using hk
  unfold checkoutTarget
  simp only [pathExists_branch s _ hi hn, readPath_branch s _ hi hn, hk',
    pathExists_commit s _ hi hks, readPath_commit s _ hi hks]
  cases hc : s.commits k with
  | none => simp
  | some text =>
    simp only [Option.isSome_some, Bool.not_true, Bool.false_eq_true, if_false,
      Option.getD_some]

theorem resolve_upCommit (k : Str) (h : '/' ∉ k) :
    resolve true (".minigit/branches/".toList ++ ("../commits/".toList ++ k) ++ ".txt".toList) =
      .file .commits (k ++ ".txt".toList) := by
  have e : ".minigit/branches/".toList ++ ("../commits/".toList ++ k) ++ ".txt".toList =
      ".minigit".toList ++ '/' :: ("branches".toList ++ '/' :: ("..".toList ++ '/' ::
        ("commits".toList ++ '/' :: (k ++ ".txt".toList)))) := by
    simp
  obtain ⟨t0, t1, t2⟩ := txt_ne k
  rw [e]
  simp only [resolve]
  rw [if_neg (by simp), components_append _ _ (by decide), components_append _ _ (by decide),
    components_append _ _ (by decide), components_append _ _ (by decide),
    components_name _ (txt_no_slash k h), walk_repo]
  simp at t0 t1 t2
  simp [walk, Dir.child, Dir.parent, t0, t1, t2]

theorem resolve_indexPath :
    resolve true ".minigit/index.txt".toList = .file .repo "index.txt".toList := by
  rfl

theorem work_indexPath (s : Repo) (hi : s.initialized = true) :
    s.work ".minigit/index.txt".toList = s.index := by
  simp only [Repo.work, hi, resolve_indexPath]
  rfl

set_option maxRecDepth 1000000 in
theorem hash_demoStaged :
    simpleHash demoStaged = "49c9cb1a9f91ba9539b303099e3ef302f2b3414b".toList := by
  unfold demoStaged
  rw [hash_x]
  decide

set_option maxRecDepth 1000000 in
theorem hash_demoStaged_twice :
    simpleHash (demoStaged ++ (".minigit/index.txt".toList ++ " ".toList ++
      simpleHash demoStaged ++ "\n".toList)) =
      "a46c3d2c7992797ce425ec88cc94c4ffb91b89a5".toList := by
  rw [hash_demoStaged]
  unfold demoStaged
  rw [hash_x]
  decide

/-- Staging the path `.minigit/index.txt` twice after `init` and `add f`: the first
staging appends a line to that very file, so the second staging reads and puts a
content that the first did not, and the object store gets one more object. -/
theorem add_index_twice :
    (addFileToStaging ".minigit/index.txt".toList demoRepo).1.work
        ".minigit/index.txt".toList ≠ demoRepo.work ".minigit/index.txt".toList ∧
      (addFileToStaging ".minigit/index.txt".toList
        (addFileToStaging ".minigit/index.txt".toList demoRepo).1).1.objects ≠
        (addFileToStaging ".minigit/index.txt".toList demoRepo).1.objects := by
  have hidx : demoRepo.index = some demoStaged := rfl
  have h1 := addFileToStaging_file ".minigit/index.txt".toList demoStaged demoRepo rfl
    ((work_indexPath demoRepo rfl).trans hidx)
  have hw1 : (addFileToStaging ".minigit/index.txt".toList demoRepo).1.work
      ".minigit/index.txt".toList =
      some (demoStaged ++ (".minigit/index.txt".toList ++ " ".toList ++
        simpleHash demoStaged ++ "\n".toList)) := by
    rw [h1]
    exact work_indexPath _ rfl
  have h2 := addFileToStaging_file ".minigit/index.txt".toList _
    (addFileToStaging ".minigit/index.txt".toList demoRepo).1 (by rw [h1]; rfl) hw1
  constructor
  · rw [hw1, work_indexPath demoRepo rfl, hidx]
    intro e
    exact append_newline_ne_nil _ (List.append_right_eq_self.mp (Option.some.inj e))
  · intro e
    have o1 : (addFileToStaging ".minigit/index.txt".toList demoRepo).1.objects =
        saveBlob demoRepo.objects demoStaged := by
      rw [h1]
    have o2 : (addFileToStaging ".minigit/index.txt".toList
        (addFileToStaging ".minigit/index.txt".toList demoRepo).1).1.objects =
        saveBlob (addFileToStaging ".minigit/index.txt".toList demoRepo).1.objects
          (demoStaged ++ (".minigit/index.txt".toList ++ " ".toList ++
            simpleHash demoStaged ++ "\n".toList)) := by
      rw [h2]
    rw [o2, o1] at e
    have hfree : saveBlob demoRepo.objects demoStaged
        "a46c3d2c7992797ce425ec88cc94c4ffb91b89a5".toList = none := by
      rw [demoRepo_objects]
      refine saveBlob_none _ _ _ (saveBlob_none _ _ _ rfl ?_) ?_
      · rw [hash_x]
        decide
      · rw [hash_demoStaged]
        decide
    have hnew : saveBlob (saveBlob demoRepo.objects demoStaged)
        (demoStaged ++ (".minigit/index.txt".toList ++ " ".toList ++
          simpleHash demoStaged ++ "\n".toList))
        "a46c3d2c7992797ce425ec88cc94c4ffb91b89a5".toList =
        some (demoStaged ++ (".minigit/index.txt".toList ++ " ".toList ++
          simpleHash demoStaged ++ "\n".toList)) := by
      have h := saveBlob_fresh (saveBlob demoRepo.objects demoStaged)
        (demoStaged ++ (".minigit/index.txt".toList ++ " ".toList ++
          simpleHash demoStaged ++ "\n".toList))
        (by rw [hash_demoStaged_twice]; exact hfree)
      rw [hash_demoStaged_twice] at h
      exact h
    have e2 := congrFun e "a46c3d2c7992797ce425ec88cc94c4ffb91b89a5".toList
    rw [hnew, hfree] at e2
    cases e2

theorem not_hex_r (k : Str) (hk : ∀ c ∈ k, isHexChar c = true) : 'r' ∉ k := by
  intro hm
  have := hk 'r' hm
  revert this
  decide

theorem ref_ne_demoId : "ref:".toList ≠ demoId := by
  intro e
  have h : 'r' ∈ demoId := by
    rw [← e]
    decide
  exact not_hex_r demoId (simpleHash_hex _) h

theorem filesLine_ne_demoId : demoId ≠ "Files:".toList := by
  intro e
  have h : 'F' ∈ demoId := by
    rw [e]
    decide
  have := simpleHash_hex _ 'F' h
  revert this
  decide

/-- The case of `createBranch` for the name `../commits/<k>` with HEAD on a branch that
has a file, when no commit file `k` exists: the path of the new branch file leads into
`commits/`, and the id is written there. -/
theorem createBranch_upCommit (cur b headText k : Str) (s : Repo)
    (hi : s.initialized = true) (hc : '/' ∉ cur) (hk : '/' ∉ k) (hh : s.head = some headText)
    (hsym : startsWith "ref:".toList (getline (some headText) []) = true)
    (hcur : substr (getline (some headText) []) 5 = .ok cur)
    (hb : s.branches cur = some b) (hfree : s.commits k = none) :
    createBranch ("../commits/".toList ++ k) s =
      .ok ({ s with commits := writeFile s.commits k (getline (some b) [] ++ "\n".toList) },
        ["Created new branch '".toList ++ ("../commits/".toList ++ k) ++
          "' at commit: ".toList ++ getline (some b) [] ++ "\n".toList]) := by
  have hx : pathExists s
      (".minigit/branches/".toList ++ ("../commits/".toList ++ k) ++ ".txt".toList) =
        false := by
    simp only [pathExists, hi, resolve_upCommit k hk, file_commits, hfree, Option.isSome_none]
  have hw : ∀ c, writePath s
      (".minigit/branches/".toList ++ ("../commits/".toList ++ k) ++ ".txt".toList) c =
        { s with commits := writeFile s.commits k c } := by
    intro c
    simp only [writePath, hi, resolve_upCommit k hk, setFile_commits]
  unfold createBranch
  simp only [hh, hx, hw, pathExists_branch s _ hi hc, readPath_branch s _ hi hc,
    Bool.false_eq_true, if_false, hsym, if_true, hcur, bind, Except.bind, hb, pure,
    Except.pure, Option.isSome_some, Bool.not_true]

theorem refRepo1_branch :
    createBranch ("../commits/".toList ++ "ref:".toList) baseRepo =
      .ok (refRepo1, ["Created new branch '".toList ++ ("../commits/".toList ++ "ref:".toList) ++
        "' at commit: ".toList ++ demoId ++ "\n".toList]) := by
  have hfree : baseRepo.commits "ref:".toList = none := by
    rw [baseRepo_commits]
    exact writeFile_other (fun _ => none) demoId _ _ ref_ne_demoId
  rw [createBranch_upCommit "main".toList (demoId ++ "\n".toList) "ref: main\n".toList
    "ref:".toList baseRepo rfl (by decide) (by decide) rfl rfl rfl refs1_main hfree,
    getline_hash_file demoId [] (simpleHash_no_newline _)]
  rfl

/-- The case of `checkoutTarget` for a target that is no branch and names a commit file
without entries: only HEAD changes. -/
theorem checkoutTarget_bare (target text : Str) (s : Repo) (hi : s.initialized = true)
    (hn : '/' ∉ target) (hb : s.branches target = none) (hc : s.commits target = some text)
    (hE : parseFiles false (getlines text) = []) :
    (checkoutTarget target s).1 = { s with head := some (target ++ "\n".toList) } := by
  rw [checkoutTarget_keys target target s hi hn (by rw [hb]; rfl) hn, hc]
  simp only [hE, restoreFiles, hb, Option.isSome_none, Bool.false_eq_true, if_false]

theorem refRepo2_checkout : (checkoutTarget "ref:".toList refRepo1).1 = refRepo2 := by
  have hb : refRepo1.branches "ref:".toList = none :=
    show refs1 "ref:".toList = none from
      writeFile_other (fun _ => none) "main".toList _ "ref:".toList (by decide)
  have hc : refRepo1.commits "ref:".toList = some (demoId ++ "\n".toList) :=
    show recordsR "ref:".toList = _ from writeFile_same _ _ _
  have hE : parseFiles false (getlines (demoId ++ "\n".toList)) = [] := by
    have e : demoId ++ "\n".toList = demoId ++ '\n' :: [] := rfl
    rw [e, getlines_line demoId [] (simpleHash_no_newline _), parseFiles_cons,
      if_neg filesLine_ne_demoId]
    rfl
  rw [checkoutTarget_bare "ref:".toList (demoId ++ "\n".toList) refRepo1 rfl (by decide) hb hc
    hE]
  rfl

theorem refRepo3_add :
    addFileToStaging "f".toList refRepo2 =
      (refRepo3, ["Added '".toList ++ "f".toList ++ "' to staging area.\n".toList]) := by
  have hw : refRepo2.work "f".toList = some "x".toList := by
    rw [work_name _ _ isWorkName_f]
    rfl
  rw [addFileToStaging_eq refRepo2 "f".toList "x".toList rfl hw]
  simp only [refRepo2, refRepo3, demoStaged, Option.getD_some, List.nil_append]

theorem refRepo3_reachable : Reachable refRepo3 := by
  have h1 : Reachable refRepo1 :=
    .branch _ baseRepo refRepo1 _ baseRepo_reachable refRepo1_branch
  have h2 := Reachable.checkout "ref:".toList refRepo1 h1
  rw [refRepo2_checkout] at h2
  have h3 := Reachable.add "f".toList refRepo2 h2
  rw [refRepo3_add] at h3
  exact h3

/-- A state that the commands produce in which `commitChanges` throws: after `init`,
`add f` and `commit`, the command `branch ../commits/ref:` writes a file `ref:.txt` into
`commits/`, `checkout ref:` takes it for a commit and detaches HEAD at `ref:`, and with
`f` staged again `substr(5)` throws on the HEAD line `ref:`. -/
theorem commit_throws_reachable :
    Reachable refRepo3 ∧ refRepo3.initialized = true ∧
      refRepo3.index = some demoStaged ∧ getline refRepo3.head [] = "ref:".toList ∧
      commitChanges demoMessage demoTimestamp refRepo3 = .error .outOfRange :=
  ⟨refRepo3_reachable, rfl, rfl, rfl,
    commitChanges_short_ref demoMessage demoTimestamp demoStaged refRepo3 rfl rfl
      (append_newline_ne_nil _) rfl⟩

end MiniGit
